import Mathlib

/-!
# Verification of fastparquet's schema module

A shallow embedding of `fastparquet/schema.py`: the schema-tree builder
(`schema_tree`), the flattener (`flatten`), the path resolver and level
calculators of `SchemaHelper` (`schema_element`, `is_required`,
`max_repetition_level`, `max_definition_level`), the structural shape
detectors (`_is_list_like`, `_is_map_like`) and the logical-form mapper
(`schema_to_awkward`).

The Python code mutates thrift schema-element objects in place (attaching a
`children` ordered mapping and an `isflat` flag).  We model object identity
explicitly: the flat element list becomes a `Store`, a list of `Obj`s, and a
reference to an element is its index (`Nat`) in that list.  Mutation becomes
`List.set`; an exception becomes `Option.none` / `Except.error`; an
`OrderedDict` becomes an association list with in-place-overwrite insertion
(`odInsert`), matching Python dict semantics.
-/

namespace Fastparquet

/-- The thrift enumeration `parquet_thrift.FieldRepetitionType` (opaque). -/
inductive FieldRepetitionType where
  | REQUIRED
  | OPTIONAL
  | REPEATED
deriving DecidableEq, Repr

/-- The thrift enumeration `parquet_thrift.ConvertedType` (only the constructors
the analysed code distinguishes are named, the rest are `other`). -/
inductive ConvertedType where
  | UTF8
  | MAP
  | MAP_KEY_VALUE
  | LIST
  | other (code : Nat)
deriving DecidableEq, Repr

/-- The thrift enumeration `parquet_thrift.Type` (physical type; opaque). -/
inductive PhysicalType where
  | BYTE_ARRAY
  | FIXED_LEN_BYTE_ARRAY
  | INT32
  | INT64
  | INT96
  | other (code : Nat)
deriving DecidableEq, Repr

/-- A logical-type timestamp unit (`logical_type.TIMESTAMP.unit`): exactly one
of the sub-fields is set. -/
inductive TimeUnit where
  | MilliSeconds
  | MicroSeconds
  | NanoSeconds
deriving DecidableEq, Repr

/-- The `logicalType` annotation: the variants the analysed code probes
(`UNKNOWN`, `TIMESTAMP` with its unit); anything else is `otherVariant`. -/
inductive LogicalType where
  | UNKNOWN
  | TIMESTAMP (unit : TimeUnit)
  | otherVariant (tag : Nat)
deriving DecidableEq, Repr

/-- A parquet thrift schema element, as consumed by `schema.py`: the flat,
externally supplied record.  Optional fields are `Option`; `none` models the
thrift attribute being `None`. -/
structure SchemaElement where
  name : String
  type : Option PhysicalType := none
  converted_type : Option ConvertedType := none
  repetition_type : Option FieldRepetitionType := none
  num_children : Option Nat := none
  logicalType : Option LogicalType := none
deriving DecidableEq, Repr

/-- A schema element object at run time: the element plus the attributes the
code attaches in place — `children` (an ordered mapping name ↦ reference,
absent unless assigned) and `isflat`.  References are store indices. -/
structure Obj where
  elem : SchemaElement
  children : Option (List (String × Nat)) := none
  isflat : Bool := false
deriving DecidableEq, Repr

/-- The object store: one `Obj` per schema element, in file order; a Python
object reference is an index into this list. -/
abbrev Store := List Obj

/-- The store as handed to `SchemaHelper`: the raw elements, no `children`
attribute, `isflat` unset. -/
def initStore (es : List SchemaElement) : Store :=
  es.map fun e => { elem := e }

/-- Python `OrderedDict` assignment `d[k] = v`: overwrite in place if the key
exists, else append. -/
def odInsert {α : Type} (m : List (String × α)) (k : String) (v : α) :
    List (String × α) :=
  if m.any (fun p => p.1 = k) then
    m.map (fun p => if p.1 = k then (k, v) else p)
  else
    m ++ [(k, v)]

/-- Association-list lookup (Python `d[k]`, `none` = `KeyError`). -/
def assocLookup {α : Type} (m : List (String × α)) (k : String) : Option α :=
  match m with
  | [] => none
  | (k', v) :: rest => if k' = k then some v else assocLookup rest k

/-- Read `getattr(obj, 'children', None)`-style: the children mapping of the
object at index `i`, if the attribute was assigned. -/
def childrenOf? (st : Store) (i : Nat) : Option (List (String × Nat)) :=
  (st[i]?).bind (·.children)

/-- Python `len(getattr(item, 'children', []))`: number of realized children, `0`
when the `children` attribute is absent. -/
def childCount (st : Store) (i : Nat) : Nat :=
  ((childrenOf? st i).getD []).length

/-- Attribute `item.converted_type` of the object at index `i`. -/
def convertedTypeOf (st : Store) (i : Nat) : Option ConvertedType :=
  (st[i]?).bind (·.elem.converted_type)

/-- Attribute `item.repetition_type` of the object at index `i`. -/
def repetitionTypeOf (st : Store) (i : Nat) : Option FieldRepetitionType :=
  (st[i]?).bind (·.elem.repetition_type)

/-- Attribute `item.name` of the object at index `i` (`""` for an invalid reference,
which never arises in the runs we reason about). -/
def nameOf (st : Store) (i : Nat) : String :=
  ((st[i]?).map (·.elem.name)).getD ""

/-- Assign the `children` attribute of the object at index `i`. -/
def setChildren (st : Store) (i : Nat) (c : Option (List (String × Nat))) :
    Store :=
  match st[i]? with
  | none => st
  | some o => st.set i { o with children := c }

/-- Python `item["isflat"] = True`. -/
def setIsflat (st : Store) (i : Nat) : Store :=
  match st[i]? with
  | none => st
  | some o => st.set i { o with isflat := true }

/-! ## The Tree Builder — `schema_tree(schema, i=0)`

```python
def schema_tree(schema, i=0):
    root = schema[i]
    root["children"] = OrderedDict()
    while len(root["children"]) < root.num_children:
        i += 1
        s = schema[i]
        root["children"][s.name] = s
        if s.num_children not in [None, 0]:
            i = schema_tree(schema, i)
    if root.num_children:
        return i
    else:
        return i + 1
```

The `while` loop becomes `schemaTreeLoop`.  Recursion through store indices
is not structurally decreasing, so both functions take fuel; running out of
fuel, an out-of-range index (`IndexError`) and a `None` child count reaching
the `<` comparison (`TypeError`) all yield `none`. -/

mutual

def schema_tree (fuel : Nat) (st : Store) (i : Nat) : Option (Store × Nat) :=
  match fuel with
  | 0 => none
  | fuel + 1 =>
    match st[i]? with
    | none => none
    | some root =>
      let st1 := setChildren st i (some [])
      match root.elem.num_children with
      | none => none
      | some n =>
        match schemaTreeLoop fuel st1 i n i with
        | none => none
        | some (st2, j) => if n ≠ 0 then some (st2, j) else some (st2, j + 1)

def schemaTreeLoop (fuel : Nat) (st : Store) (rootIdx need i : Nat) :
    Option (Store × Nat) :=
  match fuel with
  | 0 => none
  | fuel + 1 =>
    let cur := (childrenOf? st rootIdx).getD []
    if cur.length < need then
      match st[i + 1]? with
      | none => none
      | some s =>
        let st1 := setChildren st rootIdx
          (some (odInsert cur s.elem.name (i + 1)))
        if s.elem.num_children = none ∨ s.elem.num_children = some 0 then
          schemaTreeLoop fuel st1 rootIdx need (i + 1)
        else
          match schema_tree fuel st1 (i + 1) with
          | none => none
          | some (st2, j) => schemaTreeLoop fuel st2 rootIdx need j
    else
      some (st, i)

end

/-! ## The Flattener — `flatten(schema, root, name_parts=[])`

```python
def flatten(schema, root, name_parts=[]):
    if not hasattr(schema, 'children'):
        return
    if schema is not root:
        name_parts = name_parts + [schema.name]
    for name, item in schema["children"].copy().items():
        if schema.repetition_type == parquet_thrift.FieldRepetitionType.REPEATED:
            continue
        if len(getattr(item, 'children', [])) == 0:
            root["children"]['.'.join(name_parts + [name])] = item
        elif item.converted_type in [parquet_thrift.ConvertedType.LIST,
                                     parquet_thrift.ConvertedType.MAP]:
            root["children"][...] = item
        else:
            flatten(item, root, name_parts)
            item["isflat"] = True
```

`schema is not root` is reference identity, i.e. index inequality.  The loop
iterates a snapshot (`copy()`) of the mapping, so `flattenItems` takes the
item list as a value.  `root["children"]` raising `KeyError` when the root
has no `children` attribute is modelled by `insertRootChild` returning
`none`. -/

/-- Python `'.'.join(parts)`. -/
def dotJoin (parts : List String) : String :=
  String.intercalate "." parts

/-- Python `root["children"][key] = item` (fails if `root` has no `children`). -/
def insertRootChild (st : Store) (rootId : Nat) (key : String) (item : Nat) :
    Option Store :=
  match st[rootId]? with
  | none => none
  | some r =>
    match r.children with
    | none => none
    | some m => some (st.set rootId { r with children := some (odInsert m key item) })

mutual

def flatten (fuel : Nat) (st : Store) (schemaId rootId : Nat)
    (name_parts : List String) : Option Store :=
  match fuel with
  | 0 => none
  | fuel + 1 =>
    match st[schemaId]? with
    | none => none
    | some o =>
      match o.children with
      | none => some st
      | some items =>
        let nps := if schemaId = rootId then name_parts
                   else name_parts ++ [o.elem.name]
        flattenItems fuel st items o.elem.repetition_type rootId nps

def flattenItems (fuel : Nat) (st : Store) (items : List (String × Nat))
    (rep : Option FieldRepetitionType) (rootId : Nat)
    (name_parts : List String) : Option Store :=
  match fuel with
  | 0 => none
  | fuel + 1 =>
    match items with
    | [] => some st
    | (name, item) :: rest =>
      if rep = some FieldRepetitionType.REPEATED then
        flattenItems fuel st rest rep rootId name_parts
      else if childCount st item = 0 then
        match insertRootChild st rootId (dotJoin (name_parts ++ [name])) item with
        | none => none
        | some st1 => flattenItems fuel st1 rest rep rootId name_parts
      else if convertedTypeOf st item = some ConvertedType.LIST ∨
              convertedTypeOf st item = some ConvertedType.MAP then
        match insertRootChild st rootId (dotJoin (name_parts ++ [name])) item with
        | none => none
        | some st1 => flattenItems fuel st1 rest rep rootId name_parts
      else
        match flatten fuel st item rootId name_parts with
        | none => none
        | some st1 => flattenItems fuel (setIsflat st1 item) rest rep rootId name_parts

end

/-! ## The Path Resolver / Level Calculator — `SchemaHelper` -/

/-- Method `SchemaHelper.schema_element(name)` with the path already split into
segments, walking `root["children"][part]` from node `cur`; `none` models the
`KeyError`/missing-`children` exception. -/
def schema_element (st : Store) (cur : Nat) : List String → Option Nat
  | [] => some cur
  | part :: rest =>
    match childrenOf? st cur with
    | none => none
    | some m =>
      match assocLookup m part with
      | none => none
      | some c => schema_element st c rest

/-- Method `SchemaHelper.is_required(name)`: loop over growing prefixes, breaking at
the first element whose repetition type is not `REQUIRED`. -/
def isRequiredGo (st : Store) (rootId : Nat) :
    List String → List String → Option Bool
  | [], _ => some true
  | part :: rest, parts =>
    let parts' := parts ++ [part]
    match schema_element st rootId parts' with
    | none => none
    | some s =>
      if repetitionTypeOf st s ≠ some FieldRepetitionType.REQUIRED then
        some false
      else
        isRequiredGo st rootId rest parts'

def is_required (st : Store) (rootId : Nat) (name : List String) : Option Bool :=
  isRequiredGo st rootId name []

/-- Shared loop of the two level calculators:
`for i in range(len(parts)): element = schema_element(parts[:i+1]); if pred(element): max_level += 1`. -/
def levelGo (st : Store) (rootId : Nat) (pred : Nat → Bool) :
    List String → List String → Nat → Option Nat
  | [], _, acc => some acc
  | part :: rest, pre, acc =>
    let pre' := pre ++ [part]
    match schema_element st rootId pre' with
    | none => none
    | some e => levelGo st rootId pred rest pre' (acc + if pred e then 1 else 0)

/-- Method `SchemaHelper.max_repetition_level(parts)`. -/
def max_repetition_level (st : Store) (rootId : Nat) (parts : List String) :
    Option Nat :=
  levelGo st rootId
    (fun e => repetitionTypeOf st e = some FieldRepetitionType.REPEATED)
    parts [] 0

/-- Method `SchemaHelper.max_definition_level(parts)`. -/
def max_definition_level (st : Store) (rootId : Nat) (parts : List String) :
    Option Nat :=
  levelGo st rootId
    (fun e => repetitionTypeOf st e ≠ some FieldRepetitionType.REQUIRED)
    parts [] 0

/-! ## Structural Shape Detectors — `_is_list_like` / `_is_map_like`

Both receive the helper (here: the store and the root index) and a column
carrying `meta_data.path_in_schema`.  A raised exception (`KeyError` from
a missing `children` attribute, `IndexError` from `list(...)[0]` on an empty
mapping, `PathNotFound` from `schema_element`) is modelled as `none`. -/

structure ColumnMetaData where
  path_in_schema : List String
deriving DecidableEq, Repr

structure Column where
  meta_data : ColumnMetaData
deriving DecidableEq, Repr

/-- Python `list(d.values())[0]`; `none` models the `IndexError` on an empty dict. -/
def firstValue {α : Type} (m : List (String × α)) : Option α :=
  (m.head?).map (·.2)

/-- Python `set(d) == {'key', 'value'}` for the keys of an ordered mapping. -/
def keysAreKeyValue {α : Type} (m : List (String × α)) : Bool :=
  m.all (fun p => p.1 = "key" ∨ p.1 = "value") &&
    m.any (fun p => p.1 = "key") && m.any (fun p => p.1 = "value")

def _is_list_like (st : Store) (rootId : Nat) (column : Column) : Option Bool :=
  let path := column.meta_data.path_in_schema
  if path.length < 3 then some false else
  (schema_element st rootId path.dropLast.dropLast).bind fun se =>
  if convertedTypeOf st se ≠ some ConvertedType.LIST then some false else
  (childrenOf? st se).bind fun m =>
  if m.length > 1 then some false else
  (firstValue m).bind fun se2 =>
  (childrenOf? st se2).bind fun m2 =>
  if m2.length > 1 then some false else
  if repetitionTypeOf st se2 ≠ some FieldRepetitionType.REPEATED then some false
  else
  (firstValue m2).bind fun se3 =>
  if repetitionTypeOf st se3 = some FieldRepetitionType.REPEATED then some false
  else some true

def _is_map_like (st : Store) (rootId : Nat) (column : Column) : Option Bool :=
  let path := column.meta_data.path_in_schema
  if path.length < 3 then some false else
  (schema_element st rootId path.dropLast.dropLast).bind fun se =>
  if convertedTypeOf st se ≠ some ConvertedType.MAP then some false else
  (childrenOf? st se).bind fun m =>
  if m.length > 1 then some false else
  (firstValue m).bind fun se2 =>
  (childrenOf? st se2).bind fun m2 =>
  if m2.length ≠ 2 then some false else
  if repetitionTypeOf st se2 ≠ some FieldRepetitionType.REPEATED then some false
  else if ¬ keysAreKeyValue m2 then some false
  else
  (assocLookup m2 "key").bind fun k =>
  if repetitionTypeOf st k ≠ some FieldRepetitionType.REQUIRED then some false
  else
  (assocLookup m2 "value").bind fun v =>
  if repetitionTypeOf st v = some FieldRepetitionType.REPEATED then some false
  else some true

/-! ## The Logical-Form Mapper — `schema_to_awkward(se, topname="")`

The awkward `forms` constructors become the `Form` inductive; a raised
exception (`NotImplementedError`, `AttributeError` from probing a missing
thrift sub-field, `IndexError` from `_first` on an empty mapping) becomes
`Except.error` with the exception's name. -/

inductive Form where
  | NumpyForm (dtype : String) (form_key : Option String)
  | ListOffsetForm (offsets : String) (content : Form)
      (parameters : Option String) (form_key : Option String)
  | EmptyForm (form_key : Option String)
  | RecordForm (contents : List Form) (names : List String)
  | ByteMaskedForm (mask : String) (content : Form) (valid_when : Bool)
      (form_key : Option String)

/-- Helper `_optional(form, key)`. -/
def _optional (form : Form) (key : String) : Form :=
  Form.ByteMaskedForm "i8" form true (some key)

/-- Modelled from the spec: the `simple` lookup table of the external
`converted_types` module (not among the analysed sources), mapping a
physical type to the name of its in-memory representation; `simple.get`
returns `None` for an absent key.  Per the spec, the 96-bit physical
timestamp resolves to a 64-bit nanosecond timestamp representation. -/
def simpleGet : Option PhysicalType → Option String
  | some PhysicalType.INT32 => some "int32"
  | some PhysicalType.INT64 => some "int64"
  | some PhysicalType.INT96 => some "M8[ns]"
  | some PhysicalType.BYTE_ARRAY => some "object"
  | some PhysicalType.FIXED_LEN_BYTE_ARRAY => some "object"
  | _ => none

/-- Modelled from the spec: the `complex` lookup table of the external
`converted_types` module, refining a legacy converted type; none of the
converted types distinguished by the analysed code carry a refined
in-memory representation, so every lookup misses. -/
def complexGet : Option ConvertedType → Option String
  | _ => none

mutual

def schema_to_awkward (fuel : Nat) (st : Store) (seId : Nat)
    (topname : String) : Except String Form :=
  match fuel with
  | 0 => Except.error "fuel exhausted"
  | fuel + 1 =>
    match st[seId]? with
    | none => Except.error "invalid reference"
    | some o =>
      let se := o.elem
      let stype := simpleGet se.type
      let ctype := complexGet se.converted_type
      let fullname := if topname = "" then se.name
                      else topname ++ "." ++ se.name
      let optional := se.repetition_type = some FieldRepetitionType.OPTIONAL
      let branch : Except String (Form × Bool) :=
        if (o.children.getD []).isEmpty then
          -- leaf node
          let dtype := ((ctype).orElse (fun _ => stype)).getD "None"
          if se.type = some PhysicalType.BYTE_ARRAY ∨
             se.type = some PhysicalType.FIXED_LEN_BYTE_ARRAY then
            -- string/bytes
            let utf := se.converted_type = some ConvertedType.UTF8
            let parameters := if utf then "string" else "bytestring"
            Except.ok (Form.ListOffsetForm "i32" (Form.NumpyForm "uint8" none)
              (some parameters) (some fullname), optional)
          else if se.logicalType = some LogicalType.UNKNOWN then
            -- null
            Except.ok (Form.EmptyForm (some fullname), optional)
          else if dtype = "M8[ns]" ∧ se.logicalType ≠ none then
            -- timestamp: probe se.logical_type.TIMESTAMP.unit
            match se.logicalType with
            | some (LogicalType.TIMESTAMP u) =>
              let dtype2 := match u with
                | TimeUnit.MicroSeconds => "M8[us]"
                | TimeUnit.MilliSeconds => "M8[ms]"
                | TimeUnit.NanoSeconds => dtype
              Except.ok (Form.NumpyForm dtype2 (some fullname), optional)
            | _ => Except.error "AttributeError"
          else
            -- any other number type
            Except.ok (Form.NumpyForm dtype (some fullname), optional)
        else if se.converted_type = some ConvertedType.LIST then
          -- list
          match firstValue (o.children.getD []) with
          | none => Except.error "IndexError"
          | some first =>
            let picked : Except String (Nat × Bool) :=
              if repetitionTypeOf st first = some FieldRepetitionType.REPEATED then
                match childrenOf? st first with
                | none => Except.error "AttributeError"
                | some m =>
                  match firstValue m with
                  | none => Except.error "IndexError"
                  | some c => Except.ok (c, true)
              else
                -- required list type (rare)
                Except.ok (first, optional)
            match picked with
            | Except.error e => Except.error e
            | Except.ok (child, opt) =>
              match schema_to_awkward fuel st child fullname with
              | Except.error e => Except.error e
              | Except.ok f =>
                Except.ok (Form.ListOffsetForm "i32" f none (some fullname), opt)
        else if se.repetition_type = some FieldRepetitionType.REPEATED then
          -- a repeated field not marked as a LIST - probably doesn't happen
          Except.error "NotImplementedError"
        else
          -- not a leaf, not a list: must be a struct
          match awkwardChildren fuel st (o.children.getD []) fullname with
          | Except.error e => Except.error e
          | Except.ok contents =>
            Except.ok (Form.RecordForm contents
              ((o.children.getD []).map (fun p => nameOf st p.2)), optional)
      match branch with
      | Except.error e => Except.error e
      | Except.ok (form, opt) =>
        if opt then Except.ok (_optional form fullname) else Except.ok form

def awkwardChildren (fuel : Nat) (st : Store) (cs : List (String × Nat))
    (topname : String) : Except String (List Form) :=
  match fuel with
  | 0 => Except.error "fuel exhausted"
  | fuel + 1 =>
    match cs with
    | [] => Except.ok []
    | (_, c) :: rest =>
      match schema_to_awkward fuel st c topname with
      | Except.error e => Except.error e
      | Except.ok f =>
        match awkwardChildren fuel st rest topname with
        | Except.error e => Except.error e
        | Except.ok fs => Except.ok (f :: fs)

end

/-! ## Concrete schemas used in witnesses and counterexamples

Each store below is the in-memory state of a small schema after
`schema_tree` has run (the `children` mappings are filled in); the raw
element lists they come from are also given, so that the tree-builder
theorems can be exercised on them. -/

/-- A group element with `num_children` set. -/
def seGroup (nm : String) (n : Nat)
    (rep : Option FieldRepetitionType := none)
    (ct : Option ConvertedType := none) : SchemaElement :=
  { name := nm, num_children := some n, repetition_type := rep,
    converted_type := ct }

/-- A leaf element (`num_children` absent). -/
def seLeaf (nm : String) (t : PhysicalType) (rep : FieldRepetitionType)
    (ct : Option ConvertedType := none) : SchemaElement :=
  { name := nm, type := some t, repetition_type := some rep,
    converted_type := ct }

/-- Scenario store: message root with a REQUIRED INT32 leaf `a` and an
OPTIONAL BYTE_ARRAY/UTF8 leaf `b`, after tree building. -/
def stAB : Store :=
  [ { elem := seGroup "root" 2, children := some [("a", 1), ("b", 2)] },
    { elem := { seLeaf "a" PhysicalType.INT32 FieldRepetitionType.REQUIRED
                with num_children := some 0 } },
    { elem := seLeaf "b" PhysicalType.BYTE_ARRAY FieldRepetitionType.OPTIONAL
                (some ConvertedType.UTF8) } ]

/-- Scenario store: root containing a REQUIRED struct `s` with an OPTIONAL
leaf `x`, after tree building. -/
def stSX : Store :=
  [ { elem := seGroup "root" 1, children := some [("s", 1)] },
    { elem := seGroup "s" 1 (some FieldRepetitionType.REQUIRED),
      children := some [("x", 2)] },
    { elem := seLeaf "x" PhysicalType.INT32 FieldRepetitionType.OPTIONAL } ]

/-- Scenario store: canonical 3-level LIST — OPTIONAL group `items`
(converted LIST) → REPEATED group `list` → REQUIRED INT64 leaf `element`,
after tree building. -/
def stList : Store :=
  [ { elem := seGroup "root" 1, children := some [("items", 1)] },
    { elem := seGroup "items" 1 (some FieldRepetitionType.OPTIONAL)
        (some ConvertedType.LIST), children := some [("list", 2)] },
    { elem := seGroup "list" 1 (some FieldRepetitionType.REPEATED),
      children := some [("element", 3)] },
    { elem := seLeaf "element" PhysicalType.INT64 FieldRepetitionType.REQUIRED } ]

/-- Scenario store: 2-level LIST encoding — OPTIONAL group `g` (converted
LIST) whose only child is the REPEATED INT64 leaf `e`, after tree
building. -/
def stGE : Store :=
  [ { elem := seGroup "root" 1, children := some [("g", 1)] },
    { elem := seGroup "g" 1 (some FieldRepetitionType.OPTIONAL)
        (some ConvertedType.LIST), children := some [("e", 2)] },
    { elem := seLeaf "e" PhysicalType.INT64 FieldRepetitionType.REPEATED } ]

/-- Scenario store: a group `m` annotated MAP that is itself REPEATED, with a
single REQUIRED leaf child `k`, after tree building. -/
def stMapRep : Store :=
  [ { elem := seGroup "root" 1, children := some [("m", 1)] },
    { elem := seGroup "m" 1 (some FieldRepetitionType.REPEATED)
        (some ConvertedType.MAP), children := some [("k", 2)] },
    { elem := seLeaf "k" PhysicalType.INT32 FieldRepetitionType.REQUIRED } ]

/-- The raw two-element list: a root declaring one child, and a leaf `a`;
the smallest group schema. -/
def pairElems : List SchemaElement :=
  [ seGroup "root" 1,
    seLeaf "a" PhysicalType.INT32 FieldRepetitionType.REQUIRED ]

/-- The store produced by `schema_tree` on `pairElems`. -/
def pairBuilt : Store :=
  [ { elem := seGroup "root" 1, children := some [("a", 1)] },
    { elem := seLeaf "a" PhysicalType.INT32 FieldRepetitionType.REQUIRED } ]

/-! ## Path resolution lemmas -/

theorem assocLookup_isSome_of_any {α : Type} (m : List (String × α))
    (k : String) (h : m.any (fun p => p.1 = k) = true) :
    ∃ v, assocLookup m k = some v := by
  induction m with
  | nil => simp at h
  | cons p rest ih =>
    simp only [List.any_cons, Bool.or_eq_true, decide_eq_true_eq] at h
    by_cases hk : p.1 = k
    · exact ⟨p.2, by simp [assocLookup, hk]⟩
    · rcases h with h | h
      · exact absurd h hk
      · obtain ⟨v, hv⟩ := ih h
        exact ⟨v, by simpa [assocLookup, hk] using hv⟩

theorem assocLookup_ne_nil {α : Type} (m : List (String × α)) (k : String)
    (v : α) (h : assocLookup m k = some v) : m ≠ [] := by
  intro hnil; subst hnil; simp [assocLookup] at h

/-- Resolution of a concatenated path factors through the intermediate
node. -/
theorem schema_element_append (st : Store) (cur : Nat) (xs ys : List String) :
    schema_element st cur (xs ++ ys) =
      (schema_element st cur xs).bind (fun c => schema_element st c ys) := by
  induction xs generalizing cur with
  | nil => simp [schema_element]
  | cons p rest ih =>
    simp only [List.cons_append, schema_element]
    cases h1 : childrenOf? st cur with
    | none => simp [h1]
    | some m =>
      cases h2 : assocLookup m p with
      | none => simp [h1, h2]
      | some c => simp [h1, h2, ih c]

/-- If a path resolves, so does every prefix of it. -/
theorem schema_element_prefix (st : Store) (cur : Nat) (xs : List String)
    (tgt : Nat) (h : schema_element st cur xs = some tgt) (k : Nat) :
    ∃ m, schema_element st cur (xs.take k) = some m := by
  have hsplit : xs = xs.take k ++ xs.drop k := (List.take_append_drop k xs).symm
  rw [hsplit, schema_element_append] at h
  cases hres : schema_element st cur (xs.take k) with
  | none => rw [hres] at h; simp at h
  | some m => exact ⟨m, rfl⟩

/-- Unfolds the level-calculator loop over a concatenation of path
segments. -/
theorem levelGo_append (st : Store) (r : Nat) (pred : Nat → Bool)
    (xs ys pre : List String) (acc : Nat) :
    levelGo st r pred (xs ++ ys) pre acc =
      match levelGo st r pred xs pre acc with
      | none => none
      | some a => levelGo st r pred ys (pre ++ xs) a := by
  induction xs generalizing pre acc with
  | nil => simp [levelGo]
  | cons p rest ih =>
    simp only [List.cons_append, levelGo]
    cases h1 : schema_element st r (pre ++ [p]) with
    | none => simp [h1]
    | some e => simp [h1, ih, List.append_assoc]

/-! ## Claim C2 — level recurrences -/

/-- **C2.** For every non-root resolvable path `p = q ++ [x]`,
`max_definition_level p = max_definition_level q + (0 if the element at `p`
is REQUIRED else 1)`, and `max_repetition_level p = max_repetition_level q +
(1 if the element at `p` is REPEATED else 0)`. -/
theorem C2_level_recurrence (st : Store) (rootId : Nat) (q : List String)
    (x : String) (d rl : Nat)
    (hd : max_definition_level st rootId (q ++ [x]) = some d)
    (hr : max_repetition_level st rootId (q ++ [x]) = some rl) :
    ∃ d' rl' e, max_definition_level st rootId q = some d' ∧
      max_repetition_level st rootId q = some rl' ∧
      schema_element st rootId (q ++ [x]) = some e ∧
      d = d' + (if repetitionTypeOf st e = some FieldRepetitionType.REQUIRED
                then 0 else 1) ∧
      rl = rl' + (if repetitionTypeOf st e = some FieldRepetitionType.REPEATED
                  then 1 else 0) := by
  unfold max_definition_level at hd ⊢
  unfold max_repetition_level at hr ⊢
  rw [levelGo_append] at hd hr
  cases hq : levelGo st rootId
      (fun e => repetitionTypeOf st e ≠ some FieldRepetitionType.REQUIRED)
      q [] 0 with
  | none => rw [hq] at hd; simp at hd
  | some a =>
    cases hq' : levelGo st rootId
        (fun e => repetitionTypeOf st e = some FieldRepetitionType.REPEATED)
        q [] 0 with
    | none => rw [hq'] at hr; simp at hr
    | some a' =>
      rw [hq] at hd
      rw [hq'] at hr
      simp only [levelGo, List.nil_append] at hd hr
      cases he : schema_element st rootId (q ++ [x]) with
      | none => rw [he] at hd; simp at hd
      | some e =>
        rw [he] at hd hr
        simp only [levelGo] at hd hr
        refine ⟨a, a', e, rfl, rfl, rfl, ?_, ?_⟩
        · by_cases hrep : repetitionTypeOf st e = some FieldRepetitionType.REQUIRED
          · simp [hrep] at hd ⊢; omega
          · simp [hrep] at hd ⊢; omega
        · by_cases hrep : repetitionTypeOf st e = some FieldRepetitionType.REPEATED
          · simp [hrep] at hr ⊢; omega
          · simp [hrep] at hr ⊢; omega

/-- Witness for C2: the path `["s", "x"]` in the struct scenario store
(REQUIRED struct `s`, OPTIONAL leaf `x`): definition level 1 = 0 + 1,
repetition level 0 = 0 + 0. -/
theorem C2_level_recurrence_witness :
    ∃ d' rl' e, max_definition_level stSX 0 ["s"] = some d' ∧
      max_repetition_level stSX 0 ["s"] = some rl' ∧
      schema_element stSX 0 (["s"] ++ ["x"]) = some e ∧
      1 = d' + (if repetitionTypeOf stSX e = some FieldRepetitionType.REQUIRED
                then 0 else 1) ∧
      0 = rl' + (if repetitionTypeOf stSX e = some FieldRepetitionType.REPEATED
                 then 1 else 0) :=
  C2_level_recurrence stSX 0 ["s"] "x" 1 0 (by decide) (by decide)

/-! ## Claim C8 — requiredness versus definition level -/

/-- Decomposition of a successful one-step-plus resolution. -/
theorem schema_element_cons_some (st : Store) (cur : Nat) (p : String)
    (rest : List String) (tgt : Nat)
    (h : schema_element st cur (p :: rest) = some tgt) :
    ∃ m c, childrenOf? st cur = some m ∧ assocLookup m p = some c ∧
      schema_element st c rest = some tgt := by
  simp only [schema_element] at h
  split at h
  · exact absurd h (by simp)
  · rename_i m hm
    split at h
    · exact absurd h (by simp)
    · rename_i c hc
      exact ⟨m, c, hm, hc, h⟩

/-- For a path that resolves, the level-calculator loop succeeds whatever
the start accumulator, adding some count. -/
theorem levelGo_total (st : Store) (r : Nat) (pred : Nat → Bool) (tgt : Nat) :
    ∀ (rest pre : List String) (cur acc : Nat),
      schema_element st r pre = some cur →
      schema_element st cur rest = some tgt →
      ∃ n, levelGo st r pred rest pre acc = some (acc + n) := by
  intro rest
  induction rest with
  | nil => intro pre cur acc _ _; exact ⟨0, by simp [levelGo]⟩
  | cons p rest' ih =>
    intro pre cur acc hpre h
    obtain ⟨m, c, h1, h2, h⟩ := schema_element_cons_some st cur p rest' tgt h
    have hpre' : schema_element st r (pre ++ [p]) = some c := by
      rw [schema_element_append, hpre]
      simp [schema_element, h1, h2]
    simp only [levelGo, hpre']
    obtain ⟨n, hn⟩ := ih (pre ++ [p]) c (acc + if pred c then 1 else 0) hpre' h
    exact ⟨(if pred c then 1 else 0) + n, by rw [hn, Nat.add_assoc]⟩

/-- Core relation between `is_required`'s loop and `max_definition_level`'s
loop along a resolvable path. -/
theorem isRequiredGo_levelGo (st : Store) (r : Nat) (tgt : Nat) :
    ∀ (rest pre : List String) (cur acc : Nat),
      schema_element st r pre = some cur →
      schema_element st cur rest = some tgt →
      ∃ b n, isRequiredGo st r rest pre = some b ∧
        levelGo st r
          (fun e => repetitionTypeOf st e ≠ some FieldRepetitionType.REQUIRED)
          rest pre acc = some (acc + n) ∧
        (b = true ↔ n = 0) ∧
        (b = true ↔ ∀ k, k < rest.length → ∃ e,
          schema_element st cur (rest.take (k + 1)) = some e ∧
          repetitionTypeOf st e = some FieldRepetitionType.REQUIRED) := by
  intro rest
  induction rest with
  | nil =>
    intro pre cur acc _ _
    exact ⟨true, 0, by simp [isRequiredGo], by simp [levelGo], by simp, by simp⟩
  | cons p rest' ih =>
    intro pre cur acc hpre h
    obtain ⟨m, c, h1, h2, h⟩ := schema_element_cons_some st cur p rest' tgt h
    have hpre' : schema_element st r (pre ++ [p]) = some c := by
      rw [schema_element_append, hpre]
      simp [schema_element, h1, h2]
    have hstep : ∀ l, schema_element st cur (p :: l) = schema_element st c l := by
      intro l; simp [schema_element, h1, h2]
    by_cases hc : repetitionTypeOf st c = some FieldRepetitionType.REQUIRED
    · obtain ⟨b, n, hb, hn, hbn, hbc⟩ := ih (pre ++ [p]) c acc hpre' h
      refine ⟨b, n, ?_, ?_, hbn, ?_⟩
      · simp only [isRequiredGo, hpre']
        simp [hc, hb]
      · simp only [levelGo, hpre']
        simpa [hc] using hn
      · rw [hbc]
        constructor
        · intro hchain k hk
          match k with
          | 0 =>
            refine ⟨c, ?_, hc⟩
            simpa using hstep []
          | k' + 1 =>
            rw [List.take_succ_cons, hstep]
            exact hchain k' (by simpa using hk)
        · intro hchain k hk
          have := hchain (k + 1) (by simpa using Nat.succ_lt_succ hk)
          rwa [List.take_succ_cons, hstep] at this
    · obtain ⟨n', hn'⟩ := levelGo_total st r
        (fun e => repetitionTypeOf st e ≠ some FieldRepetitionType.REQUIRED)
        tgt rest' (pre ++ [p]) c (acc + 1) hpre' h
      refine ⟨false, 1 + n', ?_, ?_, by simp, ?_⟩
      · simp only [isRequiredGo, hpre']
        simp [hc]
      · simp only [levelGo, hpre']
        simpa [hc, Nat.add_assoc] using hn'
      · refine iff_of_false (by simp) ?_
        intro hchain
        obtain ⟨e, he, hrep⟩ := hchain 0 (by simp)
        have : schema_element st cur [p] = some c := by simpa using hstep []
        simp only [List.take_succ_cons, List.take_zero] at he
        rw [this] at he
        cases he
        exact hc hrep

/-- **C8.** For every resolvable path, `is_required` succeeds and is true
exactly when `max_definition_level` is `0`, i.e. exactly when every node
along the path (first segment through target) is REQUIRED. -/
theorem C8_is_required_iff_zero_deflevel (st : Store) (rootId : Nat)
    (parts : List String) (tgt : Nat)
    (h : schema_element st rootId parts = some tgt) :
    ∃ b d, is_required st rootId parts = some b ∧
      max_definition_level st rootId parts = some d ∧
      (b = true ↔ d = 0) ∧
      (b = true ↔ ∀ k, k < parts.length → ∃ e,
        schema_element st rootId (parts.take (k + 1)) = some e ∧
        repetitionTypeOf st e = some FieldRepetitionType.REQUIRED) := by
  obtain ⟨b, n, hb, hn, h1, h2⟩ :=
    isRequiredGo_levelGo st rootId tgt parts [] rootId 0 rfl h
  exact ⟨b, n, hb, by simpa [max_definition_level] using hn, h1, h2⟩

/-- Witness for C8: in the struct scenario store, the path `["s"]` (REQUIRED
struct) is required and has definition level 0. -/
theorem C8_is_required_iff_zero_deflevel_witness :
    ∃ b d, is_required stSX 0 ["s"] = some b ∧
      max_definition_level stSX 0 ["s"] = some d ∧
      (b = true ↔ d = 0) ∧
      (b = true ↔ ∀ k, k < (["s"] : List String).length → ∃ e,
        schema_element stSX 0 ((["s"] : List String).take (k + 1)) = some e ∧
        repetitionTypeOf stSX e = some FieldRepetitionType.REQUIRED) :=
  C8_is_required_iff_zero_deflevel stSX 0 ["s"] 1 (by decide)

/-! ## Claim C4 — shape detectors on deviating columns -/

theorem assoc_singleton_of_le_one {α : Type} (m : List (String × α))
    (k : String) (v : α) (hlen : m.length ≤ 1)
    (h : assocLookup m k = some v) : m = [(k, v)] := by
  match m with
  | [] => simp [assocLookup] at h
  | [(k', v')] =>
    simp only [assocLookup] at h
    by_cases hk : k' = k
    · subst hk
      simp at h
      subst h
      rfl
    · simp [hk, assocLookup] at h
  | p :: p2 :: rest => simp at hlen

/-- The list detector cannot raise on a column whose recorded path actually
resolves through the tree two levels past `path[:-2]`. -/
theorem is_list_like_total (st : Store) (rootId : Nat) (c : Column)
    (q : List String) (y z : String) (se se2 tgt : Nat)
    (m m2 : List (String × Nat))
    (hpath : c.meta_data.path_in_schema = q ++ [y, z])
    (hq : schema_element st rootId q = some se)
    (hm : childrenOf? st se = some m) (hy : assocLookup m y = some se2)
    (hm2 : childrenOf? st se2 = some m2)
    (hz : assocLookup m2 z = some tgt) :
    ∃ b, _is_list_like st rootId c = some b := by
  have e1 : q ++ [y, z] = (q ++ [y]) ++ [z] := by simp
  simp only [_is_list_like]
  rw [hpath, e1, List.dropLast_concat, List.dropLast_concat]
  by_cases hlen : ((q ++ [y]) ++ [z]).length < 3
  · exact ⟨false, by rw [if_pos hlen]⟩
  · rw [if_neg hlen, hq, Option.some_bind]
    by_cases hct : convertedTypeOf st se ≠ some ConvertedType.LIST
    · exact ⟨false, by rw [if_pos hct]⟩
    · rw [if_neg hct, hm, Option.some_bind]
      by_cases h1 : m.length > 1
      · exact ⟨false, by rw [if_pos h1]⟩
      · have hms : m = [(y, se2)] :=
          assoc_singleton_of_le_one m y se2 (by omega) hy
        subst hms
        rw [if_neg h1, show firstValue [(y, se2)] = some se2 from rfl,
          Option.some_bind, hm2, Option.some_bind]
        by_cases h2 : m2.length > 1
        · exact ⟨false, by rw [if_pos h2]⟩
        · rw [if_neg h2]
          by_cases h3 :
            repetitionTypeOf st se2 ≠ some FieldRepetitionType.REPEATED
          · exact ⟨false, by rw [if_pos h3]⟩
          · rw [if_neg h3]
            obtain ⟨w, v, rest, rfl⟩ :
                ∃ w v rest, m2 = (w, v) :: rest := by
              cases m2 with
              | nil => simp [assocLookup] at hz
              | cons p ps => exact ⟨p.1, p.2, ps, rfl⟩
            rw [show firstValue ((w, v) :: rest) = some v from rfl,
              Option.some_bind]
            by_cases h4 :
              repetitionTypeOf st v = some FieldRepetitionType.REPEATED
            · exact ⟨false, by rw [if_pos h4]⟩
            · exact ⟨true, by rw [if_neg h4]⟩

/-- The map detector cannot raise on a column whose recorded path actually
resolves through the tree two levels past `path[:-2]`. -/
theorem is_map_like_total (st : Store) (rootId : Nat) (c : Column)
    (q : List String) (y z : String) (se se2 tgt : Nat)
    (m m2 : List (String × Nat))
    (hpath : c.meta_data.path_in_schema = q ++ [y, z])
    (hq : schema_element st rootId q = some se)
    (hm : childrenOf? st se = some m) (hy : assocLookup m y = some se2)
    (hm2 : childrenOf? st se2 = some m2)
    (hz : assocLookup m2 z = some tgt) :
    ∃ b, _is_map_like st rootId c = some b := by
  have e1 : q ++ [y, z] = (q ++ [y]) ++ [z] := by simp
  simp only [_is_map_like]
  rw [hpath, e1, List.dropLast_concat, List.dropLast_concat]
  by_cases hlen : ((q ++ [y]) ++ [z]).length < 3
  · exact ⟨false, by rw [if_pos hlen]⟩
  · rw [if_neg hlen, hq, Option.some_bind]
    by_cases hct : convertedTypeOf st se ≠ some ConvertedType.MAP
    · exact ⟨false, by rw [if_pos hct]⟩
    · rw [if_neg hct, hm, Option.some_bind]
      by_cases h1 : m.length > 1
      · exact ⟨false, by rw [if_pos h1]⟩
      · have hms : m = [(y, se2)] :=
          assoc_singleton_of_le_one m y se2 (by omega) hy
        subst hms
        rw [if_neg h1, show firstValue [(y, se2)] = some se2 from rfl,
          Option.some_bind, hm2, Option.some_bind]
        by_cases h2 : m2.length ≠ 2
        · exact ⟨false, by rw [if_pos h2]⟩
        · rw [if_neg h2]
          by_cases h3 :
            repetitionTypeOf st se2 ≠ some FieldRepetitionType.REPEATED
          · exact ⟨false, by rw [if_pos h3]⟩
          · rw [if_neg h3]
            by_cases h4 : keysAreKeyValue m2 = true
            · obtain ⟨vk, hvk⟩ := assocLookup_isSome_of_any m2 "key" (by
                simp only [keysAreKeyValue, Bool.and_eq_true] at h4
                exact h4.1.2)
              obtain ⟨vv, hvv⟩ := assocLookup_isSome_of_any m2 "value" (by
                simp only [keysAreKeyValue, Bool.and_eq_true] at h4
                exact h4.2)
              rw [if_neg (by simpa using h4), hvk, Option.some_bind]
              by_cases h5 :
                repetitionTypeOf st vk ≠ some FieldRepetitionType.REQUIRED
              · exact ⟨false, by rw [if_pos h5]⟩
              · rw [if_neg h5, hvv, Option.some_bind]
                by_cases h6 :
                  repetitionTypeOf st vv = some FieldRepetitionType.REPEATED
                · exact ⟨false, by rw [if_pos h6]⟩
                · exact ⟨true, by rw [if_neg h6]⟩
            · exact ⟨false, by rw [if_pos (by simpa using h4)]⟩

/-- **C4 (amended).** For a column whose recorded `path_in_schema` is a real
path of the schema tree (it resolves, and has length at least 3), both
detectors return a boolean — structural deviations yield `false` via the
guarded checks — rather than raising.  (As the counterexample shows, a
column whose recorded path does not resolve that far can make the probes
raise, so the resolvability hypothesis is necessary.) -/
theorem C4_shape_detectors_no_raise (st : Store) (rootId : Nat) (c : Column)
    (tgt : Nat) (hlen : 3 ≤ c.meta_data.path_in_schema.length)
    (hres : schema_element st rootId c.meta_data.path_in_schema = some tgt) :
    (∃ b, _is_list_like st rootId c = some b) ∧
    (∃ b, _is_map_like st rootId c = some b) := by
  set path := c.meta_data.path_in_schema with hpdef
  have hne : path ≠ [] := by
    intro hnil; rw [hnil] at hlen; simp at hlen
  have hsplit1 : path.dropLast ++ [path.getLast hne] = path :=
    List.dropLast_append_getLast hne
  have hne2 : path.dropLast ≠ [] := by
    intro hnil
    have := congrArg List.length hsplit1
    rw [hnil] at this
    simp at this
    omega
  have hsplit2 : path.dropLast.dropLast ++ [path.dropLast.getLast hne2] =
      path.dropLast := List.dropLast_append_getLast hne2
  set q := path.dropLast.dropLast with hqdef
  set y := path.dropLast.getLast hne2 with hydef
  set z := path.getLast hne with hzdef
  have hpath : path = q ++ [y, z] := by
    rw [← hsplit1, ← hsplit2]
    simp
  rw [hpath] at hres
  have e1 : q ++ [y, z] = (q ++ [y]) ++ [z] := by simp
  rw [e1, schema_element_append] at hres
  cases hq : schema_element st rootId (q ++ [y]) with
  | none => rw [hq] at hres; simp at hres
  | some se2 =>
    rw [hq] at hres
    simp only [Option.some_bind] at hres
    obtain ⟨m2, c2, hm2, hz2, hres2⟩ :=
      schema_element_cons_some st se2 z [] tgt hres
    simp only [schema_element, Option.some_inj] at hres2
    subst hres2
    rw [schema_element_append] at hq
    cases hq0 : schema_element st rootId q with
    | none => rw [hq0] at hq; simp at hq
    | some se =>
      rw [hq0] at hq
      simp only [Option.some_bind] at hq
      obtain ⟨m, c1, hm, hy1, hres1⟩ :=
        schema_element_cons_some st se y [] se2 hq
      simp only [schema_element, Option.some_inj] at hres1
      subst hres1
      constructor
      · exact is_list_like_total st rootId c q y z se c1 c2 m m2
          hpath hq0 hm hy1 hm2 hz2
      · exact is_map_like_total st rootId c q y z se c1 c2 m m2
          hpath hq0 hm hy1 hm2 hz2

/-- Witness for C4 (amended): the canonical 3-level LIST store with the real
column path `items.list.element`. -/
theorem C4_shape_detectors_no_raise_witness :
    (∃ b, _is_list_like stList 0 ⟨⟨["items", "list", "element"]⟩⟩ = some b) ∧
    (∃ b, _is_map_like stList 0 ⟨⟨["items", "list", "element"]⟩⟩ = some b) :=
  C4_shape_detectors_no_raise stList 0 ⟨⟨["items", "list", "element"]⟩⟩ 3
    (by decide) (by decide)

/-- **C4 (counterexample).** In the 2-level-LIST store, the column with the
fabricated path `g.x.y` deviates structurally from the canonical 3-level
shape (the probed node `e` is a leaf with no children mapping), yet
`_is_list_like` raises (`none`) instead of returning `false` — the claim
demands `some false` here. -/
theorem C4_counterexample :
    _is_list_like stGE 0 ⟨⟨["g", "x", "y"]⟩⟩ = none ∧
    childCount stGE 2 = 0 ∧ convertedTypeOf stGE 1 = some ConvertedType.LIST := by
  refine ⟨?_, by decide, by decide⟩
  decide

/-! ## Claim C9 — the Logical-Form Mapper on groups -/

/-- A form that is a `ListOf` (possibly wrapped in `Optional`). -/
def isListOfForm : Form → Prop
  | Form.ListOffsetForm _ _ _ _ => True
  | Form.ByteMaskedForm _ (Form.ListOffsetForm _ _ _ _) _ _ => True
  | _ => False

/-- A form that is a `Struct` (possibly wrapped in `Optional`). -/
def isStructForm : Form → Prop
  | Form.RecordForm _ _ => True
  | Form.ByteMaskedForm _ (Form.RecordForm _ _) _ _ => True
  | _ => False

/-- **C9 (amended).** A non-leaf node whose repetition type is REPEATED and
whose converted type is not LIST — including a MAP-annotated one — makes the
mapper fail with `NotImplementedError`; and whenever the mapper returns a
form for a non-leaf node, that form is a (possibly Optional-wrapped) ListOf
when the node is LIST-annotated and a Struct otherwise. -/
theorem C9_repeated_group_shape (fuel : Nat) (st : Store) (seId : Nat)
    (topname : String) (o : Obj) (ho : st[seId]? = some o)
    (hnl : (o.children.getD []).isEmpty = false) :
    (o.elem.repetition_type = some FieldRepetitionType.REPEATED →
      o.elem.converted_type ≠ some ConvertedType.LIST →
      schema_to_awkward (fuel + 1) st seId topname =
        Except.error "NotImplementedError") ∧
    (∀ f, schema_to_awkward (fuel + 1) st seId topname = Except.ok f →
      (o.elem.converted_type = some ConvertedType.LIST ∧ isListOfForm f) ∨
      (o.elem.converted_type ≠ some ConvertedType.LIST ∧
        o.elem.repetition_type ≠ some FieldRepetitionType.REPEATED ∧
        isStructForm f)) := by
  constructor
  · intro hrep hct
    simp only [schema_to_awkward, ho]
    simp [hnl, hct, hrep]
  · intro f hok
    simp only [schema_to_awkward, ho] at hok
    simp only [hnl, Bool.false_eq_true, if_false] at hok
    by_cases hct : o.elem.converted_type = some ConvertedType.LIST
    · left
      refine ⟨hct, ?_⟩
      simp only [hct, if_true] at hok
      split at hok
      · exact absurd hok (by simp)
      · rename_i branch form opt heq
        split at heq
        · exact absurd heq (by simp)
        · split at heq
          · exact absurd heq (by simp)
          · split at heq
            · exact absurd heq (by simp)
            · simp only [Except.ok.injEq, Prod.mk.injEq] at heq
              obtain ⟨hform, hopt⟩ := heq
              subst hform
              split at hok
              · cases hok
                simp [_optional, isListOfForm]
              · cases hok
                simp [isListOfForm]
    · right
      refine ⟨hct, ?_⟩
      simp only [hct, if_false] at hok
      by_cases hrep : o.elem.repetition_type = some FieldRepetitionType.REPEATED
      · simp [hrep] at hok
      · refine ⟨hrep, ?_⟩
        simp only [hrep, if_false] at hok
        split at hok
        · exact absurd hok (by simp)
        · rename_i branch form opt heq
          split at heq
          · exact absurd heq (by simp)
          · simp only [Except.ok.injEq, Prod.mk.injEq] at heq
            obtain ⟨hform, hopt⟩ := heq
            subst hform
            split at hok
            · cases hok
              simp [_optional, isStructForm]
            · cases hok
              simp [isStructForm]

/-- **C9 (counterexample).** A group that is REPEATED and annotated MAP —
which the claim places among "any other group", expected to yield a form —
actually raises `NotImplementedError`. -/
theorem C9_counterexample :
    childCount stMapRep 1 ≠ 0 ∧
    repetitionTypeOf stMapRep 1 = some FieldRepetitionType.REPEATED ∧
    convertedTypeOf stMapRep 1 = some ConvertedType.MAP ∧
    schema_to_awkward 10 stMapRep 1 "" =
      Except.error "NotImplementedError" := by
  refine ⟨by decide, by decide, by decide, ?_⟩
  rfl

/-- Witness for C9 (amended): the struct node `s` of the struct scenario
yields a Struct form. -/
theorem C9_repeated_group_shape_witness :
    ((seGroup "s" 1 (some FieldRepetitionType.REQUIRED)).converted_type =
        some ConvertedType.LIST ∧
      isListOfForm (Form.RecordForm
        [Form.ByteMaskedForm "i8" (Form.NumpyForm "int32" (some "s.x")) true
          (some "s.x")] ["x"])) ∨
    ((seGroup "s" 1 (some FieldRepetitionType.REQUIRED)).converted_type ≠
        some ConvertedType.LIST ∧
      (seGroup "s" 1 (some FieldRepetitionType.REQUIRED)).repetition_type ≠
        some FieldRepetitionType.REPEATED ∧
      isStructForm (Form.RecordForm
        [Form.ByteMaskedForm "i8" (Form.NumpyForm "int32" (some "s.x")) true
          (some "s.x")] ["x"])) :=
  (C9_repeated_group_shape 9 stSX 1 ""
    { elem := seGroup "s" 1 (some FieldRepetitionType.REQUIRED),
      children := some [("x", 2)] } rfl rfl).2
    (Form.RecordForm
      [Form.ByteMaskedForm "i8" (Form.NumpyForm "int32" (some "s.x")) true
        (some "s.x")] ["x"]) rfl

/-! ## Concrete counterexamples for the Tree Builder and Flattener claims -/

/-- The struct scenario store after `flatten(root, root)`: the flat key
`s.x` has been added, `s` is marked `isflat` — and the entry `s` is still
present (the code never removes it; the removing `pop` is commented out). -/
def stSXflat : Store :=
  [ { elem := seGroup "root" 1, children := some [("s", 1), ("s.x", 2)] },
    { elem := seGroup "s" 1 (some FieldRepetitionType.REQUIRED),
      children := some [("x", 2)], isflat := true },
    { elem := seLeaf "x" PhysicalType.INT32 FieldRepetitionType.OPTIONAL } ]

/-- **C5 (counterexample).** For the root containing struct `s` with leaf
`x`, the flat index after flattening contains the key `"s.x"` — but it also
still contains the key `"s"` (mapped to the struct node, now marked
`isflat`), which the claim says must not appear. -/
theorem C5_counterexample :
    flatten 10 stSX 0 0 [] = some stSXflat ∧
    assocLookup ((childrenOf? stSXflat 0).getD []) "s.x" = some 2 ∧
    assocLookup ((childrenOf? stSXflat 0).getD []) "s" = some 1 ∧
    childCount stSXflat 1 ≠ 0 ∧
    (stSXflat[1]?).map (·.isflat) = some true := by
  refine ⟨by decide, by decide, by decide, by decide, by decide⟩

/-- **C6 (counterexample).** On the valid two-element list (root declaring
one child, leaf `a`), the subtree of the root consumes the elements at
indices 0 and 1 — the element at index 1 ends up in the root's children
mapping — so the index immediately following the last consumed element is
2; but `schema_tree` returns 1, the index *of* the last consumed element. -/
theorem C6_counterexample :
    schema_tree 10 (initStore pairElems) 0 = some (pairBuilt, 1) ∧
    childrenOf? pairBuilt 0 = some [("a", 1)] ∧
    (1 : Nat) ≠ 2 := by
  refine ⟨by decide, by decide, by decide⟩

/-- **C3 (counterexample).** In the 2-level LIST store, the leaf `e`
(index 2) is reachable from the root through `g`, and no node on the way is
REPEATED — so it is not "nested beneath a legacy REPEATED group" — yet after
flattening it appears in the flat index under *no* dotted path: the index
holds only the opaque entry `"g"`, because recursion stops at the
LIST-annotated group. -/
theorem C3_counterexample :
    flatten 10 stGE 0 0 [] = some stGE ∧
    childrenOf? stGE 0 = some [("g", 1)] ∧
    childrenOf? stGE 1 = some [("e", 2)] ∧
    childCount stGE 2 = 0 ∧
    repetitionTypeOf stGE 0 ≠ some FieldRepetitionType.REPEATED ∧
    repetitionTypeOf stGE 1 ≠ some FieldRepetitionType.REPEATED ∧
    ((childrenOf? stGE 0).getD []).countP (fun p => p.2 = 2) = 0 := by
  refine ⟨by decide, by decide, by decide, by decide, by decide, by decide,
    by decide⟩

/-! ## Claim C10 — the frame of `flatten`

The flattener writes only the root's `children` mapping and `isflat` flags:
every object keeps its `elem`, every non-root object keeps its `children`,
and the store gains no objects. -/

/-- The store changed only at the root's `children` mapping and in `isflat`
flags: sizes agree, all elements agree, all non-root children agree. -/
def FrameOK (st st' : Store) (r : Nat) : Prop :=
  st'.length = st.length ∧
  (∀ id : Nat, id ≠ r →
    Option.map (fun o => o.children) st'[id]? =
      Option.map (fun o => o.children) st[id]?) ∧
  (∀ id : Nat, Option.map (fun o => o.elem) st'[id]? =
    Option.map (fun o => o.elem) st[id]?)

theorem frameOK_refl (st : Store) (r : Nat) : FrameOK st st r :=
  ⟨rfl, fun _ _ => rfl, fun _ => rfl⟩

theorem frameOK_trans {st st1 st2 : Store} {r : Nat}
    (h1 : FrameOK st st1 r) (h2 : FrameOK st1 st2 r) : FrameOK st st2 r :=
  ⟨h2.1.trans h1.1,
   fun id hid => (h2.2.1 id hid).trans (h1.2.1 id hid),
   fun id => (h2.2.2 id).trans (h1.2.2 id)⟩

theorem frameOK_set_root_children {st : Store} {r : Nat} {o : Obj}
    (ho : st[r]? = some o) (c : Option (List (String × Nat))) :
    FrameOK st (st.set r { o with children := c }) r := by
  have hr : r < st.length := by
    by_contra hge
    rw [List.getElem?_eq_none (by omega)] at ho
    cases ho
  refine ⟨List.length_set .., fun id hid => ?_, fun id => ?_⟩
  · rw [List.getElem?_set_ne (by omega)]
  · by_cases hid : id = r
    · subst hid
      rw [List.getElem?_set_self hr, ho]
      rfl
    · rw [List.getElem?_set_ne (by omega)]

theorem frameOK_setIsflat (st : Store) (i r : Nat) :
    FrameOK st (setIsflat st i) r := by
  unfold setIsflat
  cases ho : st[i]? with
  | none => exact frameOK_refl st r
  | some o =>
    have hi : i < st.length := by
      by_contra hge
      rw [List.getElem?_eq_none (by omega)] at ho
      cases ho
    refine ⟨List.length_set .., fun id _ => ?_, fun id => ?_⟩
    · by_cases hid : id = i
      · subst hid
        rw [List.getElem?_set_self hi, ho]
        rfl
      · rw [List.getElem?_set_ne (by omega)]
    · by_cases hid : id = i
      · subst hid
        rw [List.getElem?_set_self hi, ho]
        rfl
      · rw [List.getElem?_set_ne (by omega)]

theorem frameOK_insertRootChild {st st1 : Store} {r : Nat} {key : String}
    {item : Nat} (h : insertRootChild st r key item = some st1) :
    FrameOK st st1 r := by
  unfold insertRootChild at h
  split at h
  · cases h
  · rename_i o ho
    split at h
    · cases h
    · rename_i m hm
      cases h
      exact frameOK_set_root_children ho _

/-- The frame property of a successful `flatten`/`flattenItems` run, by
induction on fuel. -/
theorem flatten_frame_aux : ∀ fuel : Nat,
    (∀ st schemaId rootId nps st',
      flatten fuel st schemaId rootId nps = some st' →
      FrameOK st st' rootId) ∧
    (∀ st items rep rootId nps st',
      flattenItems fuel st items rep rootId nps = some st' →
      FrameOK st st' rootId) := by
  intro fuel
  induction fuel with
  | zero =>
    constructor
    · intro st schemaId rootId nps st' h
      simp [flatten] at h
    · intro st items rep rootId nps st' h
      simp [flattenItems] at h
  | succ fuel ih =>
    obtain ⟨ihf, ihi⟩ := ih
    constructor
    · intro st schemaId rootId nps st' h
      simp only [flatten] at h
      split at h
      · cases h
      · rename_i o ho
        split at h
        · cases h
          exact frameOK_refl st rootId
        · exact ihi _ _ _ _ _ _ h
    · intro st items rep rootId nps st' h
      cases items with
      | nil =>
        simp only [flattenItems] at h
        cases h
        exact frameOK_refl st rootId
      | cons p rest =>
        obtain ⟨name, item⟩ := p
        simp only [flattenItems] at h
        split at h
        · exact ihi _ _ _ _ _ _ h
        · split at h
          · split at h
            · cases h
            · rename_i st1 hins
              exact frameOK_trans (frameOK_insertRootChild hins)
                (ihi _ _ _ _ _ _ h)
          · split at h
            · split at h
              · cases h
              · rename_i st1 hins
                exact frameOK_trans (frameOK_insertRootChild hins)
                  (ihi _ _ _ _ _ _ h)
            · split at h
              · cases h
              · rename_i st1 hrec
                exact frameOK_trans
                  (frameOK_trans (ihf _ _ _ _ _ hrec)
                    (frameOK_setIsflat st1 item rootId))
                  (ihi _ _ _ _ _ _ h)

/-- Children mappings only reference positions inside the store. -/
def Bounded (st : Store) : Prop :=
  ∀ i m, childrenOf? st i = some m → ∀ p ∈ m, p.2 < st.length

/-- Decidable check for `Bounded`. -/
def boundedB (st : Store) : Bool :=
  st.all fun o =>
    match o.children with
    | none => true
    | some m => m.all fun p => p.2 < st.length

theorem bounded_of_boundedB {st : Store} (h : boundedB st = true) :
    Bounded st := by
  intro i m hm p hp
  simp only [childrenOf?, Option.bind_eq_some] at hm
  obtain ⟨o, ho, hoc⟩ := hm
  have hmem : o ∈ st := by
    have := List.getElem?_eq_some_iff.mp ho
    obtain ⟨hlt, heq⟩ := this
    exact heq ▸ List.getElem_mem hlt
  have := (List.all_eq_true.mp h) o hmem
  rw [hoc] at this
  have := (List.all_eq_true.mp this) p hp
  simpa using this

theorem odInsert_mem {α : Type} {m : List (String × α)} {k : String} {v : α}
    {p : String × α} (hp : p ∈ odInsert m k v) : p ∈ m ∨ p = (k, v) := by
  unfold odInsert at hp
  split at hp
  · obtain ⟨q, hq, hq2⟩ := List.mem_map.mp hp
    by_cases hk : q.1 = k
    · right; rw [if_pos hk] at hq2; exact hq2.symm
    · left; rw [if_neg hk] at hq2; exact hq2 ▸ hq
  · rcases List.mem_append.mp hp with h | h
    · exact Or.inl h
    · right; simpa using h

theorem childrenOf?_setIsflat (st : Store) (i j : Nat) :
    childrenOf? (setIsflat st i) j = childrenOf? st j := by
  unfold setIsflat
  cases ho : st[i]? with
  | none => rfl
  | some o =>
    have hi : i < st.length := by
      by_contra hge
      rw [List.getElem?_eq_none (by omega)] at ho
      cases ho
    unfold childrenOf?
    by_cases hij : j = i
    · subst hij
      rw [List.getElem?_set_self hi, ho]
      rfl
    · rw [List.getElem?_set_ne (by omega)]

theorem length_setIsflat (st : Store) (i : Nat) :
    (setIsflat st i).length = st.length := by
  unfold setIsflat
  cases st[i]? with
  | none => rfl
  | some o => exact List.length_set ..

theorem bounded_insertRootChild {st st1 : Store} {r : Nat} {key : String}
    {item : Nat} (hb : Bounded st) (hitem : item < st.length)
    (h : insertRootChild st r key item = some st1) : Bounded st1 := by
  unfold insertRootChild at h
  split at h
  · cases h
  · rename_i o ho
    split at h
    · cases h
    · rename_i m hm
      cases h
      have hr : r < st.length := by
        by_contra hge
        rw [List.getElem?_eq_none (by omega)] at ho
        cases ho
      intro i mi hmi p hp
      rw [List.length_set]
      unfold childrenOf? at hmi
      by_cases hir : i = r
      · subst hir
        rw [List.getElem?_set_self hr] at hmi
        simp only [Option.some_bind] at hmi
        cases hmi
        rcases odInsert_mem hp with hin | hkv
        · exact hb i m (by simp [childrenOf?, ho, hm]) p hin
        · rw [hkv]; exact hitem
      · rw [List.getElem?_set_ne (by omega)] at hmi
        exact hb i mi hmi p hp

/-- A successful `flatten` run preserves `Bounded`. -/
theorem flatten_bounded_aux : ∀ fuel : Nat,
    (∀ st schemaId rootId nps st', Bounded st →
      flatten fuel st schemaId rootId nps = some st' → Bounded st') ∧
    (∀ st items rep rootId nps st', Bounded st →
      (∀ p ∈ items, p.2 < st.length) →
      flattenItems fuel st items rep rootId nps = some st' → Bounded st') := by
  intro fuel
  induction fuel with
  | zero =>
    constructor
    · intro st schemaId rootId nps st' _ h
      simp [flatten] at h
    · intro st items rep rootId nps st' _ _ h
      simp [flattenItems] at h
  | succ fuel ih =>
    obtain ⟨ihf, ihi⟩ := ih
    constructor
    · intro st schemaId rootId nps st' hb h
      simp only [flatten] at h
      split at h
      · cases h
      · rename_i o ho
        split at h
        · cases h
          exact hb
        · rename_i items hoc
          refine ihi _ _ _ _ _ _ hb ?_ h
          intro p hp
          exact hb schemaId items (by simp [childrenOf?, ho, hoc]) p hp
    · intro st items rep rootId nps st' hb hbi h
      cases items with
      | nil =>
        simp only [flattenItems] at h
        cases h
        exact hb
      | cons q rest =>
        obtain ⟨name, item⟩ := q
        simp only [flattenItems] at h
        split at h
        · exact ihi _ _ _ _ _ _ hb (fun p hp => hbi p (by simp [hp])) h
        · split at h
          · split at h
            · cases h
            · rename_i st1 hins
              have hb1 : Bounded st1 :=
                bounded_insertRootChild hb (hbi (name, item) (by simp)) hins
              have hfr := frameOK_insertRootChild hins
              refine ihi _ _ _ _ _ _ hb1 ?_ h
              intro p hp
              rw [hfr.1]
              exact hbi p (by simp [hp])
          · split at h
            · split at h
              · cases h
              · rename_i st1 hins
                have hb1 : Bounded st1 :=
                  bounded_insertRootChild hb (hbi (name, item) (by simp)) hins
                have hfr := frameOK_insertRootChild hins
                refine ihi _ _ _ _ _ _ hb1 ?_ h
                intro p hp
                rw [hfr.1]
                exact hbi p (by simp [hp])
            · split at h
              · cases h
              · rename_i st1 hrec
                have hb1 : Bounded st1 := ihf _ _ _ _ _ hb hrec
                have hb2 : Bounded (setIsflat st1 item) := by
                  intro i mi hmi p hp
                  rw [length_setIsflat]
                  rw [childrenOf?_setIsflat] at hmi
                  exact hb1 i mi hmi p hp
                have hfr := (flatten_frame_aux fuel).1 _ _ _ _ _ hrec
                refine ihi _ _ _ _ _ _ hb2 ?_ h
                intro p hp
                rw [length_setIsflat, hfr.1]
                exact hbi p (by simp [hp])

/-- **C10.** Flattening writes only to the root's `children` mapping and to
`isflat` flags: the store gains no objects, every object keeps its element,
every non-root object keeps exactly its original children mapping, and
every entry of the resulting flat index references a position of the
original store (the original nodes themselves, not copies). -/
theorem C10_flatten_frame (fuel : Nat) (st st' : Store)
    (hb : boundedB st = true) (h : flatten fuel st 0 0 [] = some st') :
    st'.length = st.length ∧
    (∀ id : Nat, id ≠ 0 →
      Option.map (fun o => o.children) st'[id]? =
        Option.map (fun o => o.children) st[id]?) ∧
    (∀ id : Nat, Option.map (fun o => o.elem) st'[id]? =
      Option.map (fun o => o.elem) st[id]?) ∧
    (∀ p ∈ (childrenOf? st' 0).getD [], p.2 < st.length) := by
  obtain ⟨h1, h2, h3⟩ := (flatten_frame_aux fuel).1 _ _ _ _ _ h
  have hb' : Bounded st' :=
    (flatten_bounded_aux fuel).1 _ _ _ _ _ (bounded_of_boundedB hb) h
  refine ⟨h1, h2, h3, ?_⟩
  intro p hp
  cases hc : childrenOf? st' 0 with
  | none => rw [hc] at hp; simp at hp
  | some m =>
    rw [hc] at hp
    simp only [Option.getD_some] at hp
    have := hb' 0 m hc p hp
    omega

/-- Witness for C10: flattening the struct scenario store. -/
theorem C10_flatten_frame_witness :
    stSXflat.length = stSX.length ∧
    (∀ id : Nat, id ≠ 0 →
      Option.map (fun o => o.children) stSXflat[id]? =
        Option.map (fun o => o.children) stSX[id]?) ∧
    (∀ id : Nat, Option.map (fun o => o.elem) stSXflat[id]? =
      Option.map (fun o => o.elem) stSX[id]?) ∧
    (∀ p ∈ (childrenOf? stSXflat 0).getD [], p.2 < stSX.length) :=
  C10_flatten_frame 10 stSX stSXflat (by decide) (by decide)

/-! ## Claims C1 and C6 — the Tree Builder on valid preorder lists

A valid preorder element list is the preorder serialization of a tree whose
declared `num_children` agree with the realized child lists (and whose
sibling names are distinct, as required for the name-keyed mapping).  We
build such trees as the inductive `PT`, serialize them with `preElems`, and
characterize a successful `schema_tree` run on the serialization. -/

/-- An abstract schema tree: one element plus its ordered children. -/
inductive PT where
  | node (e : SchemaElement) (cs : List PT)

/-- The element at the root of an abstract tree. -/
def PT.elemOf : PT → SchemaElement
  | PT.node e _ => e

/-- The child list of an abstract tree. -/
def PT.childrenOf : PT → List PT
  | PT.node _ cs => cs

/-- The name of an abstract tree's root element. -/
def nameOfPT (t : PT) : String :=
  t.elemOf.name

mutual

/-- Preorder serialization of an abstract tree. -/
def preElems : PT → List SchemaElement
  | PT.node e cs => e :: preElemsList cs

def preElemsList : List PT → List SchemaElement
  | [] => []
  | c :: rest => preElems c ++ preElemsList rest

end

/-- The number of elements in an abstract tree. -/
def psize (t : PT) : Nat :=
  (preElems t).length

mutual

/-- Validity of a tree as a preorder serialization source: a childless node
declares `num_children` absent or `0`; a node with children declares exactly
their count; sibling names are distinct. -/
def serOKb : PT → Bool
  | PT.node e cs =>
    (if cs.isEmpty then
      decide (e.num_children = none ∨ e.num_children = some 0)
     else decide (e.num_children = some cs.length)) &&
    decide ((cs.map nameOfPT).Nodup) && serOKList cs

def serOKList : List PT → Bool
  | [] => true
  | c :: rest => serOKb c && serOKList rest

end

mutual

/-- The store segment produced by a successful `schema_tree` run on the
serialization of `t` laid out from absolute position `base`: the node itself
(with its realized children mapping when it has children) followed by the
built subtrees of its children.  Leaf children stay raw (no `children`
attribute), exactly as the code leaves them. -/
def builtObjs (base : Nat) : PT → List Obj
  | PT.node e cs =>
    { elem := e,
      children := if cs.isEmpty then none
                  else some (childEntries (base + 1) cs) } ::
      builtChildren (base + 1) cs

def builtChildren (base : Nat) : List PT → List Obj
  | [] => []
  | c :: rest => builtObjs base c ++ builtChildren (base + psize c) rest

def childEntries (base : Nat) : List PT → List (String × Nat)
  | [] => []
  | c :: rest => (nameOfPT c, base) :: childEntries (base + psize c) rest

end

theorem preElems_node (e : SchemaElement) (cs : List PT) :
    preElems (PT.node e cs) = e :: preElemsList cs := rfl

theorem preElemsList_cons (c : PT) (rest : List PT) :
    preElemsList (c :: rest) = preElems c ++ preElemsList rest := rfl

theorem psize_node (e : SchemaElement) (cs : List PT) :
    psize (PT.node e cs) = 1 + (preElemsList cs).length := by
  simp [psize, preElems, Nat.add_comm]

theorem initStore_append (xs ys : List SchemaElement) :
    initStore (xs ++ ys) = initStore xs ++ initStore ys :=
  List.map_append _ _ _

theorem initStore_cons (e : SchemaElement) (xs : List SchemaElement) :
    initStore (e :: xs) = { elem := e } :: initStore xs := rfl

theorem serOKb_node {e : SchemaElement} {cs : List PT}
    (h : serOKb (PT.node e cs) = true) :
    (cs = [] → e.num_children = none ∨ e.num_children = some 0) ∧
    (cs ≠ [] → e.num_children = some cs.length) ∧
    (cs.map nameOfPT).Nodup ∧ serOKList cs = true := by
  simp only [serOKb, Bool.and_eq_true, decide_eq_true_eq] at h
  obtain ⟨⟨h1, h2⟩, h3⟩ := h
  by_cases he : cs = []
  · subst he
    simp only [List.isEmpty_nil, if_true, decide_eq_true_eq] at h1
    exact ⟨fun _ => h1, fun hne => absurd rfl hne, h2, h3⟩
  · rw [if_neg (by simpa [List.isEmpty_iff] using he),
      decide_eq_true_eq] at h1
    exact ⟨fun hnil => absurd hnil he, fun _ => h1, h2, h3⟩

theorem serOKList_cons {c : PT} {rest : List PT}
    (h : serOKList (c :: rest) = true) :
    serOKb c = true ∧ serOKList rest = true := by
  simpa [serOKList, Bool.and_eq_true] using h

theorem odInsert_fresh {α : Type} (m : List (String × α)) (k : String)
    (v : α) (h : k ∉ m.map Prod.fst) : odInsert m k v = m ++ [(k, v)] := by
  unfold odInsert
  rw [if_neg]
  intro hany
  simp only [List.any_eq_true, decide_eq_true_eq] at hany
  obtain ⟨p, hp, he⟩ := hany
  exact h (he ▸ List.mem_map_of_mem Prod.fst hp)

theorem set_self_of_getElem? {α : Type} (l : List α) (n : Nat) (a : α)
    (h : l[n]? = some a) : l.set n a = l := by
  have hn : n < l.length := by
    by_contra hge
    rw [List.getElem?_eq_none (by omega)] at h
    cases h
  apply List.ext_getElem?
  intro m
  by_cases hm : m = n
  · subst hm
    rw [List.getElem?_set_self hn, h]
  · rw [List.getElem?_set_ne (by omega)]

theorem seg_get_mid (A : Store) (x : Obj) (rest post : Store) :
    (A ++ (x :: rest) ++ post)[A.length]? = some x := by
  rw [List.append_assoc, List.getElem?_append_right (Nat.le_refl _)]
  simp

theorem seg_set_mid (A : Store) (x y : Obj) (rest post : Store) :
    (A ++ (x :: rest) ++ post).set A.length y = A ++ (y :: rest) ++ post := by
  rw [List.append_assoc, List.set_append_right _ _ (Nat.le_refl _)]
  simp [List.append_assoc]

theorem seg3_get_left (A M post : Store) (r : Nat) (hr : r < A.length) :
    (A ++ M ++ post)[r]? = A[r]? := by
  rw [List.getElem?_append_left (by simp; omega),
    List.getElem?_append_left hr]

theorem seg3_set_left (A M post : Store) (r : Nat) (y : Obj)
    (hr : r < A.length) :
    (A ++ M ++ post).set r y = A.set r y ++ M ++ post := by
  rw [List.set_append_left _ _ (by simp; omega), List.set_append_left _ _ hr]

mutual

theorem builtObjs_length (base : Nat) (t : PT) :
    (builtObjs base t).length = psize t := by
  cases t with
  | node e cs =>
    simp [builtObjs, psize_node, builtChildren_length (base + 1) cs,
      Nat.add_comm]

theorem builtChildren_length (base : Nat) (cs : List PT) :
    (builtChildren base cs).length = (preElemsList cs).length := by
  cases cs with
  | nil => simp [builtChildren, preElemsList]
  | cons c rest =>
    simp [builtChildren, preElemsList_cons, builtObjs_length base c,
      builtChildren_length (base + psize c) rest, psize,
      builtChildren_length (base + (preElems c).length) rest]

end

/-- Round-trip characterization of the Tree Builder: running `schema_tree`
on the preorder serialization of a valid tree `t` laid out after a prefix
`A` builds exactly the `builtObjs` segment and returns the index of the
last element consumed (for a group), with the loop lemma as the second
conjunct. -/
theorem schema_tree_rt_aux : ∀ fuel : Nat,
    (∀ (t : PT) (A post st' : Store) (j : Nat),
      PT.childrenOf t ≠ [] → serOKb t = true →
      schema_tree fuel (A ++ initStore (preElems t) ++ post) A.length =
        some (st', j) →
      st' = A ++ builtObjs A.length t ++ post ∧
      j + 1 = A.length + psize t) ∧
    (∀ (cs : List PT) (A post : Store) (rootIdx i need : Nat)
      (eR : SchemaElement) (done : List (String × Nat)) (bR : Bool)
      (st' : Store) (j : Nat),
      A.length = i + 1 → rootIdx < A.length →
      A[rootIdx]? = some ⟨eR, some done, bR⟩ →
      serOKList cs = true → (List.map nameOfPT cs).Nodup →
      (∀ c ∈ cs, nameOfPT c ∉ done.map Prod.fst) →
      need = done.length + cs.length →
      schemaTreeLoop fuel (A ++ initStore (preElemsList cs) ++ post) rootIdx
        need i = some (st', j) →
      st' = A.set rootIdx ⟨eR, some (done ++ childEntries (i + 1) cs), bR⟩ ++
          builtChildren (i + 1) cs ++ post ∧
      j = i + (preElemsList cs).length) := by
  intro fuel
  induction fuel with
  | zero =>
    constructor
    · intro t A post st' j _ _ h
      simp [schema_tree] at h
    · intro cs A post rootIdx i need eR done bR st' j _ _ _ _ _ _ _ h
      simp [schemaTreeLoop] at h
  | succ fuel ih =>
    obtain ⟨iht, ihl⟩ := ih
    constructor
    · intro t A post st' j hne hok h
      cases t with
      | node e cs =>
        have hcs : cs ≠ [] := by simpa [PT.childrenOf] using hne
        have hcse : cs.isEmpty = false := by
          simpa [List.isEmpty_iff] using hcs
        obtain ⟨-, hnum, hnodup, hoklist⟩ := serOKb_node hok
        have hnum := hnum hcs
        rw [preElems_node, initStore_cons] at h
        simp only [schema_tree, seg_get_mid] at h
        have hset : setChildren
            (A ++ ({ elem := e } :: initStore (preElemsList cs)) ++ post)
            A.length (some []) =
            A ++ ((⟨e, some [], false⟩ : Obj) ::
              initStore (preElemsList cs)) ++ post := by
          unfold setChildren
          simp only [seg_get_mid]
          exact seg_set_mid A _ _ _ _
        simp only [hset, hnum] at h
        cases hloop : schemaTreeLoop fuel
            (A ++ ((⟨e, some [], false⟩ : Obj) ::
              initStore (preElemsList cs)) ++ post)
            A.length cs.length A.length with
        | none =>
          simp only [hloop] at h
          cases h
        | some p =>
          obtain ⟨st2, j2⟩ := p
          simp only [hloop] at h
          rw [if_pos (by simpa using hcs)] at h
          cases h
          have hshape :
              A ++ ((⟨e, some [], false⟩ : Obj) ::
                initStore (preElemsList cs)) ++ post =
              (A ++ [(⟨e, some [], false⟩ : Obj)]) ++
                initStore (preElemsList cs) ++ post := by
            simp
          rw [hshape] at hloop
          obtain ⟨hst2, hj2⟩ := ihl cs
            (A ++ [(⟨e, some [], false⟩ : Obj)]) post
            A.length A.length cs.length e [] false st' j
            (by simp) (by simp) (by simp [List.getElem?_concat_length])
            hoklist hnodup (by simp) (by simp) hloop
          constructor
          · rw [hst2]
            rw [List.set_append_right _ _ (Nat.le_refl _)]
            simp [builtObjs, hcse, List.append_assoc]
          · rw [psize_node]
            omega
    · intro cs A post rootIdx i need eR done bR st' j hlen hridx hroot
        hoklist hnodup hfresh hneed h
      cases cs with
      | nil =>
        have hrootc : childrenOf?
            (A ++ initStore (preElemsList []) ++ post) rootIdx =
            some done := by
          unfold childrenOf?
          rw [seg3_get_left _ _ _ _ hridx, hroot]
          rfl
        simp only [schemaTreeLoop, hrootc] at h
        rw [if_neg (by simp [hneed])] at h
        cases h
        constructor
        · have hsame : A.set rootIdx
              (⟨eR, some (done ++ childEntries (i + 1) []), bR⟩ : Obj) =
              A := by
            apply set_self_of_getElem?
            rw [hroot]
            simp [childEntries]
          rw [hsame]
          simp [builtChildren, preElemsList, initStore]
        · simp [preElemsList]
      | cons c rest =>
        cases c with
        | node ec ccs =>
          obtain ⟨hoke, hokrest⟩ := serOKList_cons hoklist
          obtain ⟨hnumleaf, hnumgrp, hnodupc, hokccs⟩ := serOKb_node hoke
          have hnodup2 : (List.map nameOfPT rest).Nodup := by
            simp only [List.map_cons] at hnodup
            exact hnodup.of_cons
          have hnodup1 : nameOfPT (PT.node ec ccs) ∉
              List.map nameOfPT rest := by
            simp only [List.map_cons] at hnodup
            exact (List.nodup_cons.mp hnodup).1
          have hmid :
              A ++ initStore (preElemsList (PT.node ec ccs :: rest)) ++ post =
              A ++ ({ elem := ec } ::
                (initStore (preElemsList ccs) ++
                  initStore (preElemsList rest))) ++ post := by
            simp [preElemsList_cons, preElems_node, initStore_append,
              initStore_cons]
          rw [hmid] at h
          have hrootc2 : childrenOf?
              (A ++ ({ elem := ec } ::
                (initStore (preElemsList ccs) ++
                  initStore (preElemsList rest))) ++ post) rootIdx =
              some done := by
            unfold childrenOf?
            rw [seg3_get_left _ _ _ _ hridx, hroot]
            rfl
          simp only [schemaTreeLoop, hrootc2, Option.getD_some] at h
          rw [if_pos (by simp [hneed])] at h
          rw [show i + 1 = A.length from hlen.symm] at h
          simp only [seg_get_mid] at h
          have hfreshc : nameOfPT (PT.node ec ccs) ∉ done.map Prod.fst :=
            hfresh _ (by simp)
          have hfresh2 : ∀ c2 ∈ rest, nameOfPT c2 ∉
              List.map Prod.fst (done ++ [(ec.name, A.length)]) := by
            intro c2 hc2
            simp only [List.map_append, List.mem_append]
            push_neg
            refine ⟨hfresh c2 (by simp [hc2]), ?_⟩
            simp only [List.map_cons, List.map_nil, List.mem_singleton]
            intro hcontra
            apply hnodup1
            rw [show nameOfPT (PT.node ec ccs) = ec.name from rfl,
              ← hcontra]
            exact List.mem_map_of_mem nameOfPT hc2
          have hins : odInsert done ec.name A.length =
              done ++ [(ec.name, A.length)] :=
            odInsert_fresh done ec.name A.length hfreshc
          have hsetc : setChildren
              (A ++ ({ elem := ec } ::
                (initStore (preElemsList ccs) ++
                  initStore (preElemsList rest))) ++ post) rootIdx
              (some (odInsert done ec.name A.length)) =
              A.set rootIdx
                  (⟨eR, some (done ++ [(ec.name, A.length)]), bR⟩ : Obj) ++
                ({ elem := ec } ::
                  (initStore (preElemsList ccs) ++
                    initStore (preElemsList rest))) ++ post := by
            unfold setChildren
            rw [seg3_get_left _ _ _ _ hridx, hroot]
            simp only [hins]
            exact seg3_set_left _ _ _ _ _ hridx
          simp only [hsetc] at h
          by_cases hccs : ccs = []
          · -- leaf child
            subst hccs
            have hnuml := hnumleaf rfl
            rw [if_pos hnuml] at h
            have hshape2 :
                A.set rootIdx
                    (⟨eR, some (done ++ [(ec.name, A.length)]), bR⟩ : Obj) ++
                  ({ elem := ec } ::
                    (initStore (preElemsList []) ++
                      initStore (preElemsList rest))) ++ post =
                (A.set rootIdx
                    (⟨eR, some (done ++ [(ec.name, A.length)]), bR⟩ : Obj) ++
                  [({ elem := ec } : Obj)]) ++
                  initStore (preElemsList rest) ++ post := by
              simp [preElemsList, initStore]
            rw [hshape2] at h
            obtain ⟨hst, hj⟩ := ihl rest
              (A.set rootIdx
                  (⟨eR, some (done ++ [(ec.name, A.length)]), bR⟩ : Obj) ++
                [({ elem := ec } : Obj)]) post rootIdx
              A.length need eR (done ++ [(ec.name, A.length)]) bR st' j
              (by simp)
              (by simp; omega)
              (by
                rw [List.getElem?_append_left (by simp; omega),
                  List.getElem?_set_self (by omega)])
              hokrest hnodup2 hfresh2
              (by simp [hneed]; omega)
              h
            constructor
            · rw [hst]
              rw [List.set_append_left _ _ (by simp; omega),
                List.set_set]
              have hce : childEntries (i + 1) (PT.node ec [] :: rest) =
                  (ec.name, A.length) ::
                    childEntries (A.length + 1) rest := by
                simp [childEntries, nameOfPT, PT.elemOf, psize_node,
                  preElemsList, hlen]
              rw [hce]
              have hbc : builtChildren (i + 1) (PT.node ec [] :: rest) =
                  ({ elem := ec } : Obj) ::
                    builtChildren (A.length + 1) rest := by
                simp [builtChildren, builtObjs, psize_node, preElemsList,
                  hlen]
              rw [hbc]
              simp [List.append_assoc]
            · rw [hj]
              rw [hlen]
              simp [preElemsList_cons, preElems_node, preElemsList]
              omega
          · -- group child
            have hnumg := hnumgrp hccs
            rw [if_neg (by
              rw [hnumg]
              simp
              intro hcontra
              exact hccs hcontra)] at h
            have hshape3 :
                A.set rootIdx
                    (⟨eR, some (done ++ [(ec.name, A.length)]), bR⟩ : Obj) ++
                  ({ elem := ec } ::
                    (initStore (preElemsList ccs) ++
                      initStore (preElemsList rest))) ++ post =
                A.set rootIdx
                    (⟨eR, some (done ++ [(ec.name, A.length)]), bR⟩ : Obj) ++
                  initStore (preElems (PT.node ec ccs)) ++
                  (initStore (preElemsList rest) ++ post) := by
              simp [preElems_node, initStore_cons, initStore_append]
            rw [hshape3] at h
            cases hrec : schema_tree fuel
                (A.set rootIdx
                    (⟨eR, some (done ++ [(ec.name, A.length)]), bR⟩ : Obj) ++
                  initStore (preElems (PT.node ec ccs)) ++
                  (initStore (preElemsList rest) ++ post)) A.length with
            | none =>
              simp only [hrec] at h
              cases h
            | some p =>
              obtain ⟨st2, j2⟩ := p
              simp only [hrec] at h
              have hlenA1 : (A.set rootIdx
                  (⟨eR, some (done ++ [(ec.name, A.length)]), bR⟩ : Obj)).length =
                  A.length := by simp
              nth_rewrite 2 [show A.length = (A.set rootIdx
                  (⟨eR, some (done ++ [(ec.name, A.length)]), bR⟩ : Obj)).length
                from hlenA1.symm] at hrec
              obtain ⟨hst2, hj2⟩ := iht (PT.node ec ccs)
                (A.set rootIdx
                    (⟨eR, some (done ++ [(ec.name, A.length)]), bR⟩ : Obj))
                (initStore (preElemsList rest) ++ post) st2 j2
                (by simp [PT.childrenOf, hccs]) hoke hrec
              rw [hlenA1] at hst2 hj2
              subst hst2
              have hshape4 :
                  A.set rootIdx
                      (⟨eR, some (done ++ [(ec.name, A.length)]), bR⟩ : Obj) ++
                    builtObjs A.length (PT.node ec ccs) ++
                    (initStore (preElemsList rest) ++ post) =
                  (A.set rootIdx
                      (⟨eR, some (done ++ [(ec.name, A.length)]), bR⟩ : Obj) ++
                    builtObjs A.length (PT.node ec ccs)) ++
                    initStore (preElemsList rest) ++ post := by
                simp
              rw [hshape4] at h
              obtain ⟨hst, hj⟩ := ihl rest
                (A.set rootIdx
                    (⟨eR, some (done ++ [(ec.name, A.length)]), bR⟩ : Obj) ++
                  builtObjs A.length (PT.node ec ccs))
                post rootIdx j2 need eR (done ++ [(ec.name, A.length)]) bR
                st' j
                (by
                  simp only [List.length_append, List.length_set,
                    builtObjs_length]
                  omega)
                (by simp; omega)
                (by
                  rw [List.getElem?_append_left (by simp; omega),
                    List.getElem?_set_self (by omega)])
                hokrest hnodup2 hfresh2
                (by simp [hneed]; omega)
                h
              constructor
              · rw [hst]
                rw [List.set_append_left _ _ (by simp; omega),
                  List.set_set]
                have hstep : i + 1 + psize (PT.node ec ccs) = j2 + 1 := by
                  rw [psize_node] at hj2 ⊢
                  omega
                have hce : childEntries (i + 1) (PT.node ec ccs :: rest) =
                    (ec.name, A.length) ::
                      childEntries (j2 + 1) rest := by
                  rw [show childEntries (i + 1) (PT.node ec ccs :: rest) =
                    (nameOfPT (PT.node ec ccs), i + 1) ::
                      childEntries (i + 1 + psize (PT.node ec ccs)) rest
                    from rfl]
                  rw [hstep]
                  rw [show nameOfPT (PT.node ec ccs) = ec.name from rfl]
                  rw [← hlen]
                have hbc : builtChildren (i + 1) (PT.node ec ccs :: rest) =
                    builtObjs (i + 1) (PT.node ec ccs) ++
                      builtChildren (j2 + 1) rest := by
                  rw [show builtChildren (i + 1) (PT.node ec ccs :: rest) =
                    builtObjs (i + 1) (PT.node ec ccs) ++
                      builtChildren (i + 1 + psize (PT.node ec ccs)) rest
                    from rfl]
                  rw [hstep]
                rw [hce, hbc]
                rw [show (i : Nat) + 1 = A.length from hlen.symm]
                simp [List.append_assoc]
              · rw [hj]
                rw [psize_node] at hj2
                simp [preElemsList_cons, preElems_node]
                omega

theorem childEntries_length (cs : List PT) :
    ∀ base, (childEntries base cs).length = cs.length := by
  induction cs with
  | nil => intro base; rfl
  | cons c rest ih =>
    intro base
    simp only [childEntries, List.length_cons, ih]

mutual

theorem builtObjs_count (base : Nat) (t : PT) (hok : serOKb t = true) :
    ∀ o ∈ builtObjs base t,
      (o.children.getD []).length = o.elem.num_children.getD 0 := by
  cases t with
  | node e cs =>
    intro o ho
    obtain ⟨hleaf, hgrp, _, hoklist⟩ := serOKb_node hok
    simp only [builtObjs, List.mem_cons] at ho
    rcases ho with rfl | ho
    · by_cases hcs : cs = []
      · subst hcs
        rcases hleaf rfl with h1 | h1 <;> simp [h1]
      · have hcse : cs.isEmpty = false := by
          simpa [List.isEmpty_iff] using hcs
        simp [hcse, childEntries_length, hgrp hcs]
    · exact builtChildren_count (base + 1) cs hoklist o ho

theorem builtChildren_count (base : Nat) (cs : List PT)
    (hok : serOKList cs = true) :
    ∀ o ∈ builtChildren base cs,
      (o.children.getD []).length = o.elem.num_children.getD 0 := by
  cases cs with
  | nil => intro o ho; simp [builtChildren] at ho
  | cons c rest =>
    intro o ho
    obtain ⟨hokc, hokrest⟩ := serOKList_cons hok
    simp only [builtChildren, List.mem_append] at ho
    rcases ho with ho | ho
    · exact builtObjs_count base c hokc o ho
    · exact builtChildren_count (base + psize c) rest hokrest o ho

end

/-- Declared child count of a node: its `num_children`, `0` when absent. -/
def declaredCount (st : Store) (id : Nat) : Nat :=
  ((st[id]?).bind (fun o => o.elem.num_children)).getD 0

/-- A run of `schema_tree` on a single childless root: the root gets an
empty children mapping and the returned index is `1`. -/
theorem schema_tree_childless (fuel : Nat) (e : SchemaElement) (st' : Store)
    (j : Nat) (hnum : e.num_children = none ∨ e.num_children = some 0)
    (h : schema_tree fuel (initStore [e]) 0 = some (st', j)) :
    st' = [⟨e, some [], false⟩] ∧ j = 1 := by
  match fuel with
  | 0 => simp [schema_tree] at h
  | fuel + 1 =>
    simp only [schema_tree, initStore, List.map_cons, List.map_nil,
      List.getElem?_cons_zero] at h
    rcases hnum with h1 | h1 <;> rw [h1] at h
    · cases h
    · match fuel with
      | 0 => simp [schemaTreeLoop] at h
      | fuel' + 1 =>
        simp only [schemaTreeLoop] at h
        rw [if_neg (by simp [setChildren, childrenOf?])] at h
        simp only [setChildren] at h
        cases h
        exact ⟨rfl, rfl⟩

/-- **C1.** For every valid preorder element list (the serialization of a
tree whose declared `num_children` agree with its shape), after the Tree
Builder succeeds every node's realized number of direct children equals its
declared `num_children`, and a node with `num_children` `0` or absent has
no children attached. -/
theorem C1_realized_children_eq_declared (fuel : Nat) (t : PT) (st' : Store)
    (j : Nat) (hok : serOKb t = true)
    (h : schema_tree fuel (initStore (preElems t)) 0 = some (st', j)) :
    ∀ id : Nat, childCount st' id = declaredCount st' id := by
  cases t with
  | node e cs =>
    by_cases hcs : cs = []
    · subst hcs
      have hnum := (serOKb_node hok).1 rfl
      obtain ⟨hst, -⟩ := schema_tree_childless fuel e st' j hnum h
      subst hst
      intro id
      match id with
      | 0 =>
        rcases hnum with h1 | h1 <;>
          simp [childCount, childrenOf?, declaredCount, h1]
      | n + 1 => simp [childCount, childrenOf?, declaredCount]
    · rw [show initStore (preElems (PT.node e cs)) =
        [] ++ initStore (preElems (PT.node e cs)) ++ [] by simp] at h
      obtain ⟨hst, -⟩ := (schema_tree_rt_aux fuel).1 (PT.node e cs) [] [] st' j
        (by simpa [PT.childrenOf] using hcs) hok (by simpa using h)
      simp only [List.length_nil] at hst
      subst hst
      intro id
      by_cases hid : id < (([] : Store) ++ builtObjs 0 (PT.node e cs) ++ []).length
      · simp only [childCount, childrenOf?, declaredCount]
        obtain ⟨o, ho⟩ : ∃ o,
            (([] : Store) ++ builtObjs 0 (PT.node e cs) ++ [])[id]? = some o := by
          exact ⟨_, List.getElem?_eq_getElem hid⟩
        rw [ho]
        have hmem : o ∈ builtObjs 0 (PT.node e cs) := by
          have := List.getElem?_mem ho
          simpa using this
        have := builtObjs_count 0 (PT.node e cs) hok o hmem
        simpa using this
      · simp only [childCount, childrenOf?, declaredCount]
        rw [List.getElem?_eq_none (by omega)]
        rfl

/-- The abstract tree whose serialization builds `stAB`. -/
def tAB : PT :=
  PT.node (seGroup "root" 2)
    [PT.node { seLeaf "a" PhysicalType.INT32 FieldRepetitionType.REQUIRED
               with num_children := some 0 } [],
     PT.node (seLeaf "b" PhysicalType.BYTE_ARRAY
               FieldRepetitionType.OPTIONAL (some ConvertedType.UTF8)) []]

/-- Witness for C1: the two-leaf scenario tree, checked at each of the three
store positions. -/
theorem C1_realized_children_eq_declared_witness :
    childCount stAB 0 = declaredCount stAB 0 ∧
    childCount stAB 1 = declaredCount stAB 1 ∧
    childCount stAB 2 = declaredCount stAB 2 :=
  ⟨C1_realized_children_eq_declared 10 tAB stAB 2 (by decide) (by decide) 0,
   C1_realized_children_eq_declared 10 tAB stAB 2 (by decide) (by decide) 1,
   C1_realized_children_eq_declared 10 tAB stAB 2 (by decide) (by decide) 2⟩

/-- **C6 (amended).** On the serialization of a valid tree, `schema_tree`
returns the index *of* the last element consumed by the subtree when the
node has children (`j + 1 = psize t`, i.e. `j` is the subtree's final
position), and one past the node's own index when the node is childless. -/
theorem C6_schema_tree_returns_last_consumed (fuel : Nat) (t : PT)
    (st' : Store) (j : Nat) (hok : serOKb t = true)
    (h : schema_tree fuel (initStore (preElems t)) 0 = some (st', j)) :
    (PT.childrenOf t ≠ [] → j + 1 = psize t) ∧
    (PT.childrenOf t = [] → j = 1) := by
  constructor
  · intro hne
    rw [show initStore (preElems t) =
      [] ++ initStore (preElems t) ++ [] by simp] at h
    have := (schema_tree_rt_aux fuel).1 t [] [] st' j hne hok (by simpa using h)
    simpa using this.2
  · intro hnil
    cases t with
    | node e cs =>
      simp only [PT.childrenOf] at hnil
      subst hnil
      have hnum := (serOKb_node hok).1 rfl
      exact (schema_tree_childless fuel e st' j hnum h).2

/-- Witness for C6 (amended): the canonical 3-level LIST tree occupies
positions 0–3 and `schema_tree` returns 3, the last consumed index. -/
theorem C6_schema_tree_returns_last_consumed_witness :
    (PT.childrenOf (PT.node (seGroup "root" 1)
        [PT.node (seGroup "items" 1 (some FieldRepetitionType.OPTIONAL)
            (some ConvertedType.LIST))
          [PT.node (seGroup "list" 1 (some FieldRepetitionType.REPEATED))
            [PT.node (seLeaf "element" PhysicalType.INT64
                FieldRepetitionType.REQUIRED) []]]]) ≠ [] →
      3 + 1 = psize (PT.node (seGroup "root" 1)
        [PT.node (seGroup "items" 1 (some FieldRepetitionType.OPTIONAL)
            (some ConvertedType.LIST))
          [PT.node (seGroup "list" 1 (some FieldRepetitionType.REPEATED))
            [PT.node (seLeaf "element" PhysicalType.INT64
                FieldRepetitionType.REQUIRED) []]]])) ∧
    (PT.childrenOf (PT.node (seGroup "root" 1)
        [PT.node (seGroup "items" 1 (some FieldRepetitionType.OPTIONAL)
            (some ConvertedType.LIST))
          [PT.node (seGroup "list" 1 (some FieldRepetitionType.REPEATED))
            [PT.node (seLeaf "element" PhysicalType.INT64
                FieldRepetitionType.REQUIRED) []]]]) = [] →
      3 = 1) :=
  C6_schema_tree_returns_last_consumed 10
    (PT.node (seGroup "root" 1)
      [PT.node (seGroup "items" 1 (some FieldRepetitionType.OPTIONAL)
          (some ConvertedType.LIST))
        [PT.node (seGroup "list" 1 (some FieldRepetitionType.REPEATED))
          [PT.node (seLeaf "element" PhysicalType.INT64
              FieldRepetitionType.REQUIRED) []]]])
    stList 3 (by decide) (by decide)

/-! ## The Flatten Characterization

To state what a successful `flatten` run contributes to the root's children
mapping we view the store fragment it walks as an id-annotated abstract
tree: every node records its store index, its element and the keyed list of
its subtrees (the entries of its `children` mapping, in order).  `reprB`
says the store realizes such a tree; `flatPairsItems` and `flatMarksItems`
compute, purely on the tree, the key/index pairs the run inserts into the
root mapping and the node indices it marks `isflat`. -/

inductive FT where
  | node (id : Nat) (e : SchemaElement) (cs : List (String × FT))

/-- The store index at the root of an annotated tree. -/
def ftId : FT → Nat
  | FT.node i _ _ => i

/-- The element at the root of an annotated tree. -/
def ftElem : FT → SchemaElement
  | FT.node _ e _ => e

/-- The keyed subtree list at the root of an annotated tree. -/
def ftKids : FT → List (String × FT)
  | FT.node _ _ cs => cs

theorem ftId_node (i : Nat) (e : SchemaElement) (cs : List (String × FT)) :
    ftId (FT.node i e cs) = i := rfl

theorem ftElem_node (i : Nat) (e : SchemaElement) (cs : List (String × FT)) :
    ftElem (FT.node i e cs) = e := rfl

theorem ftKids_node (i : Nat) (e : SchemaElement) (cs : List (String × FT)) :
    ftKids (FT.node i e cs) = cs := rfl

mutual

/-- The store realizes the annotated tree: the object at the node's index
carries the node's element and its `children` attribute is exactly the keyed
list of subtree root indices (absent for a childless node).  The `isflat`
flag is deliberately unconstrained. -/
def reprB (st : Store) : FT → Bool
  | FT.node i e cs =>
    match st[i]? with
    | none => false
    | some o =>
      decide (o.elem = e) &&
      decide (o.children = (if cs.isEmpty then none
        else some (cs.map (fun p => (p.1, ftId p.2))))) &&
      reprListB st cs

def reprListB (st : Store) : List (String × FT) → Bool
  | [] => true
  | (_, c) :: rest => reprB st c && reprListB st rest

end

mutual

/-- All store indices occurring in an annotated tree. -/
def ftIds : FT → List Nat
  | FT.node i _ cs => i :: ftIdsList cs

def ftIdsList : List (String × FT) → List Nat
  | [] => []
  | (_, c) :: rest => ftIds c ++ ftIdsList rest

end

/-- The key/index pairs a `flattenItems` run over the given keyed subtrees
inserts into the root mapping, in insertion order: nothing when the parent
is `REPEATED`; a childless subtree or a `LIST`/`MAP`-annotated group is
registered as a single pair under the dotted path; a plain group is
recursed into with its name appended. -/
def flatPairsItems (rep : Option FieldRepetitionType) :
    List String → List (String × FT) → List (String × Nat)
  | _, [] => []
  | nps, (k, FT.node i e ccs) :: rest =>
    (if rep = some FieldRepetitionType.REPEATED then []
     else if ccs.isEmpty then [(dotJoin (nps ++ [k]), i)]
     else if e.converted_type = some ConvertedType.LIST ∨
             e.converted_type = some ConvertedType.MAP then
       [(dotJoin (nps ++ [k]), i)]
     else flatPairsItems e.repetition_type (nps ++ [e.name]) ccs)
    ++ flatPairsItems rep nps rest

/-- The contribution of a single keyed subtree to `flatPairsItems`. -/
def contribOf (rep : Option FieldRepetitionType) (nps : List String)
    (k : String) : FT → List (String × Nat)
  | FT.node i e ccs =>
    if rep = some FieldRepetitionType.REPEATED then []
    else if ccs.isEmpty then [(dotJoin (nps ++ [k]), i)]
    else if e.converted_type = some ConvertedType.LIST ∨
            e.converted_type = some ConvertedType.MAP then
      [(dotJoin (nps ++ [k]), i)]
    else flatPairsItems e.repetition_type (nps ++ [e.name]) ccs

theorem flatPairsItems_nil (rep : Option FieldRepetitionType)
    (nps : List String) : flatPairsItems rep nps [] = [] := by
  simp [flatPairsItems]

theorem flatPairsItems_cons (rep : Option FieldRepetitionType)
    (nps : List String) (k : String) (c : FT) (rest : List (String × FT)) :
    flatPairsItems rep nps ((k, c) :: rest) =
      contribOf rep nps k c ++ flatPairsItems rep nps rest := by
  cases c
  simp only [flatPairsItems, contribOf]

/-- The node indices a `flattenItems` run marks `isflat`: exactly the plain
groups it recurses into, each marked after its own recursion. -/
def flatMarksItems (rep : Option FieldRepetitionType) :
    List (String × FT) → List Nat
  | [] => []
  | (_, FT.node i e ccs) :: rest =>
    (if rep = some FieldRepetitionType.REPEATED then []
     else if ccs.isEmpty then []
     else if e.converted_type = some ConvertedType.LIST ∨
             e.converted_type = some ConvertedType.MAP then []
     else flatMarksItems e.repetition_type ccs ++ [i])
    ++ flatMarksItems rep rest

/-- The contribution of a single keyed subtree to `flatMarksItems`. -/
def contribMarks (rep : Option FieldRepetitionType) : FT → List Nat
  | FT.node i e ccs =>
    if rep = some FieldRepetitionType.REPEATED then []
    else if ccs.isEmpty then []
    else if e.converted_type = some ConvertedType.LIST ∨
            e.converted_type = some ConvertedType.MAP then []
    else flatMarksItems e.repetition_type ccs ++ [i]

theorem flatMarksItems_nil (rep : Option FieldRepetitionType) :
    flatMarksItems rep [] = [] := by
  simp [flatMarksItems]

theorem flatMarksItems_cons (rep : Option FieldRepetitionType) (k : String)
    (c : FT) (rest : List (String × FT)) :
    flatMarksItems rep ((k, c) :: rest) =
      contribMarks rep c ++ flatMarksItems rep rest := by
  cases c
  simp only [flatMarksItems, contribMarks]

/-- Sequential `OrderedDict` insertion of a pair list into a mapping. -/
def insertAll (m : List (String × Nat)) (ps : List (String × Nat)) :
    List (String × Nat) :=
  ps.foldl (fun acc p => odInsert acc p.1 p.2) m

/-- Attribute `isflat` of the object at index `i`. -/
def isflatOf (st : Store) (i : Nat) : Option Bool :=
  (st[i]?).map (·.isflat)

theorem insertAll_nil (m : List (String × Nat)) : insertAll m [] = m := rfl

theorem insertAll_cons (m : List (String × Nat)) (p : String × Nat)
    (ps : List (String × Nat)) :
    insertAll m (p :: ps) = insertAll (odInsert m p.1 p.2) ps := rfl

theorem insertAll_append (m ps qs : List (String × Nat)) :
    insertAll m (ps ++ qs) = insertAll (insertAll m ps) qs :=
  List.foldl_append _ _ _ _

theorem assocLookup_mem {α : Type} {m : List (String × α)} {k : String}
    {v : α} (h : assocLookup m k = some v) : (k, v) ∈ m := by
  induction m with
  | nil => cases h
  | cons q rest ih =>
    obtain ⟨k1, v1⟩ := q
    simp only [assocLookup] at h
    by_cases hk : k1 = k
    · rw [if_pos hk] at h
      injection h with h
      subst h
      subst hk
      exact List.mem_cons_self _ _
    · rw [if_neg hk] at h
      exact List.mem_cons_of_mem _ (ih h)

theorem assocLookup_none_not_mem {α : Type} {m : List (String × α)}
    {k : String} (h : assocLookup m k = none) : k ∉ m.map Prod.fst := by
  induction m with
  | nil => simp
  | cons q rest ih =>
    obtain ⟨k1, v1⟩ := q
    simp only [assocLookup] at h
    by_cases hk : k1 = k
    · rw [if_pos hk] at h
      cases h
    · rw [if_neg hk] at h
      simp only [List.map_cons, List.mem_cons]
      rintro (rfl | hmem)
      · exact hk rfl
      · exact ih h hmem

theorem assocLookup_of_mem_nodup {α : Type} {m : List (String × α)}
    (hnd : (m.map Prod.fst).Nodup) {k : String} {v : α}
    (hm : (k, v) ∈ m) : assocLookup m k = some v := by
  induction m with
  | nil => cases hm
  | cons q rest ih =>
    obtain ⟨k1, v1⟩ := q
    simp only [List.map_cons, List.nodup_cons] at hnd
    rcases List.mem_cons.mp hm with heq | hmem
    · cases heq
      simp [assocLookup]
    · have hk : k1 ≠ k := by
        rintro rfl
        exact hnd.1 (List.mem_map_of_mem Prod.fst hmem)
      simp only [assocLookup, if_neg hk]
      exact ih hnd.2 hmem

theorem assocLookup_append_some {α : Type} {m m' : List (String × α)}
    {k : String} {v : α} (h : assocLookup m k = some v) :
    assocLookup (m ++ m') k = some v := by
  induction m with
  | nil => cases h
  | cons q rest ih =>
    obtain ⟨k1, v1⟩ := q
    simp only [assocLookup] at h ⊢
    by_cases hk : k1 = k
    · rwa [if_pos hk] at h ⊢
    · rw [if_neg hk] at h ⊢
      exact ih h

theorem assocLookup_append_none {α : Type} {m m' : List (String × α)}
    {k : String} (h : assocLookup m k = none) :
    assocLookup (m ++ m') k = assocLookup m' k := by
  induction m with
  | nil => rfl
  | cons q rest ih =>
    obtain ⟨k1, v1⟩ := q
    simp only [assocLookup] at h ⊢
    by_cases hk : k1 = k
    · rw [if_pos hk] at h
      cases h
    · rw [if_neg hk] at h ⊢
      exact ih h

theorem assocLookup_map {α β : Type} (f : α → β) (m : List (String × α))
    (k : String) :
    assocLookup (m.map (fun p => (p.1, f p.2))) k =
      (assocLookup m k).map f := by
  induction m with
  | nil => rfl
  | cons q rest ih =>
    obtain ⟨k1, v1⟩ := q
    simp only [List.map_cons, assocLookup]
    by_cases hk : k1 = k
    · rw [if_pos hk, if_pos hk]
      rfl
    · rw [if_neg hk, if_neg hk]
      exact ih

theorem map_ite_id {α : Type} {m : List (String × α)} {k : String}
    (h : k ∉ m.map Prod.fst) (v : α) :
    m.map (fun p => if p.1 = k then (k, v) else p) = m := by
  induction m with
  | nil => rfl
  | cons q rest ih =>
    obtain ⟨k1, v1⟩ := q
    simp only [List.map_cons, List.mem_cons] at h ⊢
    have hk : k1 ≠ k := fun he => h (Or.inl he.symm)
    rw [if_neg hk, ih (fun hm => h (Or.inr hm))]

theorem odInsert_self_map {α : Type} {k : String} {v : α} :
    ∀ {m : List (String × α)}, (m.map Prod.fst).Nodup →
      assocLookup m k = some v →
      m.map (fun p => if p.1 = k then (k, v) else p) = m := by
  intro m
  induction m with
  | nil => intro _ h; cases h
  | cons q rest ih =>
    intro hnd h
    obtain ⟨k1, v1⟩ := q
    simp only [List.map_cons, List.nodup_cons] at hnd
    simp only [assocLookup] at h
    simp only [List.map_cons]
    by_cases hk : k1 = k
    · rw [if_pos hk] at h
      injection h with h
      subst h
      subst hk
      rw [if_pos rfl, map_ite_id hnd.1 _]
    · rw [if_neg hk] at h
      rw [if_neg hk, ih hnd.2 h]

theorem odInsert_self {α : Type} {m : List (String × α)}
    (hnd : (m.map Prod.fst).Nodup) {k : String} {v : α}
    (h : assocLookup m k = some v) : odInsert m k v = m := by
  unfold odInsert
  have hany : m.any (fun p => p.1 = k) = true :=
    List.any_eq_true.mpr ⟨(k, v), assocLookup_mem h, by simp⟩
  rw [if_pos hany]
  exact odInsert_self_map hnd h

theorem reprB_node {st : Store} {i : Nat} {e : SchemaElement}
    {cs : List (String × FT)} (h : reprB st (FT.node i e cs) = true) :
    ∃ o : Obj, st[i]? = some o ∧ o.elem = e ∧
      o.children = (if cs.isEmpty then none
        else some (cs.map (fun p => (p.1, ftId p.2)))) ∧
      reprListB st cs = true := by
  rw [reprB] at h
  split at h
  · cases h
  · rename_i o ho
    simp only [Bool.and_eq_true, decide_eq_true_eq] at h
    exact ⟨o, ho, h.1.1, h.1.2, h.2⟩

theorem reprB_build {st : Store} {i : Nat} {e : SchemaElement}
    {cs : List (String × FT)} {o : Obj} (ho : st[i]? = some o)
    (he : o.elem = e)
    (hc : o.children = (if cs.isEmpty then none
      else some (cs.map (fun p => (p.1, ftId p.2)))))
    (hl : reprListB st cs = true) : reprB st (FT.node i e cs) = true := by
  rw [reprB, ho]
  simp [he, hc, hl]

theorem reprListB_cons {st : Store} {k : String} {c : FT}
    {rest : List (String × FT)} (h : reprListB st ((k, c) :: rest) = true) :
    reprB st c = true ∧ reprListB st rest = true := by
  simpa [reprListB, Bool.and_eq_true] using h

theorem reprListB_cons_build {st : Store} {k : String} {c : FT}
    {rest : List (String × FT)} (h1 : reprB st c = true)
    (h2 : reprListB st rest = true) :
    reprListB st ((k, c) :: rest) = true := by
  simp [reprListB, h1, h2]

theorem ftIds_node (i : Nat) (e : SchemaElement) (cs : List (String × FT)) :
    ftIds (FT.node i e cs) = i :: ftIdsList cs := by
  rw [ftIds]

theorem ftIdsList_cons (k : String) (c : FT) (rest : List (String × FT)) :
    ftIdsList ((k, c) :: rest) = ftIds c ++ ftIdsList rest := by
  rw [ftIdsList]

mutual

theorem reprB_mono (c : FT) : ∀ {st st' : Store} {r : Nat},
    FrameOK st st' r → r ∉ ftIds c → reprB st c = true →
    reprB st' c = true := by
  cases c with
  | node i e cs =>
    intro st st' r hf hr h
    obtain ⟨o, ho, he, hc, hl⟩ := reprB_node h
    rw [ftIds_node, List.mem_cons] at hr
    have hir : i ≠ r := fun hee => hr (Or.inl hee.symm)
    have hch := hf.2.1 i hir
    have hel := hf.2.2 i
    rw [ho] at hch hel
    cases ho' : st'[i]? with
    | none => rw [ho'] at hel; simp at hel
    | some o' =>
      rw [ho'] at hch hel
      simp only [Option.map_some'] at hch hel
      refine reprB_build ho' ?_ ?_
        (reprListB_mono cs hf (fun hm => hr (Or.inr hm)) hl)
      · rw [Option.some.injEq] at hel
        exact hel ▸ he
      · rw [Option.some.injEq] at hch
        exact hch ▸ hc

theorem reprListB_mono (cs : List (String × FT)) : ∀ {st st' : Store}
    {r : Nat}, FrameOK st st' r → r ∉ ftIdsList cs →
    reprListB st cs = true → reprListB st' cs = true := by
  cases cs with
  | nil => intro st st' r _ _ _; rw [reprListB]
  | cons q rest =>
    intro st st' r hf hr h
    obtain ⟨k, c⟩ := q
    obtain ⟨h1, h2⟩ := reprListB_cons h
    rw [ftIdsList_cons, List.mem_append] at hr
    exact reprListB_cons_build
      (reprB_mono c hf (fun hm => hr (Or.inl hm)) h1)
      (reprListB_mono rest hf (fun hm => hr (Or.inr hm)) h2)

end

theorem insertAll_id {m : List (String × Nat)}
    (hnd : (m.map Prod.fst).Nodup) :
    ∀ {ps : List (String × Nat)},
      (∀ p ∈ ps, assocLookup m p.1 = some p.2) → insertAll m ps = m := by
  intro ps
  induction ps with
  | nil => intro _; rfl
  | cons p rest ih =>
    intro hall
    rw [insertAll_cons, odInsert_self hnd (hall p (List.mem_cons_self _ _))]
    exact ih (fun q hq => hall q (List.mem_cons_of_mem _ hq))

theorem isflatOf_insertRootChild {st st1 : Store} {r : Nat} {key : String}
    {item : Nat} (h : insertRootChild st r key item = some st1) :
    ∀ x, isflatOf st1 x = isflatOf st x := by
  unfold insertRootChild at h
  split at h
  · cases h
  · rename_i o ho
    split at h
    · cases h
    · rename_i m hm
      cases h
      intro x
      have hr : r < st.length := by
        by_contra hge
        rw [List.getElem?_eq_none (by omega)] at ho
        cases ho
      unfold isflatOf
      by_cases hx : x = r
      · subst hx
        rw [List.getElem?_set_self hr, ho]
        rfl
      · rw [List.getElem?_set_ne (by omega)]

theorem isflat_mono_setIsflat {st : Store} {x : Nat} (i : Nat)
    (h : isflatOf st x = some true) :
    isflatOf (setIsflat st i) x = some true := by
  unfold setIsflat
  cases ho : st[i]? with
  | none => exact h
  | some o =>
    have hi : i < st.length := by
      by_contra hge
      rw [List.getElem?_eq_none (by omega)] at ho
      cases ho
    unfold isflatOf at h ⊢
    by_cases hx : x = i
    · subst hx
      rw [List.getElem?_set_self hi]
      rfl
    · rw [List.getElem?_set_ne (by omega)]
      exact h

theorem isflatOf_setIsflat_self {st : Store} {i : Nat} {o : Obj}
    (ho : st[i]? = some o) : isflatOf (setIsflat st i) i = some true := by
  unfold setIsflat
  rw [ho]
  have hi : i < st.length := by
    by_contra hge
    rw [List.getElem?_eq_none (by omega)] at ho
    cases ho
  unfold isflatOf
  rw [List.getElem?_set_self hi]
  rfl

/-- A successful `flatten`/`flattenItems` run never clears an `isflat` flag:
the code only ever assigns `True` to it, and root-mapping insertions leave
`isflat` untouched. -/
theorem flatten_isflat_mono_aux : ∀ fuel : Nat,
    (∀ st schemaId rootId nps st',
      flatten fuel st schemaId rootId nps = some st' →
      ∀ x, isflatOf st x = some true → isflatOf st' x = some true) ∧
    (∀ st items rep rootId nps st',
      flattenItems fuel st items rep rootId nps = some st' →
      ∀ x, isflatOf st x = some true → isflatOf st' x = some true) := by
  intro fuel
  induction fuel with
  | zero =>
    constructor
    · intro st schemaId rootId nps st' h
      simp [flatten] at h
    · intro st items rep rootId nps st' h
      simp [flattenItems] at h
  | succ fuel ih =>
    obtain ⟨ihf, ihi⟩ := ih
    constructor
    · intro st schemaId rootId nps st' h
      simp only [flatten] at h
      split at h
      · cases h
      · rename_i o ho
        split at h
        · cases h
          exact fun x hx => hx
        · exact ihi _ _ _ _ _ _ h
    · intro st items rep rootId nps st' h
      cases items with
      | nil =>
        simp only [flattenItems] at h
        cases h
        exact fun x hx => hx
      | cons p rest =>
        obtain ⟨name, item⟩ := p
        simp only [flattenItems] at h
        split at h
        · exact ihi _ _ _ _ _ _ h
        · split at h
          · split at h
            · cases h
            · rename_i st1 hins
              intro x hx
              exact ihi _ _ _ _ _ _ h x
                ((isflatOf_insertRootChild hins x).trans hx)
          · split at h
            · split at h
              · cases h
              · rename_i st1 hins
                intro x hx
                exact ihi _ _ _ _ _ _ h x
                  ((isflatOf_insertRootChild hins x).trans hx)
            · split at h
              · cases h
              · rename_i st1 hrec
                intro x hx
                exact ihi _ _ _ _ _ _ h x
                  (isflat_mono_setIsflat item (ihf _ _ _ _ _ hrec x hx))

theorem insertRootChild_eq {st : Store} {r : Nat} {ro : Obj}
    {m0 : List (String × Nat)} (ho : st[r]? = some ro)
    (hm : ro.children = some m0) (key : String) (item : Nat) :
    insertRootChild st r key item =
      some (st.set r { ro with children := some (odInsert m0 key item) }) := by
  simp only [insertRootChild, ho, hm]

theorem childrenOf?_set_root {st : Store} {r : Nat} {ro : Obj}
    (ho : st[r]? = some ro) (mm : List (String × Nat)) :
    childrenOf? (st.set r { ro with children := some mm }) r = some mm := by
  have hr : r < st.length := by
    by_contra hge
    rw [List.getElem?_eq_none (by omega)] at ho
    cases ho
  unfold childrenOf?
  rw [List.getElem?_set_self hr]
  rfl

theorem childrenOf?_inv {st : Store} {r : Nat} {m : List (String × Nat)}
    (h : childrenOf? st r = some m) :
    ∃ ro : Obj, st[r]? = some ro ∧ ro.children = some m := by
  unfold childrenOf? at h
  cases hro : st[r]? with
  | none => rw [hro] at h; cases h
  | some ro => rw [hro] at h; exact ⟨ro, rfl, h⟩

theorem contribOf_repeated (nps : List String) (k : String) (c : FT) :
    contribOf (some FieldRepetitionType.REPEATED) nps k c = [] := by
  cases c
  simp [contribOf]

theorem contribOf_leaf {rep : Option FieldRepetitionType} (nps : List String)
    (k : String) (i : Nat) (e : SchemaElement)
    (hrep : rep ≠ some FieldRepetitionType.REPEATED) :
    contribOf rep nps k (FT.node i e []) = [(dotJoin (nps ++ [k]), i)] := by
  simp [contribOf, hrep]

theorem contribOf_lm {rep : Option FieldRepetitionType} (nps : List String)
    (k : String) (i : Nat) (e : SchemaElement) {ccs : List (String × FT)}
    (hrep : rep ≠ some FieldRepetitionType.REPEATED) (hne : ccs ≠ [])
    (hlm : e.converted_type = some ConvertedType.LIST ∨
      e.converted_type = some ConvertedType.MAP) :
    contribOf rep nps k (FT.node i e ccs) = [(dotJoin (nps ++ [k]), i)] := by
  simp [contribOf, hrep, hlm, List.isEmpty_iff, hne]

theorem contribOf_struct {rep : Option FieldRepetitionType}
    (nps : List String) (k : String) (i : Nat) (e : SchemaElement)
    {ccs : List (String × FT)}
    (hrep : rep ≠ some FieldRepetitionType.REPEATED) (hne : ccs ≠ [])
    (hlm : ¬(e.converted_type = some ConvertedType.LIST ∨
      e.converted_type = some ConvertedType.MAP)) :
    contribOf rep nps k (FT.node i e ccs) =
      flatPairsItems e.repetition_type (nps ++ [e.name]) ccs := by
  simp [contribOf, hrep, hlm, List.isEmpty_iff, hne]

theorem contribMarks_repeated (c : FT) :
    contribMarks (some FieldRepetitionType.REPEATED) c = [] := by
  cases c
  simp [contribMarks]

theorem contribMarks_leaf {rep : Option FieldRepetitionType} (i : Nat)
    (e : SchemaElement) (hrep : rep ≠ some FieldRepetitionType.REPEATED) :
    contribMarks rep (FT.node i e []) = [] := by
  simp [contribMarks, hrep]

theorem contribMarks_lm {rep : Option FieldRepetitionType} (i : Nat)
    (e : SchemaElement) {ccs : List (String × FT)}
    (hrep : rep ≠ some FieldRepetitionType.REPEATED) (hne : ccs ≠ [])
    (hlm : e.converted_type = some ConvertedType.LIST ∨
      e.converted_type = some ConvertedType.MAP) :
    contribMarks rep (FT.node i e ccs) = [] := by
  simp [contribMarks, hrep, hlm, List.isEmpty_iff, hne]

theorem contribMarks_struct {rep : Option FieldRepetitionType} (i : Nat)
    (e : SchemaElement) {ccs : List (String × FT)}
    (hrep : rep ≠ some FieldRepetitionType.REPEATED) (hne : ccs ≠ [])
    (hlm : ¬(e.converted_type = some ConvertedType.LIST ∨
      e.converted_type = some ConvertedType.MAP)) :
    contribMarks rep (FT.node i e ccs) =
      flatMarksItems e.repetition_type ccs ++ [i] := by
  simp [contribMarks, hrep, hlm, List.isEmpty_iff, hne]

/-- Characterization of a successful `flatten`/`flattenItems` run on a store
realizing an annotated tree, by induction on fuel: afterwards the root's
children mapping is the sequential insertion of the pure pair list into the
mapping it had before, and every index in the pure mark list carries
`isflat = true`. -/
theorem flatten_spec_aux : ∀ fuel : Nat,
    (∀ st rootId nps st' i e ccs m0,
      flatten fuel st i rootId nps = some st' →
      reprB st (FT.node i e ccs) = true →
      rootId ∉ ftIds (FT.node i e ccs) →
      childrenOf? st rootId = some m0 →
      childrenOf? st' rootId = some (insertAll m0
        (flatPairsItems e.repetition_type (nps ++ [e.name]) ccs)) ∧
      ∀ x ∈ flatMarksItems e.repetition_type ccs,
        isflatOf st' x = some true) ∧
    (∀ st cs rep rootId nps st' m0,
      flattenItems fuel st (cs.map (fun p => (p.1, ftId p.2))) rep rootId
        nps = some st' →
      reprListB st cs = true →
      rootId ∉ ftIdsList cs →
      childrenOf? st rootId = some m0 →
      childrenOf? st' rootId = some (insertAll m0
        (flatPairsItems rep nps cs)) ∧
      ∀ x ∈ flatMarksItems rep cs, isflatOf st' x = some true) := by
  intro fuel
  induction fuel with
  | zero =>
    constructor
    · intro st rootId nps st' i e ccs m0 h
      simp [flatten] at h
    · intro st cs rep rootId nps st' m0 h
      simp [flattenItems] at h
  | succ fuel ih =>
    obtain ⟨ihf, ihi⟩ := ih
    constructor
    · intro st rootId nps st' i e ccs m0 h hrep hroot hm0
      obtain ⟨o, ho, he, hc, hl⟩ := reprB_node hrep
      rw [ftIds_node, List.mem_cons] at hroot
      have hir : i ≠ rootId := fun hee => hroot (Or.inl hee.symm)
      simp only [flatten, ho] at h
      by_cases hccs : ccs = []
      · subst hccs
        simp only [List.isEmpty_nil, if_true] at hc
        simp only [hc] at h
        cases h
        refine ⟨?_, ?_⟩
        · rw [flatPairsItems_nil, insertAll_nil]
          exact hm0
        · intro x hx
          rw [flatMarksItems_nil] at hx
          cases hx
      · rw [if_neg (by simp [List.isEmpty_iff, hccs])] at hc
        simp only [hc] at h
        rw [if_neg hir, he] at h
        exact ihi st ccs e.repetition_type rootId (nps ++ [e.name]) st' m0 h
          hl (fun hm => hroot (Or.inr hm)) hm0
    · intro st cs rep rootId nps st' m0 h hrep hroot hm0
      cases cs with
      | nil =>
        simp only [List.map_nil, flattenItems] at h
        cases h
        refine ⟨?_, ?_⟩
        · rw [flatPairsItems_nil, insertAll_nil]
          exact hm0
        · intro x hx
          rw [flatMarksItems_nil] at hx
          cases hx
      | cons q rest =>
        obtain ⟨k, c⟩ := q
        cases c with
        | node i e ccs =>
          obtain ⟨hrb, hrl⟩ := reprListB_cons hrep
          obtain ⟨o, ho, he, hc, hlc⟩ := reprB_node hrb
          rw [ftIdsList_cons, List.mem_append] at hroot
          have hroot1 : rootId ∉ ftIds (FT.node i e ccs) :=
            fun hm => hroot (Or.inl hm)
          have hroot2 : rootId ∉ ftIdsList rest :=
            fun hm => hroot (Or.inr hm)
          have hir : i ≠ rootId := by
            intro hee
            refine hroot1 ?_
            rw [ftIds_node, hee]
            exact List.mem_cons_self _ _
          obtain ⟨ro, hro, hrm⟩ := childrenOf?_inv hm0
          simp only [List.map_cons, ftId_node, flattenItems] at h
          rw [flatPairsItems_cons, flatMarksItems_cons]
          by_cases hrep' : rep = some FieldRepetitionType.REPEATED
          · rw [if_pos hrep'] at h
            have hres := ihi st rest rep rootId nps st' m0 h hrl hroot2 hm0
            subst hrep'
            rw [contribOf_repeated, contribMarks_repeated, List.nil_append,
              List.nil_append]
            exact hres
          · rw [if_neg hrep'] at h
            by_cases hccs : ccs = []
            · subst hccs
              simp only [List.isEmpty_nil, if_true] at hc
              have hcount : childCount st i = 0 := by
                simp [childCount, childrenOf?, ho, hc]
              rw [if_pos hcount] at h
              have hins := insertRootChild_eq hro hrm
                (dotJoin (nps ++ [k])) i
              simp only [hins] at h
              have hch1 := childrenOf?_set_root hro
                (odInsert m0 (dotJoin (nps ++ [k])) i)
              have hfr1 := frameOK_set_root_children hro
                (some (odInsert m0 (dotJoin (nps ++ [k])) i))
              have hrl1 := reprListB_mono rest hfr1 hroot2 hrl
              have hres := ihi _ rest rep rootId nps st' _ h hrl1 hroot2 hch1
              rw [contribOf_leaf nps k i e hrep',
                contribMarks_leaf i e hrep', List.nil_append,
                List.singleton_append, insertAll_cons]
              exact hres
            · rw [if_neg (by simp [List.isEmpty_iff, hccs])] at hc
              have hcount : ¬(childCount st i = 0) := by
                simp [childCount, childrenOf?, ho, hc]
                exact hccs
              rw [if_neg hcount] at h
              have hct : convertedTypeOf st i = e.converted_type := by
                simp [convertedTypeOf, ho, he]
              by_cases hlm : e.converted_type = some ConvertedType.LIST ∨
                  e.converted_type = some ConvertedType.MAP
              · rw [if_pos (by rw [hct]; exact hlm)] at h
                have hins := insertRootChild_eq hro hrm
                  (dotJoin (nps ++ [k])) i
                simp only [hins] at h
                have hch1 := childrenOf?_set_root hro
                  (odInsert m0 (dotJoin (nps ++ [k])) i)
                have hfr1 := frameOK_set_root_children hro
                  (some (odInsert m0 (dotJoin (nps ++ [k])) i))
                have hrl1 := reprListB_mono rest hfr1 hroot2 hrl
                have hres := ihi _ rest rep rootId nps st' _ h hrl1 hroot2
                  hch1
                rw [contribOf_lm nps k i e hrep' hccs hlm,
                  contribMarks_lm i e hrep' hccs hlm, List.nil_append,
                  List.singleton_append, insertAll_cons]
                exact hres
              · rw [if_neg (by rw [hct]; exact hlm)] at h
                cases hrec : flatten fuel st i rootId nps with
                | none => rw [hrec] at h; cases h
                | some st2 =>
                  rw [hrec] at h
                  have hnode := ihf st rootId nps st2 i e ccs m0 hrec hrb
                    hroot1 hm0
                  have hch3 : childrenOf? (setIsflat st2 i) rootId =
                      some (insertAll m0 (flatPairsItems e.repetition_type
                        (nps ++ [e.name]) ccs)) := by
                    rw [childrenOf?_setIsflat]
                    exact hnode.1
                  have hfr3 : FrameOK st (setIsflat st2 i) rootId :=
                    frameOK_trans
                      ((flatten_frame_aux fuel).1 _ _ _ _ _ hrec)
                      (frameOK_setIsflat st2 i rootId)
                  have hrl3 := reprListB_mono rest hfr3 hroot2 hrl
                  have hres := ihi _ rest rep rootId nps st' _ h hrl3
                    hroot2 hch3
                  rw [contribOf_struct nps k i e hrep' hccs hlm,
                    contribMarks_struct i e hrep' hccs hlm,
                    insertAll_append]
                  refine ⟨hres.1, ?_⟩
                  intro x hx
                  rw [List.mem_append, List.mem_append] at hx
                  have hmono2 := (flatten_isflat_mono_aux fuel).2 _ _ _ _ _
                    _ h
                  rcases hx with (hx | hx) | hx
                  · exact hmono2 x
                      (isflat_mono_setIsflat i (hnode.2 x hx))
                  · have hx' : x = i := by simpa using hx
                    subst hx'
                    have hel := ((flatten_frame_aux fuel).1 _ _ _ _ _
                      hrec).2.2 x
                    rw [ho] at hel
                    cases ho2 : st2[x]? with
                    | none => rw [ho2] at hel; simp at hel
                    | some o2 =>
                      exact hmono2 x (isflatOf_setIsflat_self ho2)
                  · exact hres.2 x hx

/-- Resolution of a dotted path (already split into segments) inside a keyed
subtree list: each segment selects a keyed entry, descending through the
subtree's own entries. -/
def pathInItems : List (String × FT) → List String → Option FT
  | _, [] => none
  | cs, k :: rest =>
    match assocLookup cs k with
    | none => none
    | some c => if rest.isEmpty then some c else pathInItems (ftKids c) rest

/-- Admissibility of a path for the flattener: every intermediate node on it
(every proper prefix beyond the first segment's parent) is neither
`REPEATED` nor `LIST`/`MAP`-annotated, so recursion descends through all of
them. -/
def okPath : List (String × FT) → List String → Bool
  | _, [] => true
  | cs, k :: rest =>
    if rest.isEmpty then true
    else
      match assocLookup cs k with
      | none => false
      | some c =>
        decide ((ftElem c).repetition_type ≠
          some FieldRepetitionType.REPEATED) &&
        decide (¬((ftElem c).converted_type = some ConvertedType.LIST ∨
          (ftElem c).converted_type = some ConvertedType.MAP)) &&
        okPath (ftKids c) rest

mutual

/-- Well-formed keying of an annotated tree: every entry's key is its
element's name and sibling keys are distinct, recursively.  Trees built by
`schema_tree` have this shape. -/
def keysOKb : List (String × FT) → Bool
  | [] => true
  | (k, c) :: rest =>
    decide (k = (ftElem c).name) && rest.all (fun q => decide (q.1 ≠ k)) &&
    keysOKT c && keysOKb rest

def keysOKT : FT → Bool
  | FT.node _ _ ccs => keysOKb ccs

end

theorem keysOKb_cons {k : String} {i : Nat} {e : SchemaElement}
    {ccs rest : List (String × FT)}
    (h : keysOKb ((k, FT.node i e ccs) :: rest) = true) :
    k = e.name ∧ (∀ q ∈ rest, q.1 ≠ k) ∧ keysOKb ccs = true ∧
      keysOKb rest = true := by
  simp only [keysOKb, keysOKT, ftElem_node, Bool.and_eq_true,
    decide_eq_true_eq, List.all_eq_true] at h
  exact ⟨h.1.1.1, fun q hq => h.1.1.2 q hq, h.1.2, h.2⟩

theorem keysOK_lookup : ∀ {cs : List (String × FT)}, keysOKb cs = true →
    ∀ {k : String} {c : FT}, assocLookup cs k = some c →
    k = (ftElem c).name ∧ keysOKb (ftKids c) = true := by
  intro cs
  induction cs with
  | nil => intro _ k c h; cases h
  | cons q rest ih =>
    intro hok k c hl
    obtain ⟨k1, c1⟩ := q
    cases c1 with
    | node i e ccs =>
      obtain ⟨hname, _, hccs, hrest⟩ := keysOKb_cons hok
      simp only [assocLookup] at hl
      by_cases hk : k1 = k
      · rw [if_pos hk] at hl
        injection hl with hl
        subst hl
        subst hk
        rw [ftElem_node, ftKids_node]
        exact ⟨hname, hccs⟩
      · rw [if_neg hk] at hl
        exact ih hrest hl

theorem keysOK_nodup : ∀ {cs : List (String × FT)}, keysOKb cs = true →
    (cs.map Prod.fst).Nodup := by
  intro cs
  induction cs with
  | nil => intro _; simp
  | cons q rest ih =>
    intro hok
    obtain ⟨k1, c1⟩ := q
    cases c1 with
    | node i e ccs =>
      obtain ⟨_, hall, _, hrest⟩ := keysOKb_cons hok
      simp only [List.map_cons, List.nodup_cons]
      refine ⟨?_, ih hrest⟩
      intro hmem
      obtain ⟨q, hq, hq1⟩ := List.mem_map.mp hmem
      exact hall q hq hq1

theorem dotJoin_single (k : String) : dotJoin [k] = k := by
  simp [dotJoin, String.intercalate, String.intercalate.go]

theorem flatPairsItems_repeated (nps : List String)
    (cs : List (String × FT)) :
    flatPairsItems (some FieldRepetitionType.REPEATED) nps cs = [] := by
  induction cs with
  | nil => exact flatPairsItems_nil _ _
  | cons q rest ih =>
    obtain ⟨k, c⟩ := q
    rw [flatPairsItems_cons, contribOf_repeated, List.nil_append]
    exact ih

theorem contrib_sub_of_lookup : ∀ {cs : List (String × FT)} {k : String}
    {c : FT}, assocLookup cs k = some c →
    ∀ (rep : Option FieldRepetitionType) (nps : List String)
      (x : String × Nat), x ∈ contribOf rep nps k c →
      x ∈ flatPairsItems rep nps cs := by
  intro cs
  induction cs with
  | nil => intro k c h; cases h
  | cons q rest ih =>
    intro k c hl rep nps x hx
    obtain ⟨k1, c1⟩ := q
    simp only [assocLookup] at hl
    rw [flatPairsItems_cons, List.mem_append]
    by_cases hk : k1 = k
    · rw [if_pos hk] at hl
      injection hl with hl
      subst hl
      subst hk
      exact Or.inl hx
    · rw [if_neg hk] at hl
      exact Or.inr (ih hl rep nps x hx)

theorem pathInItems_nil_src {p : List String} {c : FT}
    (h : pathInItems [] p = some c) : False := by
  cases p with
  | nil => simp [pathInItems] at h
  | cons k rest => simp [pathInItems, assocLookup] at h

theorem okPath_single (cs : List (String × FT)) (k : String) :
    okPath cs [k] = true := by
  simp [okPath]

theorem okPath_cons_inv {cs : List (String × FT)} {k : String}
    {rest : List String} (hne : rest ≠ [])
    (h : okPath cs (k :: rest) = true) :
    ∃ c, assocLookup cs k = some c ∧
      (ftElem c).repetition_type ≠ some FieldRepetitionType.REPEATED ∧
      ¬((ftElem c).converted_type = some ConvertedType.LIST ∨
        (ftElem c).converted_type = some ConvertedType.MAP) ∧
      okPath (ftKids c) rest = true := by
  simp only [okPath] at h
  rw [if_neg (by simp [List.isEmpty_iff, hne])] at h
  cases hl : assocLookup cs k with
  | none =>
    simp only [hl] at h
    cases h
  | some c =>
    simp only [hl, Bool.and_eq_true, decide_eq_true_eq] at h
    exact ⟨c, rfl, h.1.1, h.1.2, h.2⟩

theorem okPath_cons_build {cs : List (String × FT)} {k : String}
    {rest : List String} {c : FT} (hl : assocLookup cs k = some c)
    (h1 : (ftElem c).repetition_type ≠ some FieldRepetitionType.REPEATED)
    (h2 : ¬((ftElem c).converted_type = some ConvertedType.LIST ∨
      (ftElem c).converted_type = some ConvertedType.MAP))
    (h3 : okPath (ftKids c) rest = true) :
    okPath cs (k :: rest) = true := by
  simp only [okPath]
  by_cases hre : rest.isEmpty
  · rw [if_pos hre]
  · rw [if_neg hre, hl]
    simp [h1, h2, h3]

theorem pairs_mem_of_path : ∀ (p : List String) (cs : List (String × FT))
    (rep : Option FieldRepetitionType) (nps : List String) (leaf : FT),
    keysOKb cs = true →
    rep ≠ some FieldRepetitionType.REPEATED →
    pathInItems cs p = some leaf →
    ftKids leaf = [] →
    okPath cs p = true →
    (dotJoin (nps ++ p), ftId leaf) ∈ flatPairsItems rep nps cs := by
  intro p
  induction p with
  | nil =>
    intro cs rep nps leaf _ _ hp
    simp [pathInItems] at hp
  | cons k rest ih =>
    intro cs rep nps leaf hkeys hrep hp hleaf hok
    simp only [pathInItems] at hp
    cases hl : assocLookup cs k with
    | none =>
      simp only [hl] at hp
      cases hp
    | some c0 =>
      simp only [hl] at hp
      by_cases hre : rest = []
      · subst hre
        simp only [List.isEmpty_nil, if_true] at hp
        injection hp with hp
        subst hp
        cases c0 with
        | node i e ccs =>
          rw [ftKids_node] at hleaf
          subst hleaf
          apply contrib_sub_of_lookup hl rep nps
          rw [contribOf_leaf nps k i e hrep, ftId_node]
          simp
      · rw [if_neg (by simp [List.isEmpty_iff, hre])] at hp
        obtain ⟨c', hl', hr1, hr2, hok'⟩ := okPath_cons_inv hre hok
        rw [hl] at hl'
        injection hl' with hl'
        subst hl'
        obtain ⟨hname, hkeys'⟩ := keysOK_lookup hkeys hl
        cases c0 with
        | node i e ccs =>
          rw [ftKids_node] at hp hok'
          rw [ftElem_node] at hr1 hr2 hname
          have hccs : ccs ≠ [] := by
            intro hnil
            subst hnil
            exact pathInItems_nil_src hp
          apply contrib_sub_of_lookup hl rep nps
          rw [contribOf_struct nps k i e hrep hccs hr2]
          have hmem := ih ccs e.repetition_type (nps ++ [e.name]) leaf
            hkeys' hr1 hp hleaf hok'
          have heq : nps ++ k :: rest = (nps ++ [e.name]) ++ rest := by
            rw [hname]
            simp
          rw [heq]
          exact hmem

theorem ftIds_sub_of_lookup : ∀ {cs : List (String × FT)} {k : String}
    {c : FT}, assocLookup cs k = some c →
    ∀ x ∈ ftIds c, x ∈ ftIdsList cs := by
  intro cs
  induction cs with
  | nil => intro k c h; cases h
  | cons q rest ih =>
    intro k c hl x hx
    obtain ⟨k1, c1⟩ := q
    simp only [assocLookup] at hl
    rw [ftIdsList_cons, List.mem_append]
    by_cases hk : k1 = k
    · rw [if_pos hk] at hl
      injection hl with hl
      subst hl
      exact Or.inl hx
    · rw [if_neg hk] at hl
      exact Or.inr (ih hl x hx)

theorem idOf_path_mem : ∀ (p : List String) {cs : List (String × FT)}
    {c : FT}, pathInItems cs p = some c → ftId c ∈ ftIdsList cs := by
  intro p
  induction p with
  | nil => intro cs c hp; simp [pathInItems] at hp
  | cons k rest ih =>
    intro cs c hp
    simp only [pathInItems] at hp
    cases hl : assocLookup cs k with
    | none =>
      simp only [hl] at hp
      cases hp
    | some c0 =>
      simp only [hl] at hp
      by_cases hre : rest = []
      · subst hre
        simp only [List.isEmpty_nil, if_true] at hp
        injection hp with hp
        subst hp
        apply ftIds_sub_of_lookup hl
        cases c0 with
        | node i e ccs =>
          rw [ftIds_node, ftId_node]
          exact List.mem_cons_self _ _
      · rw [if_neg (by simp [List.isEmpty_iff, hre])] at hp
        apply ftIds_sub_of_lookup hl
        cases c0 with
        | node i e ccs =>
          rw [ftIds_node]
          rw [ftKids_node] at hp
          exact List.mem_cons_of_mem _ (ih hp)

theorem path_id_in_entry {cs : List (String × FT)} {k : String}
    {rest : List String} {c c0 : FT}
    (hp : pathInItems cs (k :: rest) = some c)
    (hl : assocLookup cs k = some c0) : ftId c ∈ ftIds c0 := by
  simp only [pathInItems, hl] at hp
  by_cases hre : rest = []
  · subst hre
    simp only [List.isEmpty_nil, if_true] at hp
    injection hp with hp
    subst hp
    cases c0 with
    | node i e ccs =>
      rw [ftIds_node, ftId_node]
      exact List.mem_cons_self _ _
  · rw [if_neg (by simp [List.isEmpty_iff, hre])] at hp
    cases c0 with
    | node i e ccs =>
      rw [ftIds_node]
      rw [ftKids_node] at hp
      exact List.mem_cons_of_mem _ (idOf_path_mem rest hp)

theorem path_id_deep {cs : List (String × FT)} {k : String}
    {rest : List String} {c c0 : FT} (hne : rest ≠ [])
    (hp : pathInItems cs (k :: rest) = some c)
    (hl : assocLookup cs k = some c0) :
    ftId c ∈ ftIdsList (ftKids c0) := by
  simp only [pathInItems, hl] at hp
  rw [if_neg (by simp [List.isEmpty_iff, hne])] at hp
  exact idOf_path_mem rest hp

theorem nodup_ftIds_of_lookup : ∀ {cs : List (String × FT)},
    (ftIdsList cs).Nodup → ∀ {k : String} {c : FT},
    assocLookup cs k = some c → (ftIds c).Nodup := by
  intro cs
  induction cs with
  | nil => intro _ k c h; cases h
  | cons q rest ih =>
    intro hnd k c hl
    obtain ⟨k1, c1⟩ := q
    rw [ftIdsList_cons, List.nodup_append] at hnd
    simp only [assocLookup] at hl
    by_cases hk : k1 = k
    · rw [if_pos hk] at hl
      injection hl with hl
      subst hl
      exact hnd.1
    · rw [if_neg hk] at hl
      exact ih hnd.2.1 hl

theorem disjoint_of_lookup_ne : ∀ {cs : List (String × FT)},
    (ftIdsList cs).Nodup → ∀ {k k' : String} {c c' : FT},
    assocLookup cs k = some c → assocLookup cs k' = some c' → k ≠ k' →
    ∀ x, x ∈ ftIds c → x ∈ ftIds c' → False := by
  intro cs
  induction cs with
  | nil => intro _ k k' c c' h; cases h
  | cons q rest ih =>
    intro hnd k k' c c' hl hl' hkk x hx hx'
    obtain ⟨k1, c1⟩ := q
    rw [ftIdsList_cons, List.nodup_append] at hnd
    simp only [assocLookup] at hl hl'
    by_cases hk : k1 = k
    · rw [if_pos hk] at hl
      injection hl with hl
      subst hl
      have hk' : ¬(k1 = k') := fun he => hkk ((hk.symm).trans he)
      rw [if_neg hk'] at hl'
      exact hnd.2.2 hx (ftIds_sub_of_lookup hl' x hx')
    · rw [if_neg hk] at hl
      by_cases hk' : k1 = k'
      · rw [if_pos hk'] at hl'
        injection hl' with hl'
        subst hl'
        exact hnd.2.2 hx' (ftIds_sub_of_lookup hl x hx)
      · rw [if_neg hk'] at hl'
        exact ih hnd.2.1 hl hl' hkk x hx hx'

theorem pathInItems_inj : ∀ (p : List String) {p' : List String}
    {cs : List (String × FT)} {c c' : FT}, (ftIdsList cs).Nodup →
    pathInItems cs p = some c → pathInItems cs p' = some c' →
    ftId c = ftId c' → p = p' ∧ c = c' := by
  intro p
  induction p with
  | nil => intro p' cs c c' _ hp; simp [pathInItems] at hp
  | cons k rest ih =>
    intro p' cs c c' hnd hp hp' hid
    cases p' with
    | nil => simp [pathInItems] at hp'
    | cons k' rest' =>
      cases hl : assocLookup cs k with
      | none => simp only [pathInItems, hl] at hp; cases hp
      | some c0 =>
        cases hl' : assocLookup cs k' with
        | none => simp only [pathInItems, hl'] at hp'; cases hp'
        | some c0' =>
          by_cases hkk : k = k'
          · subst hkk
            rw [hl] at hl'
            injection hl' with hl'
            subst hl'
            simp only [pathInItems, hl] at hp hp'
            have hnd0 := nodup_ftIds_of_lookup hnd hl
            cases c0 with
            | node i e ccs =>
              rw [ftIds_node, List.nodup_cons] at hnd0
              by_cases hre : rest = []
              · by_cases hre' : rest' = []
                · subst hre
                  subst hre'
                  simp only [List.isEmpty_nil, if_true] at hp hp'
                  injection hp with hp
                  injection hp' with hp'
                  subst hp
                  subst hp'
                  exact ⟨rfl, rfl⟩
                · subst hre
                  simp only [List.isEmpty_nil, if_true] at hp
                  injection hp with hp
                  subst hp
                  rw [if_neg (by simp [List.isEmpty_iff, hre'])] at hp'
                  rw [ftKids_node] at hp'
                  have hmem := idOf_path_mem rest' hp'
                  rw [ftId_node] at hid
                  rw [← hid] at hmem
                  exact absurd hmem hnd0.1
              · by_cases hre' : rest' = []
                · subst hre'
                  simp only [List.isEmpty_nil, if_true] at hp'
                  injection hp' with hp'
                  subst hp'
                  rw [if_neg (by simp [List.isEmpty_iff, hre])] at hp
                  rw [ftKids_node] at hp
                  have hmem := idOf_path_mem rest hp
                  rw [ftId_node] at hid
                  rw [hid] at hmem
                  exact absurd hmem hnd0.1
                · rw [if_neg (by simp [List.isEmpty_iff, hre])] at hp
                  rw [if_neg (by simp [List.isEmpty_iff, hre'])] at hp'
                  rw [ftKids_node] at hp hp'
                  obtain ⟨hpe, hce⟩ := ih hnd0.2 hp hp' hid
                  exact ⟨by rw [hpe], hce⟩
          · exfalso
            refine disjoint_of_lookup_ne hnd hl hl' hkk (ftId c)
              (path_id_in_entry hp hl) ?_
            rw [hid]
            exact path_id_in_entry hp' hl'

theorem flatPairs_vals_sub : ∀ (cs : List (String × FT))
    (rep : Option FieldRepetitionType) (nps : List String)
    (x : String × Nat), x ∈ flatPairsItems rep nps cs →
    x.2 ∈ ftIdsList cs := by
  intro cs
  match cs with
  | [] =>
    intro rep nps x hx
    rw [flatPairsItems_nil] at hx
    cases hx
  | (k, FT.node i e ccs) :: rest =>
    intro rep nps x hx
    rw [flatPairsItems_cons, List.mem_append] at hx
    rw [ftIdsList_cons, List.mem_append]
    rcases hx with hx | hx
    · left
      rw [ftIds_node]
      by_cases hrep : rep = some FieldRepetitionType.REPEATED
      · subst hrep
        rw [contribOf_repeated] at hx
        cases hx
      · by_cases hccs : ccs = []
        · subst hccs
          rw [contribOf_leaf nps k i e hrep] at hx
          simp only [List.mem_singleton] at hx
          subst hx
          exact List.mem_cons_self _ _
        · by_cases hlm : e.converted_type = some ConvertedType.LIST ∨
              e.converted_type = some ConvertedType.MAP
          · rw [contribOf_lm nps k i e hrep hccs hlm] at hx
            simp only [List.mem_singleton] at hx
            subst hx
            exact List.mem_cons_self _ _
          · rw [contribOf_struct nps k i e hrep hccs hlm] at hx
            exact List.mem_cons_of_mem _
              (flatPairs_vals_sub ccs e.repetition_type
                (nps ++ [e.name]) x hx)
    · exact Or.inr (flatPairs_vals_sub rest rep nps x hx)

theorem flatPairs_vals_nodup : ∀ (cs : List (String × FT))
    (rep : Option FieldRepetitionType) (nps : List String),
    (ftIdsList cs).Nodup →
    ((flatPairsItems rep nps cs).map Prod.snd).Nodup := by
  intro cs
  match cs with
  | [] =>
    intro rep nps _
    rw [flatPairsItems_nil]
    simp
  | (k, FT.node i e ccs) :: rest =>
    intro rep nps hnd
    rw [ftIdsList_cons, List.nodup_append] at hnd
    rw [flatPairsItems_cons, List.map_append, List.nodup_append]
    have hsub : ∀ a, a ∈ (contribOf rep nps k (FT.node i e ccs)).map
        Prod.snd → a ∈ ftIds (FT.node i e ccs) := by
      intro a ha
      obtain ⟨pr, hpr, hpr2⟩ := List.mem_map.mp ha
      have hlook : assocLookup [(k, FT.node i e ccs)] k =
          some (FT.node i e ccs) := by
        simp [assocLookup]
      have := contrib_sub_of_lookup hlook rep nps pr hpr
      have hv := flatPairs_vals_sub [(k, FT.node i e ccs)] rep nps pr this
      rw [ftIdsList_cons, ftIdsList] at hv
      rw [← hpr2]
      simpa using hv
    refine ⟨?_, ?_, ?_⟩
    · by_cases hrep : rep = some FieldRepetitionType.REPEATED
      · subst hrep
        rw [contribOf_repeated]
        simp
      · by_cases hccs : ccs = []
        · subst hccs
          rw [contribOf_leaf nps k i e hrep]
          simp
        · by_cases hlm : e.converted_type = some ConvertedType.LIST ∨
              e.converted_type = some ConvertedType.MAP
          · rw [contribOf_lm nps k i e hrep hccs hlm]
            simp
          · rw [contribOf_struct nps k i e hrep hccs hlm]
            have hccnd : (ftIdsList ccs).Nodup := by
              have := hnd.1
              rw [ftIds_node, List.nodup_cons] at this
              exact this.2
            exact flatPairs_vals_nodup ccs e.repetition_type
              (nps ++ [e.name]) hccnd
    · exact flatPairs_vals_nodup rest rep nps hnd.2.1
    · intro a ha hb
      obtain ⟨pr, hpr, hpr2⟩ := List.mem_map.mp hb
      have hrsub := flatPairs_vals_sub rest rep nps pr hpr
      exact hnd.2.2 (hsub a ha) (hpr2 ▸ hrsub)

theorem top_ids_sub : ∀ {cs : List (String × FT)} {x : Nat},
    x ∈ cs.map (fun q => ftId q.2) → x ∈ ftIdsList cs := by
  intro cs
  induction cs with
  | nil => intro x hx; cases hx
  | cons q rest ih =>
    intro x hx
    obtain ⟨k1, c1⟩ := q
    rw [ftIdsList_cons, List.mem_append]
    simp only [List.map_cons, List.mem_cons] at hx
    rcases hx with hx | hx
    · left
      subst hx
      cases c1 with
      | node i e ccs =>
        rw [ftIds_node, ftId_node]
        exact List.mem_cons_self _ _
    · exact Or.inr (ih hx)

theorem top_ids_nodup : ∀ {cs : List (String × FT)},
    (ftIdsList cs).Nodup → (cs.map (fun q => ftId q.2)).Nodup := by
  intro cs
  induction cs with
  | nil => intro _; simp
  | cons q rest ih =>
    intro hnd
    obtain ⟨k1, c1⟩ := q
    rw [ftIdsList_cons, List.nodup_append] at hnd
    simp only [List.map_cons, List.nodup_cons]
    refine ⟨?_, ih hnd.2.1⟩
    intro hmem
    have hx := top_ids_sub hmem
    have hhd : ftId c1 ∈ ftIds c1 := by
      cases c1 with
      | node i e ccs =>
        rw [ftIds_node, ftId_node]
        exact List.mem_cons_self _ _
    exact hnd.2.2 hhd hx

theorem deep_id_not_top : ∀ {cs : List (String × FT)},
    (ftIdsList cs).Nodup → ∀ {k : String} {c0 : FT},
    assocLookup cs k = some c0 → ∀ {x : Nat},
    x ∈ ftIdsList (ftKids c0) → x ∉ cs.map (fun q => ftId q.2) := by
  intro cs
  induction cs with
  | nil => intro _ k c0 h; cases h
  | cons q rest ih =>
    intro hnd k c0 hl x hx hmem
    obtain ⟨k1, c1⟩ := q
    rw [ftIdsList_cons, List.nodup_append] at hnd
    simp only [assocLookup] at hl
    simp only [List.map_cons, List.mem_cons] at hmem
    by_cases hk : k1 = k
    · rw [if_pos hk] at hl
      injection hl with hl
      subst hl
      cases c1 with
      | node i e ccs =>
        rw [ftKids_node] at hx
        have hnd1 := hnd.1
        rw [ftIds_node, List.nodup_cons] at hnd1
        rcases hmem with hmem | hmem
        · rw [ftId_node] at hmem
          rw [← hmem] at hnd1
          exact hnd1.1 hx
        · refine hnd.2.2 ?_ (top_ids_sub hmem)
          rw [ftIds_node]
          exact List.mem_cons_of_mem _ hx
    · rw [if_neg hk] at hl
      rcases hmem with hmem | hmem
      · have hxin : x ∈ ftIdsList rest := by
          refine ftIds_sub_of_lookup hl x ?_
          cases c0 with
          | node i e ccs =>
            rw [ftKids_node] at hx
            rw [ftIds_node]
            exact List.mem_cons_of_mem _ hx
        have hhd : ftId c1 ∈ ftIds c1 := by
          cases c1 with
          | node i e ccs =>
            rw [ftIds_node, ftId_node]
            exact List.mem_cons_self _ _
        rw [hmem] at hxin
        exact hnd.2.2 hhd hxin
      · exact ih hnd.2.1 hl hx hmem

theorem countP_snd_one : ∀ {ps : List (String × Nat)},
    (ps.map Prod.snd).Nodup → ∀ {k : String} {v : Nat}, (k, v) ∈ ps →
    ps.countP (fun pr => decide (pr.2 = v)) = 1 := by
  intro ps
  induction ps with
  | nil => intro _ k v h; cases h
  | cons q rest ih =>
    intro hnd k v hm
    simp only [List.map_cons, List.nodup_cons] at hnd
    rw [List.countP_cons]
    rcases List.mem_cons.mp hm with heq | hmem
    · cases heq
      have hz : rest.countP (fun pr => decide (pr.2 = v)) = 0 := by
        refine List.countP_eq_zero.mpr ?_
        intro pr hpr
        simp only [decide_eq_true_eq]
        intro hpe
        have hv : pr.2 ∈ rest.map Prod.snd :=
          List.mem_map_of_mem Prod.snd hpr
        rw [hpe] at hv
        exact hnd.1 hv
      simp [hz]
    · have hne : q.2 ≠ v := by
        intro hpe
        have hv : v ∈ rest.map Prod.snd := by
          have := List.mem_map_of_mem Prod.snd hmem
          simpa using this
        exact hnd.1 (hpe ▸ hv)
      simp only [decide_eq_false hne, if_false]
      exact ih hnd.2 hmem

theorem countP_snd_zero {ps : List (String × Nat)} {v : Nat}
    (h : ∀ pr ∈ ps, pr.2 ≠ v) :
    ps.countP (fun pr => decide (pr.2 = v)) = 0 := by
  refine List.countP_eq_zero.mpr ?_
  intro pr hpr
  simp only [decide_eq_true_eq]
  exact h pr hpr

theorem path_ne_nil {cs : List (String × FT)} {p : List String} {c : FT}
    (h : pathInItems cs p = some c) : p ≠ [] := by
  intro hnil
  subst hnil
  simp [pathInItems] at h

theorem assocLookup_cons_ne {α : Type} {k1 k : String} (h : k1 ≠ k)
    (v : α) (m : List (String × α)) :
    assocLookup ((k1, v) :: m) k = assocLookup m k := by
  simp [assocLookup, h]

theorem lookup_key_mem {α : Type} {m : List (String × α)} {k : String}
    {v : α} (h : assocLookup m k = some v) : k ∈ m.map Prod.fst := by
  have := assocLookup_mem h
  exact List.mem_map_of_mem Prod.fst this

theorem pathInItems_cons_head {k : String} {hd : FT}
    {rest : List (String × FT)} {p2 : List String} (hne : p2 ≠ []) :
    pathInItems ((k, hd) :: rest) (k :: p2) = pathInItems (ftKids hd) p2 := by
  cases p2 with
  | nil => exact absurd rfl hne
  | cons a b => simp [pathInItems, assocLookup]

theorem pathInItems_cons_ne {k k2 : String} {hd : FT}
    {rest : List (String × FT)} {p2 : List String} (hne : k ≠ k2) :
    pathInItems ((k, hd) :: rest) (k2 :: p2) =
      pathInItems rest (k2 :: p2) := by
  simp only [pathInItems, assocLookup_cons_ne hne]

theorem okPath_cons_ne {k k2 : String} {hd : FT}
    {rest : List (String × FT)} {p2 : List String} (hne : k ≠ k2) :
    okPath ((k, hd) :: rest) (k2 :: p2) = okPath rest (k2 :: p2) := by
  simp only [okPath, assocLookup_cons_ne hne]

theorem path_of_pairs_mem : ∀ (cs : List (String × FT))
    (rep : Option FieldRepetitionType) (nps : List String)
    (x : String × Nat), keysOKb cs = true →
    x ∈ flatPairsItems rep nps cs →
    ∃ p c, pathInItems cs p = some c ∧ x.1 = dotJoin (nps ++ p) ∧
      x.2 = ftId c ∧ okPath cs p = true ∧
      (ftKids c = [] ∨
        ((ftElem c).converted_type = some ConvertedType.LIST ∨
         (ftElem c).converted_type = some ConvertedType.MAP)) := by
  intro cs
  match cs with
  | [] =>
    intro rep nps x _ hx
    rw [flatPairsItems_nil] at hx
    cases hx
  | (k, FT.node i e ccs) :: rest =>
    intro rep nps x hkeys hx
    obtain ⟨hname, hall, hkc, hkr⟩ := keysOKb_cons hkeys
    rw [flatPairsItems_cons, List.mem_append] at hx
    rcases hx with hx | hx
    · by_cases hrep : rep = some FieldRepetitionType.REPEATED
      · subst hrep
        rw [contribOf_repeated] at hx
        cases hx
      · by_cases hccs : ccs = []
        · subst hccs
          rw [contribOf_leaf nps k i e hrep] at hx
          simp only [List.mem_singleton] at hx
          subst hx
          refine ⟨[k], FT.node i e [], ?_, rfl, ?_, okPath_single _ _, ?_⟩
          · simp [pathInItems, assocLookup]
          · rw [ftId_node]
          · left
            rw [ftKids_node]
        · by_cases hlm : e.converted_type = some ConvertedType.LIST ∨
              e.converted_type = some ConvertedType.MAP
          · rw [contribOf_lm nps k i e hrep hccs hlm] at hx
            simp only [List.mem_singleton] at hx
            subst hx
            refine ⟨[k], FT.node i e ccs, ?_, rfl, ?_,
              okPath_single _ _, ?_⟩
            · simp [pathInItems, assocLookup]
            · rw [ftId_node]
            · right
              rw [ftElem_node]
              exact hlm
          · rw [contribOf_struct nps k i e hrep hccs hlm] at hx
            have hrepe : e.repetition_type ≠
                some FieldRepetitionType.REPEATED := by
              intro hre
              rw [hre, flatPairsItems_repeated] at hx
              cases hx
            obtain ⟨p', c', hp', hx1, hx2, hok', hcls⟩ :=
              path_of_pairs_mem ccs e.repetition_type
                (nps ++ [e.name]) x hkc hx
            have hpne := path_ne_nil hp'
            refine ⟨k :: p', c', ?_, ?_, hx2, ?_, hcls⟩
            · rw [pathInItems_cons_head hpne, ftKids_node]
              exact hp'
            · rw [hx1]
              have heq : nps ++ k :: p' = (nps ++ [e.name]) ++ p' := by
                rw [hname]
                simp
              rw [heq]
            · refine okPath_cons_build (c := FT.node i e ccs)
                (by simp [assocLookup]) ?_ ?_ ?_
              · rw [ftElem_node]
                exact hrepe
              · rw [ftElem_node]
                exact hlm
              · rw [ftKids_node]
                exact hok'
    · obtain ⟨p, c, hp, hx1, hx2, hok, hcls⟩ :=
        path_of_pairs_mem rest rep nps x hkr hx
      cases p with
      | nil => exact absurd rfl (path_ne_nil hp)
      | cons k2 p2 =>
        have hk2 : k ≠ k2 := by
          intro he
          subst he
          simp only [pathInItems] at hp
          cases hl2 : assocLookup rest k with
          | none => simp only [hl2] at hp; cases hp
          | some c2 =>
            exact hall _ (assocLookup_mem hl2) rfl
        refine ⟨k2 :: p2, c, ?_, hx1, hx2, ?_, hcls⟩
        · rw [pathInItems_cons_ne hk2]
          exact hp
        · rw [okPath_cons_ne hk2]
          exact hok

theorem insertAll_char : ∀ (ps m : List (String × Nat)),
    (m.map Prod.fst).Nodup → (ps.map Prod.fst).Nodup →
    (∀ p ∈ ps, assocLookup m p.1 = none ∨ assocLookup m p.1 = some p.2) →
    insertAll m ps =
      m ++ ps.filter (fun pr => (assocLookup m pr.1).isNone) := by
  intro ps
  induction ps with
  | nil => intro m _ _ _; simp [insertAll_nil]
  | cons p rest ih =>
    intro m hmnd hpnd hcompat
    simp only [List.map_cons, List.nodup_cons] at hpnd
    rw [insertAll_cons]
    rcases hcompat p (List.mem_cons_self _ _) with hnone | hsome
    · have hfresh : p.1 ∉ m.map Prod.fst := assocLookup_none_not_mem hnone
      rw [odInsert_fresh m p.1 p.2 hfresh]
      have hmnd' : ((m ++ [p]).map Prod.fst).Nodup := by
        rw [List.map_append, List.nodup_append]
        refine ⟨hmnd, by simp, ?_⟩
        intro a ha hb
        simp only [List.map_cons, List.map_nil, List.mem_singleton] at hb
        subst hb
        exact hfresh ha
      have hcompat' : ∀ q ∈ rest, assocLookup (m ++ [p]) q.1 = none ∨
          assocLookup (m ++ [p]) q.1 = some q.2 := by
        intro q hq
        have hqne : q.1 ≠ p.1 := fun he =>
          hpnd.1 (he ▸ List.mem_map_of_mem Prod.fst hq)
        have hne' : p.1 ≠ q.1 := fun he => hqne he.symm
        rcases hcompat q (List.mem_cons_of_mem _ hq) with h | h
        · left
          rw [assocLookup_append_none h]
          simp [assocLookup, hne']
        · right
          exact assocLookup_append_some h
      rw [ih (m ++ [p]) hmnd' hpnd.2 hcompat']
      have hfilt : rest.filter
            (fun pr => (assocLookup (m ++ [p]) pr.1).isNone) =
          rest.filter (fun pr => (assocLookup m pr.1).isNone) := by
        apply List.filter_congr
        intro q hq
        have hqne : q.1 ≠ p.1 := fun he =>
          hpnd.1 (he ▸ List.mem_map_of_mem Prod.fst hq)
        have hne' : p.1 ≠ q.1 := fun he => hqne he.symm
        cases hlq : assocLookup m q.1 with
        | none =>
          rw [assocLookup_append_none hlq]
          simp [assocLookup, hne']
        | some v => rw [assocLookup_append_some hlq]
      rw [hfilt, List.filter_cons]
      have hpos : (assocLookup m p.1).isNone = true := by
        rw [hnone]
        rfl
      rw [if_pos hpos]
      simp
    · rw [odInsert_self hmnd hsome]
      rw [ih m hmnd hpnd.2
        (fun q hq => hcompat q (List.mem_cons_of_mem _ hq))]
      rw [List.filter_cons]
      have hneg : ¬((assocLookup m p.1).isNone = true) := by
        rw [hsome]
        simp
      rw [if_neg hneg]

theorem path_single_lookup {cs : List (String × FT)} {k : String}
    {leaf : FT} (h : pathInItems cs [k] = some leaf) :
    assocLookup cs k = some leaf := by
  simp only [pathInItems] at h
  cases hl : assocLookup cs k with
  | none =>
    simp only [hl] at h
    exact h
  | some c0 =>
    simp only [hl, List.isEmpty_nil, if_true] at h
    exact h

/-- A successful top-level `flatten(schema, root)` call with the root as both
arguments runs `flattenItems` over the root's mapping with the root's own
repetition type and empty name parts. -/
theorem flatten_run_top {fuel : Nat} {st st' : Store}
    {cs : List (String × FT)} {m0 : List (String × Nat)} {ro : Obj}
    (hro : st[0]? = some ro) (hrm : ro.children = some m0)
    (hmap : m0 = cs.map (fun p => (p.1, ftId p.2)))
    (hrepr : reprListB st cs = true) (hroot : (0 : Nat) ∉ ftIdsList cs)
    (h : flatten fuel st 0 0 [] = some st') :
    childrenOf? st' 0 = some (insertAll m0
      (flatPairsItems ro.elem.repetition_type [] cs)) ∧
    ∀ x ∈ flatMarksItems ro.elem.repetition_type cs,
      isflatOf st' x = some true := by
  cases fuel with
  | zero => simp [flatten] at h
  | succ f =>
    simp only [flatten, hro, hrm, if_true] at h
    subst hmap
    exact (flatten_spec_aux f).2 st cs ro.elem.repetition_type 0 [] st' _ h
      hrepr hroot (by simp [childrenOf?, hro, hrm])

theorem pair_of_leaf_val {cs : List (String × FT)}
    {rep : Option FieldRepetitionType} {p : List String} {leaf : FT}
    {pr : String × Nat} (hkeys : keysOKb cs = true)
    (hids : (ftIdsList cs).Nodup) (hpath : pathInItems cs p = some leaf)
    (hpr : pr ∈ flatPairsItems rep [] cs) (hv : pr.2 = ftId leaf) :
    pr.1 = dotJoin p ∧ okPath cs p = true := by
  obtain ⟨p', c', hp', h1, h2, hok2, _⟩ :=
    path_of_pairs_mem cs rep [] pr hkeys hpr
  have hideq : ftId c' = ftId leaf := by
    rw [← h2, hv]
  obtain ⟨hpe, hce⟩ := pathInItems_inj p' hids hp' hpath hideq
  subst hpe
  rw [List.nil_append] at h1
  exact ⟨h1, hok2⟩

theorem m0_vals_ne_deep {cs : List (String × FT)} {k : String}
    {rest : List String} {leaf : FT} (hids : (ftIdsList cs).Nodup)
    (hne : rest ≠ []) (hpath : pathInItems cs (k :: rest) = some leaf) :
    ∀ pr ∈ cs.map (fun q => (q.1, ftId q.2)), pr.2 ≠ ftId leaf := by
  intro pr hpr hv
  cases hl0 : assocLookup cs k with
  | none =>
    simp only [pathInItems, hl0] at hpath
    exact Option.noConfusion hpath
  | some c0 =>
    have hdeep := path_id_deep hne hpath hl0
    have hnt := deep_id_not_top hids hl0 hdeep
    obtain ⟨q, hq, hqe⟩ := List.mem_map.mp hpr
    refine hnt ?_
    rw [← hv, ← hqe]
    exact List.mem_map_of_mem (fun q => ftId q.2) hq

/-- **C3** (amended).  Consider a store realizing a well-formed keyed tree
under the root (keys equal element names and are sibling-distinct, store
ids are distinct, the root is not `REPEATED`, and the run's emitted dotted
keys are distinct and only ever overwrite a root entry with the same
value).  After a successful `flatten(schema, root)` run, a leaf resolvable
under path `p` appears in the flat index under exactly the one dotted path
`dotJoin p` when every intermediate node on `p` is neither `REPEATED` nor
`LIST`/`MAP`-annotated; otherwise — in particular below a legacy `REPEATED`
group, but also below a `LIST`/`MAP`-annotated group — its id appears under
no dotted path at all. -/
theorem C3_leaf_flat_index (fuel : Nat) (st st' : Store)
    (cs : List (String × FT)) (m0 : List (String × Nat)) (ro : Obj)
    (p : List String) (leaf : FT)
    (hro : st[0]? = some ro) (hrm : ro.children = some m0)
    (hmap : m0 = cs.map (fun q => (q.1, ftId q.2)))
    (hrepr : reprListB st cs = true)
    (hroot : (0 : Nat) ∉ ftIdsList cs)
    (hids : (ftIdsList cs).Nodup)
    (hkeys : keysOKb cs = true)
    (hrrep : ro.elem.repetition_type ≠ some FieldRepetitionType.REPEATED)
    (hfkeys : ((flatPairsItems ro.elem.repetition_type [] cs).map
      Prod.fst).Nodup)
    (hcompat : ∀ pr ∈ flatPairsItems ro.elem.repetition_type [] cs,
      assocLookup m0 pr.1 = none ∨ assocLookup m0 pr.1 = some pr.2)
    (h : flatten fuel st 0 0 [] = some st')
    (hpath : pathInItems cs p = some leaf)
    (hleaf : ftKids leaf = []) :
    ∃ idx, childrenOf? st' 0 = some idx ∧
      (okPath cs p = true →
        assocLookup idx (dotJoin p) = some (ftId leaf) ∧
        idx.countP (fun pr => decide (pr.2 = ftId leaf)) = 1) ∧
      (okPath cs p = false →
        idx.countP (fun pr => decide (pr.2 = ftId leaf)) = 0) := by
  have hrun := flatten_run_top hro hrm hmap hrepr hroot h
  have hm0keys : (m0.map Prod.fst).Nodup := by
    have h1 : (cs.map (fun q => (q.1, ftId q.2))).map Prod.fst =
        cs.map Prod.fst := by
      rw [List.map_map]
      rfl
    rw [hmap, h1]
    exact keysOK_nodup hkeys
  have hm0vals : m0.map Prod.snd = cs.map (fun q => ftId q.2) := by
    rw [hmap, List.map_map]
    rfl
  have hchar := insertAll_char
    (flatPairsItems ro.elem.repetition_type [] cs) m0 hm0keys hfkeys hcompat
  have hPvnd := flatPairs_vals_nodup cs ro.elem.repetition_type [] hids
  refine ⟨insertAll m0 (flatPairsItems ro.elem.repetition_type [] cs),
    hrun.1, ?_, ?_⟩
  · intro hok
    have hPmem := pairs_mem_of_path p cs ro.elem.repetition_type [] leaf
      hkeys hrrep hpath hleaf hok
    rw [List.nil_append] at hPmem
    cases p with
    | nil => exact absurd rfl (path_ne_nil hpath)
    | cons k rest =>
      by_cases hre : rest = []
      · subst hre
        have hl := path_single_lookup hpath
        have hm0look : assocLookup m0 k = some (ftId leaf) := by
          rw [hmap, assocLookup_map, hl]
          rfl
        constructor
        · rw [hchar, dotJoin_single]
          exact assocLookup_append_some hm0look
        · rw [hchar, List.countP_append]
          have h1 : m0.countP (fun pr => decide (pr.2 = ftId leaf)) = 1 := by
            refine countP_snd_one ?_ (assocLookup_mem hm0look)
            rw [hm0vals]
            exact top_ids_nodup hids
          have h2 : ((flatPairsItems ro.elem.repetition_type [] cs).filter
              (fun pr => (assocLookup m0 pr.1).isNone)).countP
              (fun pr => decide (pr.2 = ftId leaf)) = 0 := by
            refine countP_snd_zero ?_
            intro pr hpr hv
            have hprP := (List.mem_filter.mp hpr).1
            have hcond := (List.mem_filter.mp hpr).2
            obtain ⟨hkey, _⟩ := pair_of_leaf_val hkeys hids hpath hprP hv
            rw [hkey, dotJoin_single, hm0look] at hcond
            cases hcond
          rw [h1, h2]
      · have hm0ne : ∀ pr ∈ m0, pr.2 ≠ ftId leaf := by
          intro pr hpr
          refine m0_vals_ne_deep hids hre hpath pr ?_
          rw [← hmap]
          exact hpr
        have hm0none : assocLookup m0 (dotJoin (k :: rest)) = none := by
          rcases hcompat _ hPmem with hnone | hsome
          · exact hnone
          · exact absurd rfl (hm0ne _ (assocLookup_mem hsome))
        have hfreshmem : (dotJoin (k :: rest), ftId leaf) ∈
            (flatPairsItems ro.elem.repetition_type [] cs).filter
              (fun pr => (assocLookup m0 pr.1).isNone) :=
          List.mem_filter.mpr ⟨hPmem, by rw [hm0none]; rfl⟩
        constructor
        · rw [hchar, assocLookup_append_none hm0none]
          refine assocLookup_of_mem_nodup ?_ hfreshmem
          have hsub : (((flatPairsItems ro.elem.repetition_type [] cs).filter
                (fun pr => (assocLookup m0 pr.1).isNone)).map Prod.fst).Sublist
              ((flatPairsItems ro.elem.repetition_type [] cs).map Prod.fst) :=
            List.Sublist.map Prod.fst (List.filter_sublist _)
          exact List.Nodup.sublist hsub hfkeys
        · rw [hchar, List.countP_append]
          have h1 := countP_snd_zero hm0ne
          have h2 : ((flatPairsItems ro.elem.repetition_type [] cs).filter
              (fun pr => (assocLookup m0 pr.1).isNone)).countP
              (fun pr => decide (pr.2 = ftId leaf)) = 1 := by
            refine countP_snd_one ?_ hfreshmem
            have hsub : (((flatPairsItems ro.elem.repetition_type [] cs).filter
                  (fun pr => (assocLookup m0 pr.1).isNone)).map Prod.snd).Sublist
                ((flatPairsItems ro.elem.repetition_type [] cs).map Prod.snd) :=
              List.Sublist.map Prod.snd (List.filter_sublist _)
            exact List.Nodup.sublist hsub hPvnd
          rw [h1, h2]
  · intro hok
    cases p with
    | nil => exact absurd rfl (path_ne_nil hpath)
    | cons k rest =>
      by_cases hre : rest = []
      · subst hre
        rw [okPath_single] at hok
        cases hok
      · have hm0ne : ∀ pr ∈ m0, pr.2 ≠ ftId leaf := by
          intro pr hpr
          refine m0_vals_ne_deep hids hre hpath pr ?_
          rw [← hmap]
          exact hpr
        rw [hchar, List.countP_append]
        have h1 := countP_snd_zero hm0ne
        have h2 : ((flatPairsItems ro.elem.repetition_type [] cs).filter
            (fun pr => (assocLookup m0 pr.1).isNone)).countP
            (fun pr => decide (pr.2 = ftId leaf)) = 0 := by
          refine countP_snd_zero ?_
          intro pr hpr hv
          have hprP := (List.mem_filter.mp hpr).1
          obtain ⟨_, hok2⟩ := pair_of_leaf_val hkeys hids hpath hprP hv
          rw [hok] at hok2
          cases hok2
        rw [h1, h2]

mutual

/-- Kernel-evaluable form of the pair list: path segments relative to the
parent, the parent's `REPEATED` gating left to the caller. -/
def pairsOf : List (String × FT) → List (List String × Nat)
  | [] => []
  | (k, c) :: rest => pairsOfEntry k c ++ pairsOf rest

def pairsOfEntry (k : String) : FT → List (List String × Nat)
  | FT.node i e ccs =>
    if ccs.isEmpty then [([k], i)]
    else if e.converted_type = some ConvertedType.LIST ∨
            e.converted_type = some ConvertedType.MAP then [([k], i)]
    else if e.repetition_type = some FieldRepetitionType.REPEATED then []
    else (pairsOf ccs).map (fun q => (e.name :: q.1, q.2))

end

theorem flatPairsItems_eq_pairsOf : ∀ (cs : List (String × FT))
    (rep : Option FieldRepetitionType) (nps : List String),
    flatPairsItems rep nps cs =
      if rep = some FieldRepetitionType.REPEATED then []
      else (pairsOf cs).map (fun q => (dotJoin (nps ++ q.1), q.2)) := by
  intro cs
  match cs with
  | [] =>
    intro rep nps
    rw [flatPairsItems_nil]
    by_cases hrep : rep = some FieldRepetitionType.REPEATED
    · rw [if_pos hrep]
    · rw [if_neg hrep]
      rfl
  | (k, FT.node i e ccs) :: rest =>
    intro rep nps
    by_cases hrep : rep = some FieldRepetitionType.REPEATED
    · rw [if_pos hrep, hrep, flatPairsItems_repeated]
    · rw [if_neg hrep, flatPairsItems_cons]
      have hrest := flatPairsItems_eq_pairsOf rest rep nps
      rw [if_neg hrep] at hrest
      rw [hrest]
      have hps : pairsOf ((k, FT.node i e ccs) :: rest) =
          pairsOfEntry k (FT.node i e ccs) ++ pairsOf rest := by
        rw [pairsOf]
      rw [hps, List.map_append]
      congr 1
      by_cases hccs : ccs = []
      · subst hccs
        rw [contribOf_leaf nps k i e hrep]
        simp [pairsOfEntry]
      · by_cases hlm : e.converted_type = some ConvertedType.LIST ∨
            e.converted_type = some ConvertedType.MAP
        · rw [contribOf_lm nps k i e hrep hccs hlm]
          simp [pairsOfEntry, hlm, List.isEmpty_iff, hccs]
        · rw [contribOf_struct nps k i e hrep hccs hlm]
          by_cases hrepe : e.repetition_type =
              some FieldRepetitionType.REPEATED
          · rw [hrepe, flatPairsItems_repeated]
            simp [pairsOfEntry, hlm, List.isEmpty_iff, hccs, hrepe]
          · have hrec := flatPairsItems_eq_pairsOf ccs e.repetition_type
              (nps ++ [e.name])
            rw [if_neg hrepe] at hrec
            rw [hrec]
            simp only [pairsOfEntry, hlm, List.isEmpty_iff, hccs, hrepe,
              if_false, List.map_map]
            apply List.map_congr_left
            intro q _
            simp [Function.comp]

/-- The annotated tree realized by `stSX` below its root: struct `s` at
index 1 with leaf `x` at index 2. -/
def csSX : List (String × FT) :=
  [("s", FT.node 1 (seGroup "s" 1 (some FieldRepetitionType.REQUIRED))
    [("x", FT.node 2 (seLeaf "x" PhysicalType.INT32
      FieldRepetitionType.OPTIONAL) [])])]

/-- The leaf subtree `x` of `csSX`. -/
def leafX : FT :=
  FT.node 2 (seLeaf "x" PhysicalType.INT32 FieldRepetitionType.OPTIONAL) []

/-- Witness for C3 (amended): in the `stSX` scenario the leaf `x` of struct
`s` resolves under path `s.x`, the path is admissible, and the flat index
after flattening holds its id exactly once, under the dotted key. -/
theorem C3_leaf_flat_index_witness :
    ∃ idx, childrenOf? stSXflat 0 = some idx ∧
      (okPath csSX ["s", "x"] = true →
        assocLookup idx (dotJoin ["s", "x"]) = some (ftId leafX) ∧
        idx.countP (fun pr => decide (pr.2 = ftId leafX)) = 1) ∧
      (okPath csSX ["s", "x"] = false →
        idx.countP (fun pr => decide (pr.2 = ftId leafX)) = 0) :=
  C3_leaf_flat_index 10 stSX stSXflat csSX [("s", 1)]
    ⟨seGroup "root" 1, some [("s", 1)], false⟩ ["s", "x"] leafX
    (by decide) (by decide) (by decide) (by decide) (by decide) (by decide)
    (by decide) (by decide)
    (by simp only [flatPairsItems_eq_pairsOf]; decide)
    (by simp only [flatPairsItems_eq_pairsOf]; decide)
    (by decide) rfl rfl

theorem marks_mem_struct : ∀ {cs : List (String × FT)} {k : String}
    {c : FT} {rep : Option FieldRepetitionType},
    assocLookup cs k = some c → rep ≠ some FieldRepetitionType.REPEATED →
    ftKids c ≠ [] →
    ¬((ftElem c).converted_type = some ConvertedType.LIST ∨
      (ftElem c).converted_type = some ConvertedType.MAP) →
    ftId c ∈ flatMarksItems rep cs := by
  intro cs
  induction cs with
  | nil => intro k c rep h; cases h
  | cons q rest ih =>
    intro k c rep hl hrep hkids hclm
    obtain ⟨k1, c1⟩ := q
    rw [flatMarksItems_cons, List.mem_append]
    simp only [assocLookup] at hl
    by_cases hk : k1 = k
    · rw [if_pos hk] at hl
      injection hl with hl
      subst hl
      left
      cases c1 with
      | node i e ccs =>
        rw [ftKids_node] at hkids
        rw [ftElem_node] at hclm
        rw [contribMarks_struct i e hrep hkids hclm, ftId_node]
        exact List.mem_append_right _ (List.mem_singleton.mpr rfl)
    · rw [if_neg hk] at hl
      exact Or.inr (ih hl hrep hkids hclm)

/-- **C5** (amended).  After flattening, a plain struct entry of the root
(non-empty children, not `LIST`/`MAP`-annotated, root not `REPEATED`) is
marked `isflat = true` and its leaf child appears in the flat index under
the dotted path; but — contrary to the original claim — the struct's own
entry is NOT removed from the index: the root mapping still maps the
struct's key to the struct node (the `pop` that would remove it is
commented out in the source). -/
theorem C5_struct_flag_and_leftover_entry (fuel : Nat) (st st' : Store)
    (cs : List (String × FT)) (m0 : List (String × Nat)) (ro : Obj)
    (k k2 : String) (c leaf : FT)
    (hro : st[0]? = some ro) (hrm : ro.children = some m0)
    (hmap : m0 = cs.map (fun q => (q.1, ftId q.2)))
    (hrepr : reprListB st cs = true)
    (hroot : (0 : Nat) ∉ ftIdsList cs)
    (hids : (ftIdsList cs).Nodup)
    (hkeys : keysOKb cs = true)
    (hrrep : ro.elem.repetition_type ≠ some FieldRepetitionType.REPEATED)
    (hfkeys : ((flatPairsItems ro.elem.repetition_type [] cs).map
      Prod.fst).Nodup)
    (hcompat : ∀ pr ∈ flatPairsItems ro.elem.repetition_type [] cs,
      assocLookup m0 pr.1 = none ∨ assocLookup m0 pr.1 = some pr.2)
    (h : flatten fuel st 0 0 [] = some st')
    (hentry : assocLookup cs k = some c)
    (hkids : ftKids c ≠ [])
    (hclm : ¬((ftElem c).converted_type = some ConvertedType.LIST ∨
      (ftElem c).converted_type = some ConvertedType.MAP))
    (hcrep : (ftElem c).repetition_type ≠ some FieldRepetitionType.REPEATED)
    (hchild : assocLookup (ftKids c) k2 = some leaf)
    (hleaf : ftKids leaf = []) :
    ∃ idx, childrenOf? st' 0 = some idx ∧
      isflatOf st' (ftId c) = some true ∧
      assocLookup idx k = some (ftId c) ∧
      assocLookup idx (dotJoin [k, k2]) = some (ftId leaf) := by
  have hrun := flatten_run_top hro hrm hmap hrepr hroot h
  have hm0keys : (m0.map Prod.fst).Nodup := by
    have h1 : (cs.map (fun q => (q.1, ftId q.2))).map Prod.fst =
        cs.map Prod.fst := by
      rw [List.map_map]
      rfl
    rw [hmap, h1]
    exact keysOK_nodup hkeys
  have hchar := insertAll_char
    (flatPairsItems ro.elem.repetition_type [] cs) m0 hm0keys hfkeys hcompat
  have hpath : pathInItems cs [k, k2] = some leaf := by
    have hinner : pathInItems (ftKids c) [k2] = some leaf := by
      simp only [pathInItems, hchild, List.isEmpty_nil, if_true]
    simp only [pathInItems, hentry]
    rw [if_neg (by simp)]
    exact hinner
  have hok : okPath cs [k, k2] = true :=
    okPath_cons_build hentry hcrep hclm (okPath_single _ _)
  have hPmem := pairs_mem_of_path [k, k2] cs ro.elem.repetition_type []
    leaf hkeys hrrep hpath hleaf hok
  rw [List.nil_append] at hPmem
  have hm0ne : ∀ pr ∈ m0, pr.2 ≠ ftId leaf := by
    intro pr hpr
    refine m0_vals_ne_deep hids (by simp) hpath pr ?_
    rw [← hmap]
    exact hpr
  have hm0none : assocLookup m0 (dotJoin [k, k2]) = none := by
    rcases hcompat _ hPmem with hnone | hsome
    · exact hnone
    · exact absurd rfl (hm0ne _ (assocLookup_mem hsome))
  have hm0look : assocLookup m0 k = some (ftId c) := by
    rw [hmap, assocLookup_map, hentry]
    rfl
  refine ⟨insertAll m0 (flatPairsItems ro.elem.repetition_type [] cs),
    hrun.1, ?_, ?_, ?_⟩
  · exact hrun.2 (ftId c) (marks_mem_struct hentry hrrep hkids hclm)
  · rw [hchar]
    exact assocLookup_append_some hm0look
  · rw [hchar, assocLookup_append_none hm0none]
    refine assocLookup_of_mem_nodup ?_
      (List.mem_filter.mpr ⟨hPmem, by rw [hm0none]; rfl⟩)
    have hsub : (((flatPairsItems ro.elem.repetition_type [] cs).filter
          (fun pr => (assocLookup m0 pr.1).isNone)).map Prod.fst).Sublist
        ((flatPairsItems ro.elem.repetition_type [] cs).map Prod.fst) :=
      List.Sublist.map Prod.fst (List.filter_sublist _)
    exact List.Nodup.sublist hsub hfkeys

/-- Witness for C5 (amended): in the `stSX` scenario the struct `s` is
marked `isflat`, the flat index contains `s.x` mapped to the leaf, and the
entry `s` for the struct itself is still present. -/
theorem C5_struct_flag_and_leftover_entry_witness :
    ∃ idx, childrenOf? stSXflat 0 = some idx ∧
      isflatOf stSXflat (ftId (FT.node 1
        (seGroup "s" 1 (some FieldRepetitionType.REQUIRED))
        [("x", leafX)])) = some true ∧
      assocLookup idx "s" = some (ftId (FT.node 1
        (seGroup "s" 1 (some FieldRepetitionType.REQUIRED))
        [("x", leafX)])) ∧
      assocLookup idx (dotJoin ["s", "x"]) = some (ftId leafX) :=
  C5_struct_flag_and_leftover_entry 10 stSX stSXflat csSX [("s", 1)]
    ⟨seGroup "root" 1, some [("s", 1)], false⟩ "s" "x"
    (FT.node 1 (seGroup "s" 1 (some FieldRepetitionType.REQUIRED))
      [("x", leafX)]) leafX
    (by decide) (by decide) (by decide) (by decide) (by decide) (by decide)
    (by decide) (by decide)
    (by simp only [flatPairsItems_eq_pairsOf]; decide)
    (by simp only [flatPairsItems_eq_pairsOf]; decide)
    (by decide) rfl (by rw [ftKids_node]; simp) (by decide) (by decide)
    rfl rfl

theorem reprB_of_lookup : ∀ {cs : List (String × FT)} {st : Store},
    reprListB st cs = true → ∀ {k : String} {c : FT},
    assocLookup cs k = some c → reprB st c = true := by
  intro cs
  induction cs with
  | nil => intro st _ k c h; cases h
  | cons q rest ih =>
    intro st hr k c hl
    obtain ⟨k1, c1⟩ := q
    obtain ⟨h1, h2⟩ := reprListB_cons hr
    simp only [assocLookup] at hl
    by_cases hk : k1 = k
    · rw [if_pos hk] at hl
      injection hl with hl
      subst hl
      exact h1
    · rw [if_neg hk] at hl
      exact ih h2 hl

theorem reprB_of_path : ∀ (p : List String) {cs : List (String × FT)}
    {st : Store} {c : FT}, reprListB st cs = true →
    pathInItems cs p = some c → reprB st c = true := by
  intro p
  induction p with
  | nil => intro cs st c _ hp; simp [pathInItems] at hp
  | cons k rest ih =>
    intro cs st c hr hp
    cases hl : assocLookup cs k with
    | none =>
      simp only [pathInItems, hl] at hp
      exact Option.noConfusion hp
    | some c0 =>
      simp only [pathInItems, hl] at hp
      have hc0 := reprB_of_lookup hr hl
      by_cases hre : rest = []
      · subst hre
        simp only [List.isEmpty_nil, if_true] at hp
        injection hp with hp
        subst hp
        exact hc0
      · rw [if_neg (by simp [List.isEmpty_iff, hre])] at hp
        cases c0 with
        | node i e ccs =>
          obtain ⟨o, _, _, _, hlc⟩ := reprB_node hc0
          rw [ftKids_node] at hp
          exact ih hlc hp

theorem ftIds_path_sub : ∀ (p : List String) {cs : List (String × FT)}
    {c : FT}, pathInItems cs p = some c →
    ∀ x ∈ ftIds c, x ∈ ftIdsList cs := by
  intro p
  induction p with
  | nil => intro cs c hp; simp [pathInItems] at hp
  | cons k rest ih =>
    intro cs c hp x hx
    cases hl : assocLookup cs k with
    | none =>
      simp only [pathInItems, hl] at hp
      exact Option.noConfusion hp
    | some c0 =>
      simp only [pathInItems, hl] at hp
      by_cases hre : rest = []
      · subst hre
        simp only [List.isEmpty_nil, if_true] at hp
        injection hp with hp
        subst hp
        exact ftIds_sub_of_lookup hl x hx
      · rw [if_neg (by simp [List.isEmpty_iff, hre])] at hp
        refine ftIds_sub_of_lookup hl x ?_
        cases c0 with
        | node i e ccs =>
          rw [ftKids_node] at hp
          rw [ftIds_node]
          exact List.mem_cons_of_mem _ (ih hp x hx)

theorem exists_ft_list {R : String → Nat → FT → Prop} :
    ∀ {l : List (String × Nat)},
    (∀ pr ∈ l, ∃ c : FT, ftId c = pr.2 ∧ R pr.1 pr.2 c) →
    ∃ cs2 : List (String × FT),
      l = cs2.map (fun q => (q.1, ftId q.2)) ∧
      ∀ q ∈ cs2, R q.1 (ftId q.2) q.2 := by
  intro l
  induction l with
  | nil => intro _; exact ⟨[], rfl, by simp⟩
  | cons pr rest ih =>
    intro hall
    obtain ⟨c, hc1, hc2⟩ := hall pr (List.mem_cons_self _ _)
    obtain ⟨cs2, he, hR⟩ := ih (fun q hq => hall q (List.mem_cons_of_mem _ hq))
    refine ⟨(pr.1, c) :: cs2, ?_, ?_⟩
    · rw [List.map_cons, ← he, hc1]
    · intro q hq
      rcases List.mem_cons.mp hq with heq | hmem
      · subst heq
        rw [hc1]
        exact hc2
      · exact hR q hmem

theorem reprListB_of_parts : ∀ {a b : List (String × FT)} {st : Store},
    reprListB st a = true → reprListB st b = true →
    reprListB st (a ++ b) = true := by
  intro a
  induction a with
  | nil => intro b st _ hb; exact hb
  | cons q rest ih =>
    intro b st ha hb
    obtain ⟨k, c⟩ := q
    obtain ⟨h1, h2⟩ := reprListB_cons ha
    exact reprListB_cons_build h1 (ih h2 hb)

theorem reprListB_of_forall : ∀ {l : List (String × FT)} {st : Store},
    (∀ q ∈ l, reprB st q.2 = true) → reprListB st l = true := by
  intro l
  induction l with
  | nil => intro st _; rw [reprListB]
  | cons q rest ih =>
    intro st hall
    obtain ⟨k, c⟩ := q
    exact reprListB_cons_build (hall (k, c) (List.mem_cons_self _ _))
      (ih (fun q hq => hall q (List.mem_cons_of_mem _ hq)))

theorem ftIdsList_append : ∀ (a b : List (String × FT)),
    ftIdsList (a ++ b) = ftIdsList a ++ ftIdsList b := by
  intro a b
  induction a with
  | nil => rw [ftIdsList]; rfl
  | cons q rest ih =>
    obtain ⟨k, c⟩ := q
    rw [List.cons_append, ftIdsList_cons, ftIdsList_cons, ih,
      List.append_assoc]

theorem ftIdsList_mem_ex : ∀ {l : List (String × FT)} {x : Nat},
    x ∈ ftIdsList l → ∃ q ∈ l, x ∈ ftIds q.2 := by
  intro l
  induction l with
  | nil => intro x hx; rw [ftIdsList] at hx; cases hx
  | cons q rest ih =>
    intro x hx
    obtain ⟨k, c⟩ := q
    rw [ftIdsList_cons, List.mem_append] at hx
    rcases hx with hx | hx
    · exact ⟨(k, c), List.mem_cons_self _ _, hx⟩
    · obtain ⟨q, hq, hq2⟩ := ih hx
      exact ⟨q, List.mem_cons_of_mem _ hq, hq2⟩

theorem flatPairsItems_append (rep : Option FieldRepetitionType)
    (nps : List String) : ∀ (a b : List (String × FT)),
    flatPairsItems rep nps (a ++ b) =
      flatPairsItems rep nps a ++ flatPairsItems rep nps b := by
  intro a b
  induction a with
  | nil => rw [flatPairsItems_nil]; rfl
  | cons q rest ih =>
    obtain ⟨k, c⟩ := q
    rw [List.cons_append, flatPairsItems_cons, flatPairsItems_cons, ih,
      List.append_assoc]

theorem pairs_of_shallow {rep : Option FieldRepetitionType}
    (hrep : rep ≠ some FieldRepetitionType.REPEATED) :
    ∀ {l : List (String × FT)},
    (∀ q ∈ l, ftKids q.2 = [] ∨
      ((ftElem q.2).converted_type = some ConvertedType.LIST ∨
       (ftElem q.2).converted_type = some ConvertedType.MAP)) →
    flatPairsItems rep [] l = l.map (fun q => (q.1, ftId q.2)) := by
  intro l
  induction l with
  | nil => intro _; rw [flatPairsItems_nil]; rfl
  | cons q rest ih =>
    intro hall
    obtain ⟨k, c⟩ := q
    rw [flatPairsItems_cons, List.map_cons,
      ih (fun q hq => hall q (List.mem_cons_of_mem _ hq))]
    have hhd := hall (k, c) (List.mem_cons_self _ _)
    cases c with
    | node i e ccs =>
      have hc : contribOf rep [] k (FT.node i e ccs) = [(k, i)] := by
        rcases hhd with hkids | hlm
        · rw [ftKids_node] at hkids
          subst hkids
          rw [contribOf_leaf [] k i e hrep, List.nil_append, dotJoin_single]
        · rw [ftElem_node] at hlm
          by_cases hccs : ccs = []
          · subst hccs
            rw [contribOf_leaf [] k i e hrep, List.nil_append,
              dotJoin_single]
          · rw [contribOf_lm [] k i e hrep hccs hlm, List.nil_append,
              dotJoin_single]
      rw [hc, ftId_node]
      rfl

/-- **C7.**  Flattening is idempotent: a second `flatten(schema, root)` run
on the already flattened store leaves the flat column index exactly as the
first run produced it.  Every pair the second run inserts — original
entries re-walked through structs, plus the leaf and `LIST`/`MAP` entries
the first run registered — is already present with the same value, and the
`OrderedDict` assignment of an existing key to the same value is the
identity. -/
theorem C7_flatten_idempotent (fuel fuel2 : Nat) (st st1 st2 : Store)
    (cs : List (String × FT)) (m0 : List (String × Nat)) (ro : Obj)
    (hro : st[0]? = some ro) (hrm : ro.children = some m0)
    (hmap : m0 = cs.map (fun q => (q.1, ftId q.2)))
    (hrepr : reprListB st cs = true)
    (hroot : (0 : Nat) ∉ ftIdsList cs)
    (hids : (ftIdsList cs).Nodup)
    (hkeys : keysOKb cs = true)
    (hrrep : ro.elem.repetition_type ≠ some FieldRepetitionType.REPEATED)
    (hfkeys : ((flatPairsItems ro.elem.repetition_type [] cs).map
      Prod.fst).Nodup)
    (hcompat : ∀ pr ∈ flatPairsItems ro.elem.repetition_type [] cs,
      assocLookup m0 pr.1 = none ∨ assocLookup m0 pr.1 = some pr.2)
    (h1 : flatten fuel st 0 0 [] = some st1)
    (h2 : flatten fuel2 st1 0 0 [] = some st2) :
    childrenOf? st2 0 = childrenOf? st1 0 := by
  have hrun1 := flatten_run_top hro hrm hmap hrepr hroot h1
  have hch1 := hrun1.1
  have hm0keys : (m0.map Prod.fst).Nodup := by
    have he : (cs.map (fun q => (q.1, ftId q.2))).map Prod.fst =
        cs.map Prod.fst := by
      rw [List.map_map]
      rfl
    rw [hmap, he]
    exact keysOK_nodup hkeys
  have hchar := insertAll_char
    (flatPairsItems ro.elem.repetition_type [] cs) m0 hm0keys hfkeys hcompat
  have hfr1 : FrameOK st st1 0 := (flatten_frame_aux fuel).1 _ _ _ _ _ h1
  have hfreshknd : (((flatPairsItems ro.elem.repetition_type [] cs).filter
        (fun pr => (assocLookup m0 pr.1).isNone)).map Prod.fst).Nodup := by
    have hsub : (((flatPairsItems ro.elem.repetition_type [] cs).filter
          (fun pr => (assocLookup m0 pr.1).isNone)).map Prod.fst).Sublist
        ((flatPairsItems ro.elem.repetition_type [] cs).map Prod.fst) :=
      List.Sublist.map Prod.fst (List.filter_sublist _)
    exact List.Nodup.sublist hsub hfkeys
  have hidxknd : ((insertAll m0
      (flatPairsItems ro.elem.repetition_type [] cs)).map Prod.fst).Nodup := by
    rw [hchar, List.map_append, List.nodup_append]
    refine ⟨hm0keys, hfreshknd, ?_⟩
    intro a ha hb
    obtain ⟨pr, hpr, hpre⟩ := List.mem_map.mp hb
    have hcond := (List.mem_filter.mp hpr).2
    have hnone : assocLookup m0 pr.1 = none :=
      Option.isNone_iff_eq_none.mp hcond
    refine assocLookup_none_not_mem hnone ?_
    rw [hpre]
    exact ha
  have hlookup_fresh : ∀ pr ∈ flatPairsItems ro.elem.repetition_type [] cs,
      assocLookup m0 pr.1 = none →
      assocLookup (insertAll m0
        (flatPairsItems ro.elem.repetition_type [] cs)) pr.1 =
        some pr.2 := by
    intro pr hpr hnone
    rw [hchar, assocLookup_append_none hnone]
    exact assocLookup_of_mem_nodup hfreshknd
      (List.mem_filter.mpr ⟨hpr, by rw [hnone]; rfl⟩)
  have hPin : ∀ pr ∈ flatPairsItems ro.elem.repetition_type [] cs,
      assocLookup (insertAll m0
        (flatPairsItems ro.elem.repetition_type [] cs)) pr.1 =
        some pr.2 := by
    intro pr hpr
    rcases hcompat pr hpr with hnone | hsome
    · exact hlookup_fresh pr hpr hnone
    · rw [hchar]
      exact assocLookup_append_some hsome
  have hfreshsub : ∀ pr ∈ (flatPairsItems ro.elem.repetition_type []
        cs).filter (fun pr => (assocLookup m0 pr.1).isNone),
      ∃ c : FT, ftId c = pr.2 ∧
        (reprB st1 c = true ∧ (0 : Nat) ∉ ftIds c ∧
          (ftKids c = [] ∨
            ((ftElem c).converted_type = some ConvertedType.LIST ∨
             (ftElem c).converted_type = some ConvertedType.MAP))) := by
    intro pr hpr
    have hprP := (List.mem_filter.mp hpr).1
    obtain ⟨p', c', hp', _, h2', _, hcls⟩ :=
      path_of_pairs_mem cs ro.elem.repetition_type [] pr hkeys hprP
    have hrp : reprB st c' = true := reprB_of_path p' hrepr hp'
    have hnotin : (0 : Nat) ∉ ftIds c' :=
      fun hin => hroot (ftIds_path_sub p' hp' 0 hin)
    exact ⟨c', h2'.symm, reprB_mono c' hfr1 hnotin hrp, hnotin, hcls⟩
  obtain ⟨fresh2, hfe, hfR⟩ := exists_ft_list
    (R := fun _ _ c => reprB st1 c = true ∧ (0 : Nat) ∉ ftIds c ∧
      (ftKids c = [] ∨
        ((ftElem c).converted_type = some ConvertedType.LIST ∨
         (ftElem c).converted_type = some ConvertedType.MAP))) hfreshsub
  obtain ⟨ro1, hro1, hrm1⟩ := childrenOf?_inv hch1
  have hel : ro1.elem = ro.elem := by
    have hfe2 := hfr1.2.2 0
    rw [hro1, hro] at hfe2
    simpa using hfe2
  have hidxmap : insertAll m0 (flatPairsItems ro.elem.repetition_type [] cs)
      = (cs ++ fresh2).map (fun q => (q.1, ftId q.2)) := by
    rw [hchar, List.map_append, ← hmap, ← hfe]
  have hrl2 : reprListB st1 (cs ++ fresh2) = true :=
    reprListB_of_parts (reprListB_mono cs hfr1 hroot hrepr)
      (reprListB_of_forall (fun q hq => (hfR q hq).1))
  have hroot2 : (0 : Nat) ∉ ftIdsList (cs ++ fresh2) := by
    rw [ftIdsList_append, List.mem_append]
    rintro (hin | hin)
    · exact hroot hin
    · obtain ⟨q, hq, hq2⟩ := ftIdsList_mem_ex hin
      exact (hfR q hq).2.1 hq2
  cases fuel2 with
  | zero => simp [flatten] at h2
  | succ f2 =>
    simp only [flatten, hro1, hrm1, if_true] at h2
    rw [hidxmap, hel] at h2
    have hres := (flatten_spec_aux f2).2 st1 (cs ++ fresh2)
      ro.elem.repetition_type 0 [] st2
      (insertAll m0 (flatPairsItems ro.elem.repetition_type [] cs)) h2
      hrl2 hroot2 hch1
    have hP2 : ∀ pr ∈ flatPairsItems ro.elem.repetition_type []
        (cs ++ fresh2),
        assocLookup (insertAll m0
          (flatPairsItems ro.elem.repetition_type [] cs)) pr.1 =
          some pr.2 := by
      intro pr hpr
      rw [flatPairsItems_append] at hpr
      rcases List.mem_append.mp hpr with hpr | hpr
      · exact hPin pr hpr
      · rw [pairs_of_shallow hrrep (fun q hq => (hfR q hq).2.2),
          ← hfe] at hpr
        have hprP := (List.mem_filter.mp hpr).1
        have hcond := (List.mem_filter.mp hpr).2
        exact hlookup_fresh pr hprP (Option.isNone_iff_eq_none.mp hcond)
    have hid := insertAll_id hidxknd hP2
    rw [hres.1, hid, hch1]

/-- Witness for C7: in the `stSX` scenario a second flatten run on the
flattened store succeeds and returns the store unchanged, so the flat index
is exactly the one the first run produced. -/
theorem C7_flatten_idempotent_witness :
    flatten 10 stSXflat 0 0 [] = some stSXflat ∧
    childrenOf? stSXflat 0 = childrenOf? stSXflat 0 :=
  ⟨by decide, C7_flatten_idempotent 10 10 stSX stSXflat stSXflat csSX
    [("s", 1)] ⟨seGroup "root" 1, some [("s", 1)], false⟩
    (by decide) (by decide) (by decide) (by decide) (by decide) (by decide)
    (by decide) (by decide)
    (by simp only [flatPairsItems_eq_pairsOf]; decide)
    (by simp only [flatPairsItems_eq_pairsOf]; decide)
    (by decide) (by decide)⟩

end Fastparquet
